import Mathlib

/-! # DAA-2025 / Atharva / boyer-moore(case-1).cpp

A shallow embedding of the sensor-event pattern-alerting pipeline:
`BoyerMoore`, `PatternTracker`, `EventBuffer`.

Modelling conventions.
* A `std::string` is a `List Byte`; `char` values are compared for equality and
  cast to `unsigned char` for table indexing, so a byte is a `Fin 256`.
* A C++ `int` is a Lean `Int`.  Signed overflow is undefined behaviour and is
  outside the model; `(int)s.size()` is the length of the list.
* `v[k]` on a vector or string is `readAt v k` / `writeAt v k x`, which are
  `none` when `k` is out of range, so every function that indexes returns an
  `Option`.
* A `while` loop is a recursive function on a fuel argument; running out of
  fuel is `none`.  The callers pass the fuel, and the theorems show that the
  fuel passed is enough.
-/

namespace BoyerMooreCase1

/-- One `char` of a `std::string`, seen as `unsigned char`. -/
abbrev Byte := Fin 256

/-- Read `v[k]` with an `int` index; `none` when out of range. -/
def readAt {α : Type} (v : List α) (k : Int) : Option α :=
  if 0 ≤ k then v[k.toNat]? else none

/-- Write `v[k] = x` with an `int` index; `none` when out of range. -/
def writeAt {α : Type} (v : List α) (k : Int) (x : α) : Option (List α) :=
  if 0 ≤ k ∧ k < (v.length : Int) then some (v.set k.toNat x) else none

/-- The data members of `class BoyerMoore` (`prefix` is spelled `isPrefix`). -/
structure BoyerMoore where
  pat : List Byte
  m : Int
  badChar : List Int
  suffix : List Int
  isPrefix : List Bool
deriving DecidableEq

namespace BoyerMoore

/-- `for (int i = 0; i < 256; ++i) badChar[i] = -1;` -/
def clearBadChar (badChar : List Int) : Option (List Int) :=
  (List.range 256).foldlM (fun bc (i : Nat) => writeAt bc (i : Int) (-1)) badChar

/-- `for (int i = 0; i < m; ++i) badChar[(unsigned char)pat[i]] = i;` -/
def fillBadChar (pat : List Byte) (m : Int) (badChar : List Int) : Option (List Int) :=
  (List.range m.toNat).foldlM
    (fun bc (i : Nat) => do
      let c ← readAt pat (i : Int)
      writeAt bc (c.val : Int) (i : Int))
    badChar

/-- `BoyerMoore::preprocessBadChar`. -/
def preprocessBadChar (bm : BoyerMoore) : Option BoyerMoore := do
  let bc ← clearBadChar bm.badChar
  let bc ← fillBadChar bm.pat bm.m bc
  pure { bm with badChar := bc }

/-- First loop of `preprocessGoodSuffix`:
`for (int i = 0; i < m; ++i) { suffix[i] = -1; prefix[i] = false; }` -/
def clearGoodSuffix (m : Int) (suffix : List Int) (isPrefix : List Bool) :
    Option (List Int × List Bool) :=
  (List.range m.toNat).foldlM
    (fun (sp : List Int × List Bool) (i : Nat) => do
      let s ← writeAt sp.1 (i : Int) (-1)
      let p ← writeAt sp.2 (i : Int) false
      pure (s, p))
    (suffix, isPrefix)

/-- Inner loop of `preprocessGoodSuffix`:
`while (j >= 0 && pat[j] == pat[m - 1 - k]) { --j; ++k; suffix[k] = j + 1; }`.
Returns the final `(j, k, suffix)`. -/
def gsInner (pat : List Byte) (m : Int) :
    Nat → Int → Int → List Int → Option (Int × Int × List Int)
  | 0, _, _, _ => none
  | fuel + 1, j, k, suffix =>
    if 0 ≤ j then do
      let a ← readAt pat j
      let b ← readAt pat (m - 1 - k)
      if a = b then do
        let j1 := j - 1
        let k1 := k + 1
        let suffix1 ← writeAt suffix k1 (j1 + 1)
        gsInner pat m fuel j1 k1 suffix1
      else pure (j, k, suffix)
    else pure (j, k, suffix)

/-- Body of the second loop of `preprocessGoodSuffix` for one `i`. -/
def gsOuterBody (pat : List Byte) (m : Int) (sp : List Int × List Bool) (i : Nat) :
    Option (List Int × List Bool) := do
  let (j, k, suffix) ← gsInner pat m (i + 2) (i : Int) 0 sp.1
  if j = -1 then do
    let p ← writeAt sp.2 k true
    pure (suffix, p)
  else pure (suffix, sp.2)

/-- Second loop of `preprocessGoodSuffix`: `for (int i = 0; i < m - 1; ++i) { ... }`. -/
def fillGoodSuffix (pat : List Byte) (m : Int) (suffix : List Int) (isPrefix : List Bool) :
    Option (List Int × List Bool) :=
  (List.range (m - 1).toNat).foldlM (gsOuterBody pat m) (suffix, isPrefix)

/-- `BoyerMoore::preprocessGoodSuffix`. -/
def preprocessGoodSuffix (bm : BoyerMoore) : Option BoyerMoore := do
  let (s, p) ← clearGoodSuffix bm.m bm.suffix bm.isPrefix
  let (s, p) ← fillGoodSuffix bm.pat bm.m s p
  pure { bm with suffix := s, isPrefix := p }

/-- The constructor `BoyerMoore::BoyerMoore(const std::string &pattern)`. -/
def new (pattern : List Byte) : Option BoyerMoore := do
  let m : Int := pattern.length
  let bm : BoyerMoore :=
    { pat := pattern, m := m, badChar := List.replicate 256 (-1),
      suffix := List.replicate m.toNat (-1), isPrefix := List.replicate m.toNat false }
  let bm ← preprocessBadChar bm
  preprocessGoodSuffix bm

/-- The `for (int r = j + 2; r <= m - 1; ++r) if (prefix[m - r]) return r;` loop of
`moveByGoodSuffix`, followed by `return m;`. -/
def gsScan (bm : BoyerMoore) : Nat → Int → Option Int
  | 0, _ => none
  | fuel + 1, r =>
    if r ≤ bm.m - 1 then do
      let p ← readAt bm.isPrefix (bm.m - r)
      if p then pure r else gsScan bm fuel (r + 1)
    else pure bm.m

/-- `BoyerMoore::moveByGoodSuffix`. -/
def moveByGoodSuffix (bm : BoyerMoore) (j : Int) : Option Int := do
  let k := bm.m - 1 - j
  let s ← readAt bm.suffix k
  if s ≠ -1 then pure (j - s + 1)
  else gsScan bm (bm.m.toNat + 1) (j + 2)

/-- The comparison loop of `searchAll`:
`while (j >= 0 && text[i + j] == pat[j]) --j;`.  Returns the final `j`. -/
def matchLoop (bm : BoyerMoore) (text : List Byte) (i : Int) : Nat → Int → Option Int
  | 0, _ => none
  | fuel + 1, j =>
    if 0 ≤ j then do
      let a ← readAt text (i + j)
      let b ← readAt bm.pat j
      if a = b then matchLoop bm text i fuel (j - 1) else pure j
    else pure j

/-- The alignment loop of `searchAll`: `while (i <= n - m) { ... }`. -/
def searchLoop (bm : BoyerMoore) (text : List Byte) (n : Int) :
    Nat → Int → List Int → Option (List Int)
  | 0, _, _ => none
  | fuel + 1, i, res =>
    if i ≤ n - bm.m then do
      let j ← matchLoop bm text i (bm.m.toNat + 1) (bm.m - 1)
      if j < 0 then
        searchLoop bm text n fuel (i + bm.m) (res ++ [i])
      else do
        let c ← readAt text (i + j)
        let bc ← readAt bm.badChar (c.val : Int)
        let bcShift := j - bc
        let gsShift ← if j < bm.m - 1 then moveByGoodSuffix bm j else pure 0
        searchLoop bm text n fuel (i + max 1 (max bcShift gsShift)) res
    else pure res

/-- `BoyerMoore::searchAll`. -/
def searchAll (bm : BoyerMoore) (text : List Byte) : Option (List Int) :=
  let n : Int := text.length
  if bm.m = 0 ∨ n < bm.m then pure []
  else searchLoop bm text n (text.length + 1) 0 []

end BoyerMoore

/-- The naive left-to-right scan of the specification, from start position `i`:
on `T[i..i+m) == P` record `i` and resume at `i + m`, otherwise resume at `i + 1`. -/
def naiveFrom (P T : List Byte) (i : Nat) : List Int :=
  if h : 0 < P.length ∧ i + P.length ≤ T.length then
    if (T.drop i).take P.length = P then (i : Int) :: naiveFrom P T (i + P.length)
    else naiveFrom P T (i + 1)
  else []
termination_by T.length + 1 - i
decreasing_by all_goals omega

/-- The greedy leftmost non-overlapping occurrences of `P` in `T`. -/
def naiveSearch (P T : List Byte) : List Int := naiveFrom P T 0

/-! ## `SensorEvent`, `PatternTracker`, `EventBuffer`

Every member function of `PatternTracker` and `EventBuffer` that touches the state runs
under the object's mutex, so a call that completes is one atomic step on the state. -/

/-- `struct SensorEvent`; the time point is its tick count. -/
structure SensorEvent where
  ts : Int
  code : List Byte
  sensorId : Int
deriving DecidableEq

/-- The data members of `class PatternTracker`; the deque `windowCounts` has its front at
the head of the list. -/
structure PatternTracker where
  pattern : List Byte
  bm : BoyerMoore
  windowSize : Int
  alertThreshold : Int
  windowCounts : List Int
  occurrences : Int
deriving DecidableEq

namespace PatternTracker

/-- The constructor `PatternTracker(p, windowSizeEvents, alertThreshold)`. -/
def new (p : List Byte) (windowSizeEvents alertThreshold : Int) : Option PatternTracker := do
  let bm ← BoyerMoore.new p
  pure { pattern := p, bm := bm, windowSize := windowSizeEvents,
         alertThreshold := alertThreshold, windowCounts := [], occurrences := 0 }

/-- `PatternTracker::pushEventCount`. -/
def pushEventCount (t : PatternTracker) (c : Int) : PatternTracker :=
  let windowCounts := t.windowCounts ++ [c]
  let occurrences := t.occurrences + c
  if ((windowCounts.length : Int) > t.windowSize) then
    { t with
      windowCounts := windowCounts.tail
      occurrences := occurrences - windowCounts.head (by simp [windowCounts]) }
  else
    { t with windowCounts := windowCounts, occurrences := occurrences }

/-- `PatternTracker::checkAlert`. -/
def checkAlert (t : PatternTracker) : Bool :=
  decide (t.occurrences ≥ t.alertThreshold) && decide (t.alertThreshold > 0)

/-- `PatternTracker::processEvent`: the new state and the returned flag. -/
def processEvent (t : PatternTracker) (eventCode : List Byte) :
    Option (PatternTracker × Bool) := do
  let matchList ← t.bm.searchAll eventCode
  let count : Int := matchList.length
  let t1 := t.pushEventCount count
  pure (t1, t1.checkAlert)

/-- `PatternTracker::name`. -/
def name (t : PatternTracker) : List Byte := t.pattern

/-- `PatternTracker::currentWindowCount`. -/
def currentWindowCount (t : PatternTracker) : Int := t.occurrences

/-- A sequence of `processEvent` calls on one tracker: the final state and the flags
returned, in call order. -/
def feed : PatternTracker → List (List Byte) → Option (PatternTracker × List Bool)
  | t, [] => some (t, [])
  | t, code :: rest => do
    let (t1, b) ← t.processEvent code
    let (t2, bs) ← feed t1 rest
    pure (t2, b :: bs)

/-- The matcher member is the one the constructor built from the pattern member. -/
def Valid (t : PatternTracker) : Prop := BoyerMoore.new t.pattern = some t.bm

/-- The window invariant of the specification. -/
def WindowInv (t : PatternTracker) : Prop :=
  t.occurrences = t.windowCounts.sum ∧ (t.windowCounts.length : Int) ≤ t.windowSize

end PatternTracker

/-- The data members of `class EventBuffer` (mutex and condition variables left out); the
deque `q` has its front at the head of the list. -/
structure EventBuffer where
  q : List SensorEvent
  cap : Nat
  terminated : Bool
deriving DecidableEq

namespace EventBuffer

/-- The constructor `EventBuffer(size_t capacity)`. -/
def new (capacity : Nat) : EventBuffer :=
  { q := [], cap := capacity, terminated := false }

/-- `EventBuffer::push`.  The call completes only in a state where the wait predicate
`q.size() < cap` holds; `none` means the call stays blocked. -/
def push (b : EventBuffer) (ev : SensorEvent) : Option EventBuffer :=
  if b.q.length < b.cap then some { b with q := b.q ++ [ev] } else none

/-- `EventBuffer::pop(out)`.  The call completes only in a state where the wait predicate
`!q.empty() || terminated` holds; `none` means the call stays blocked.  A completed call
gives the new buffer, the new value of `out` and the returned flag. -/
def pop (b : EventBuffer) (out : SensorEvent) : Option (EventBuffer × SensorEvent × Bool) :=
  if !b.q.isEmpty || b.terminated then
    match b.q with
    | [] => some (b, out, false)
    | front :: rest => some ({ b with q := rest }, front, true)
  else none

/-- `EventBuffer::terminate`. -/
def terminate (b : EventBuffer) : EventBuffer :=
  { b with terminated := true }

/-- A call on the buffer made by some thread. -/
inductive Op where
  | push (ev : SensorEvent)
  | pop
  | terminate
deriving DecidableEq

/-- A buffer together with the history of its completed calls: the events pushed, in push
order, and the events returned by successful pops, in pop order. -/
structure Run where
  buf : EventBuffer
  pushed : List SensorEvent
  popped : List SensorEvent
deriving DecidableEq

/-- The start of a run: the empty buffer of capacity `capacity`. -/
def Run.init (capacity : Nat) : Run :=
  { buf := EventBuffer.new capacity, pushed := [], popped := [] }

/-- One attempted call.  A call that is blocked in the current state does not complete and
leaves everything as it is. -/
def Run.step (r : Run) : Op → Run
  | Op.push ev =>
    match r.buf.push ev with
    | some b => { r with buf := b, pushed := r.pushed ++ [ev] }
    | none => r
  | Op.pop =>
    match r.buf.pop ev0 with
    | some (b, out, true) => { r with buf := b, popped := r.popped ++ [out] }
    | some (b, _, false) => { r with buf := b }
    | none => r
  | Op.terminate => { r with buf := r.buf.terminate }
where
  /-- The content of the consumer's `out` variable before the call. -/
  ev0 : SensorEvent := { ts := 0, code := [], sensorId := 0 }

/-- A sequence of attempted calls. -/
def Run.steps (r : Run) (ops : List Op) : Run := ops.foldl Run.step r

/-- `n` consecutive `pop(out)` calls by one consumer: the final buffer and `out`, and the
flag returned by each call together with the value of `out` after it. -/
def pops : Nat → EventBuffer → SensorEvent →
    Option (EventBuffer × SensorEvent × List (SensorEvent × Bool))
  | 0, b, out => some (b, out, [])
  | n + 1, b, out => do
    let (b1, out1, ok) ← b.pop out
    let (b2, out2, rs) ← pops n b1 out1
    pure (b2, out2, (out1, ok) :: rs)

end EventBuffer

/-! ## Reference descriptions of the tables and of an occurrence -/

/-- `P` occurs in `T` at start position `i`: `T[i..i+m) == P`. -/
def Occ (P T : List Byte) (i : Nat) : Prop := (T.drop i).take P.length = P

instance (P T : List Byte) (i : Nat) : Decidable (Occ P T i) := by
  unfold Occ; infer_instance

/-- The largest index below `t` at which `P` holds the byte value `c`, or `-1`. -/
def lastIdx (P : List Byte) (c : Nat) : Nat → Int
  | 0 => -1
  | t + 1 => if P[t]?.map Fin.val = some c then (t : Int) else lastIdx P c t

/-- The bad-character table after the first `t` pattern positions have been entered. -/
def bcTable (P : List Byte) (t : Nat) : List Int :=
  (List.range 256).map (fun c => lastIdx P c t)

/-- The `k` bytes of `P` that end at index `i` equal the last `k` bytes of `P`. -/
def SufAt (P : List Byte) (i k : Nat) : Prop :=
  k ≤ i + 1 ∧ ∀ t, t < k → P[i - t]? = P[P.length - 1 - t]?

instance (P : List Byte) (i k : Nat) : Decidable (SufAt P i k) := by
  unfold SufAt; infer_instance

/-- Entry `k` of `suffix` after the outer loop of `preprocessGoodSuffix` has run for
`i = 0 .. t-1`: the start of the right-most copy, ending at an index below `t`, of the
length-`k` suffix, or `-1`. -/
def sufVal (P : List Byte) (k : Nat) : Nat → Int
  | 0 => -1
  | t + 1 => if 1 ≤ k ∧ SufAt P t k then (t : Int) - k + 1 else sufVal P k t

/-- Entry `k` of `prefix` after the outer loop has run for `i = 0 .. t-1`. -/
def pfxVal (P : List Byte) (k t : Nat) : Bool :=
  decide (1 ≤ k ∧ k ≤ t ∧ SufAt P (k - 1) k)

/-- The `suffix` table after `t` rounds of the outer loop. -/
def sufTable (P : List Byte) (t : Nat) : List Int :=
  (List.range P.length).map (fun k => sufVal P k t)

/-- The `prefix` table after `t` rounds of the outer loop. -/
def pfxTable (P : List Byte) (t : Nat) : List Bool :=
  (List.range P.length).map (fun k => pfxVal P k t)

/-- The matcher that the constructor builds for `P`, with the reference tables. -/
def built (P : List Byte) : BoyerMoore :=
  { pat := P, m := (P.length : Int), badChar := bcTable P P.length,
    suffix := sufTable P (P.length - 1), isPrefix := pfxTable P (P.length - 1) }

/-- A copy of `P` moved `d` places to the right agrees with the bytes of `P` after
index `j` wherever the two overlap. -/
def Compat (P : List Byte) (j d : Nat) : Prop :=
  ∀ t, j < t → t < P.length → d ≤ t → P[t - d]? = P[t]?

/-- The expression `BoyerMoore(P).searchAll(T)`: construct the matcher, then search. -/
def bmSearch (P T : List Byte) : Option (List Int) := do
  let bm ← BoyerMoore.new P
  bm.searchAll T

/-- A tracker for pattern `"A"` with window size 3 and threshold 5 whose window is full. -/
def fullTracker : PatternTracker :=
  { pattern := [65], bm := built [65], windowSize := 3, alertThreshold := 5,
    windowCounts := [2, 2, 2], occurrences := 6 }


/-! ## `AlertManager`

`std::cout` is the list of the lines written to it; `emitAlert` writes one line while it
holds `outMu`.  `Clock::now()` is an input: the caller passes the reading, in whole seconds
since the clock's epoch, that each `emitAlert` call sees. -/

/-- The bytes of a string literal of the source. -/
def lit (s : String) : List Byte := s.toList.map (fun c => Fin.ofNat c.toNat)

/-- A natural number in decimal. -/
def natDecimal (n : Nat) : List Byte := (Nat.toDigits 10 n).map (fun c => Fin.ofNat c.toNat)

/-- An `int` or `long long` in decimal, as `operator<<` and `%lld` print it. -/
def decimal (z : Int) : List Byte :=
  if z < 0 then lit "-" ++ natDecimal z.natAbs else natDecimal z.toNat

/-- The `operator<<` chain of `emitAlert`, given the five values it prints. -/
def alertLine (pattern : List Byte) (sensorId : Int) (code : List Byte) (time : Int)
    (windowCount : Int) : List Byte :=
  lit "[ALERT] pattern=" ++ pattern
    ++ lit " sensor=" ++ decimal sensorId
    ++ lit " code=" ++ code
    ++ lit " time=" ++ decimal time
    ++ lit " window_count=" ++ decimal windowCount
    ++ lit "\n"

/-- The data member `trackers` of `class AlertManager`. -/
structure AlertManager where
  trackers : List PatternTracker
deriving DecidableEq

namespace AlertManager

/-- The default-constructed manager. -/
def new : AlertManager := { trackers := [] }

/-- `AlertManager::registerPattern`. -/
def registerPattern (am : AlertManager) (pattern : List Byte) (windowEvents threshold : Int) :
    Option AlertManager := do
  let t ← PatternTracker.new pattern windowEvents threshold
  pure { trackers := am.trackers ++ [t] }

/-- The loop of `getWindowCount` over `trackers`, followed by `return 0;`. -/
def getWindowCountIn : List PatternTracker → List Byte → Int
  | [], _ => 0
  | t :: rest, pattern =>
    if t.name = pattern then t.currentWindowCount else getWindowCountIn rest pattern

/-- `AlertManager::getWindowCount`. -/
def getWindowCount (am : AlertManager) (pattern : List Byte) : Int :=
  getWindowCountIn am.trackers pattern

/-- `AlertManager::emitAlert`: the line written to `std::cout`, where `now` is the clock
reading in seconds. -/
def emitAlert (am : AlertManager) (pattern : List Byte) (ev : SensorEvent) (now : Int) :
    List Byte :=
  alertLine pattern ev.sensorId ev.code now (am.getWindowCount pattern)

/-- The loop `for (auto &t : trackers) { ... }` of `processEvent`: `done` are the trackers
already visited (updated in place), `todo` the ones still to visit, `out` the lines written
so far; `clock k` is the clock reading seen when the tracker at index `k` alerts. -/
def processLoop (ev : SensorEvent) (clock : Nat → Int) :
    List PatternTracker → List PatternTracker → List (List Byte) →
    Option (List PatternTracker × List (List Byte))
  | done, [], out => some (done, out)
  | done, t :: rest, out => do
    let (t1, shouldAlert) ← t.processEvent ev.code
    let out1 :=
      if shouldAlert then
        out ++ [emitAlert { trackers := done ++ t1 :: rest } t1.name ev (clock done.length)]
      else out
    processLoop ev clock (done ++ [t1]) rest out1

/-- `AlertManager::processEvent`: the new manager and the lines written. -/
def processEvent (am : AlertManager) (ev : SensorEvent) (clock : Nat → Int) :
    Option (AlertManager × List (List Byte)) := do
  let (ts, out) ← processLoop ev clock [] am.trackers []
  pure ({ trackers := ts }, out)

/-- A sequence of `registerPattern` calls, one per `(pattern, windowEvents, threshold)`. -/
def registerAll : AlertManager → List (List Byte × Int × Int) → Option AlertManager
  | am, [] => some am
  | am, spec :: rest => do
    let am1 ← am.registerPattern spec.1 spec.2.1 spec.2.2
    registerAll am1 rest

/-- A sequence of `processEvent` calls, as the consumer loop of `main` makes them: the final
manager and, per event, the lines written.  `clock j k` is the clock reading seen when the
tracker at index `k` alerts on event `j`. -/
def feedAll : AlertManager → List SensorEvent → (Nat → Nat → Int) →
    Option (AlertManager × List (List (List Byte)))
  | am, [], _ => some (am, [])
  | am, ev :: rest, clock => do
    let (am1, out) ← am.processEvent ev (clock 0)
    let (am2, outs) ← feedAll am1 rest (fun j => clock (j + 1))
    pure (am2, out :: outs)

end AlertManager

/-- The alert line as the specification gives it: the five labelled fields and nothing
before `pattern=`, then the newline. -/
def specLine (pattern : List Byte) (sensorId : Int) (code : List Byte) (time : Int)
    (windowCount : Int) : List Byte :=
  lit "pattern=" ++ pattern
    ++ lit " sensor=" ++ decimal sensorId
    ++ lit " code=" ++ code
    ++ lit " time=" ++ decimal time
    ++ lit " window_count=" ++ decimal windowCount
    ++ lit "\n"

/-- The tracker a registration creates, with the reference tables in its matcher. -/
def freshTracker (spec : List Byte × Int × Int) : PatternTracker :=
  { pattern := spec.1, bm := built spec.1, windowSize := spec.2.1,
    alertThreshold := spec.2.2, windowCounts := [], occurrences := 0 }

/-- A manager with the patterns `"A"` and `"B"` registered in this order, each with window
size 3 and threshold 1. -/
def managerAB : AlertManager :=
  { trackers := [freshTracker ([65], 3, 1), freshTracker ([66], 3, 1)] }

/-- An event of sensor 7 with code `"AB"`. -/
def eventAB : SensorEvent := { ts := 0, code := [65, 66], sensorId := 7 }

/-- An event of sensor 7 with code `"A"`. -/
def eventA : SensorEvent := { ts := 0, code := [65], sensorId := 7 }

/-- The pattern `"A"` registered twice: window size 1 with threshold 100, then window
size 3 with threshold 2. -/
def duplicateSpecs : List (List Byte × Int × Int) := [([65], 1, 100), ([65], 3, 2)]


/-- The mismatch branch of the alignment loop of `searchAll`: the value of
`std::max(1, std::max(bcShift, gsShift))` at alignment `i` when the comparison loop
stopped at `j ≥ 0`. -/
def BoyerMoore.mismatchShift (bm : BoyerMoore) (text : List Byte) (i j : Int) : Option Int := do
  let c ← readAt text (i + j)
  let bc ← readAt bm.badChar (c.val : Int)
  let bcShift := j - bc
  let gsShift ← if j < bm.m - 1 then BoyerMoore.moveByGoodSuffix bm j else pure 0
  pure (max 1 (max bcShift gsShift))


/-- The alignment loop of `searchAll` with a record of the calls of `moveByGoodSuffix`: the
loop of `searchLoop`, which instead of the occurrences collects, for every call, the
argument `j` and the value returned. -/
def BoyerMoore.searchLoopCalls (bm : BoyerMoore) (text : List Byte) (n : Int) :
    Nat → Int → List (Int × Int) → Option (List (Int × Int))
  | 0, _, _ => none
  | fuel + 1, i, calls =>
    if i ≤ n - bm.m then do
      let j ← BoyerMoore.matchLoop bm text i (bm.m.toNat + 1) (bm.m - 1)
      if j < 0 then
        searchLoopCalls bm text n fuel (i + bm.m) calls
      else do
        let c ← readAt text (i + j)
        let bc ← readAt bm.badChar (c.val : Int)
        let bcShift := j - bc
        let gsShift ← if j < bm.m - 1 then BoyerMoore.moveByGoodSuffix bm j else pure 0
        searchLoopCalls bm text n fuel (i + max 1 (max bcShift gsShift))
          (if j < bm.m - 1 then calls ++ [(j, gsShift)] else calls)
    else pure calls

/-- `BoyerMoore::searchAll` with the record of `searchLoopCalls`. -/
def BoyerMoore.searchAllCalls (bm : BoyerMoore) (text : List Byte) : Option (List (Int × Int)) :=
  let n : Int := text.length
  if bm.m = 0 ∨ n < bm.m then pure []
  else BoyerMoore.searchLoopCalls bm text n (text.length + 1) 0 []

end BoyerMooreCase1

namespace KruskalCase6

open BoyerMooreCase1 (readAt writeAt)

/-! # DAA-2025 / Atharva / kruskal-warehouse(case-6).cpp

A shallow embedding of `DSU` and `WarehouseGraph::computeMST`.

Modelling conventions, in addition to those above.
* The `double` weight of an edge is a rational number: weights are exact and totally
  ordered.
* `std::sort` is not stable and leaves the order of edges of equal weight open, so its
  outcome is a parameter: any permutation of the edges in which no later edge has a smaller
  weight than an earlier one (`SortOutcome`).  The theorems hold for every outcome.
* `resize` with a negative count fails.
-/

/-- `struct Edge`. -/
structure Edge where
  u : Int
  v : Int
  w : ℚ
deriving DecidableEq

/-- The data members of `class DSU`. -/
structure DSU where
  parent : List Int
  rnk : List Int
deriving DecidableEq

/-- `std::vector::resize(k, x)` for a count `k ≥ 0`. -/
def resize {α : Type} (v : List α) (k : Nat) (x : α) : List α :=
  v.take k ++ List.replicate (k - v.length) x

namespace DSU

/-- `DSU::init`. -/
def init (d : DSU) (n : Int) : Option DSU :=
  if n + 1 < 0 then none
  else do
    let parent := resize d.parent (n + 1).toNat 0
    let rnk := resize d.rnk (n + 1).toNat 0
    let parent ← (List.range (n + 1).toNat).foldlM
      (fun p (i : Nat) => writeAt p (i : Int) (i : Int)) parent
    pure { parent := parent, rnk := rnk }

/-- The constructor `DSU(int n)`. -/
def new (n : Int) : Option DSU := init { parent := [], rnk := [] } n

/-- `DSU::find`: the loop `while (parent[x] != x) { parent[x] = parent[parent[x]];
x = parent[x]; }` followed by `return x;`.  Gives the new state and the returned value. -/
def find (d : DSU) : Nat → Int → Option (DSU × Int)
  | 0, _ => none
  | fuel + 1, x => do
    let px ← readAt d.parent x
    if px ≠ x then do
      let ppx ← readAt d.parent px
      let parent ← writeAt d.parent x ppx
      let x1 ← readAt parent x
      find { d with parent := parent } fuel x1
    else pure (d, x)

/-- `DSU::unite`: the new state and the returned flag. -/
def unite (d : DSU) (a b : Int) : Option (DSU × Bool) := do
  let (d1, a1) ← d.find (d.parent.length + 1) a
  let (d2, b1) ← d1.find (d1.parent.length + 1) b
  if a1 = b1 then pure (d2, false)
  else do
    let ra ← readAt d2.rnk a1
    let rb ← readAt d2.rnk b1
    let (a2, b2) := if ra < rb then (b1, a1) else (a1, b1)
    let parent ← writeAt d2.parent b2 a2
    let ra2 ← readAt d2.rnk a2
    let rb2 ← readAt d2.rnk b2
    let rnk ← if ra2 = rb2 then writeAt d2.rnk a2 (ra2 + 1) else pure d2.rnk
    pure ({ parent := parent, rnk := rnk }, true)

end DSU

/-- The data members of `class WarehouseGraph`. -/
structure WarehouseGraph where
  N : Int
  edges : List Edge
deriving DecidableEq

/-- What `std::sort(edges.begin(), edges.end(), cmp)` with `cmp(a, b) = a.w < b.w` may
leave in `edges`: a permutation in which `cmp(b, a)` is false whenever `a` comes before
`b`. -/
def SortOutcome (edges sorted : List Edge) : Prop :=
  sorted.Perm edges ∧ sorted.Pairwise (fun a b => ¬ b.w < a.w)

namespace WarehouseGraph

/-- The constructor `WarehouseGraph(int n)`. -/
def new (n : Int) : WarehouseGraph := { N := n, edges := [] }

/-- `WarehouseGraph::addEdge`. -/
def addEdge (g : WarehouseGraph) (u v : Int) (w : ℚ) : WarehouseGraph :=
  { g with edges := g.edges ++ [{ u := u, v := v, w := w }] }

/-- The loop `for (auto &e : edges) if (dsu.unite(e.u, e.v)) res.push_back(e);`. -/
def mstLoop : DSU → List Edge → List Edge → Option (DSU × List Edge)
  | dsu, [], res => some (dsu, res)
  | dsu, e :: rest, res => do
    let (dsu1, ok) ← dsu.unite e.u e.v
    mstLoop dsu1 rest (if ok then res ++ [e] else res)

/-- `WarehouseGraph::computeMST`, where `sorted` is what `std::sort` left in `edges`: the
graph afterwards and the returned `res`. -/
def computeMST (g : WarehouseGraph) (sorted : List Edge) :
    Option (WarehouseGraph × List Edge) := do
  let dsu ← DSU.new g.N
  let (_, res) ← mstLoop dsu sorted []
  pure ({ g with edges := sorted }, res)

end WarehouseGraph

/-! ## Graph notions for the statement of the claims -/

/-- The edges of `es` connect `a` and `b`: the equivalence relation generated by "some edge
of `es` joins the two". -/
inductive Conn (es : List Edge) : Int → Int → Prop
  | edge (e : Edge) : e ∈ es → Conn es e.u e.v
  | refl (a : Int) : Conn es a a
  | symm {a b : Int} : Conn es a b → Conn es b a
  | trans {a b c : Int} : Conn es a b → Conn es b c → Conn es a c

/-- No edge of `es` closes a cycle: taking any one edge out disconnects its endpoints. -/
def Acyclic (es : List Edge) : Prop :=
  ∀ l1 e l2, es = l1 ++ e :: l2 → ¬ Conn (l1 ++ l2) e.u e.v

/-- The total weight of a list of edges. -/
def weight (es : List Edge) : ℚ := (es.map (·.w)).sum

/-- The edges of `F`, added one after the other to the edges `B`, each join two vertices
that were not connected before. -/
def ForestOver : List Edge → List Edge → Prop
  | _, [] => True
  | B, e :: F => ¬ Conn B e.u e.v ∧ ForestOver (B ++ [e]) F

/-- The parent of `x` in the forest of `d`. -/
def par (d : DSU) (x : Nat) : Nat := ((d.parent[x]?).getD 0).toNat

/-- The rank entry of `x`. -/
def rk (d : DSU) (x : Nat) : Int := (d.rnk[x]?).getD 0

/-- The number of elements whose rank entry is above that of `x`. -/
def lvl (d : DSU) (x : Nat) : Nat :=
  ((Finset.range d.parent.length).filter (fun y => rk d x < rk d y)).card

/-- Follow parents from `x` for at most `fuel` steps. -/
def rootOf (d : DSU) : Nat → Nat → Nat
  | 0, x => x
  | fuel + 1, x => if par d x = x then x else rootOf d fuel (par d x)

/-- The root of the tree of `x`. -/
def root (d : DSU) (x : Nat) : Nat := rootOf d d.parent.length x

/-- The state of a `DSU` over the elements `0 .. n-1`: both vectors have length `n`, every
parent entry is an element, and rank entries grow strictly towards the parent. -/
def DSU.WF (d : DSU) (n : Nat) : Prop :=
  d.parent.length = n ∧ d.rnk.length = n ∧
  ∀ x, x < n → ∃ p : Nat, d.parent[x]? = some (p : Int) ∧ p < n ∧ (p ≠ x → rk d x < rk d p)

/-- The number of roots. -/
def rootCount (d : DSU) : Nat :=
  ((Finset.range d.parent.length).filter (fun x => par d x = x)).card

/-- The triangle on the vertices 0, 1, 2 with all three weights `-1`. -/
def triangle : List Edge :=
  [{ u := 0, v := 1, w := -1 }, { u := 1, v := 2, w := -1 }, { u := 0, v := 2, w := -1 }]

/-- A graph on the vertices 0..3 whose edges connect all of them. -/
def square : List Edge :=
  [{ u := 0, v := 1, w := 4 }, { u := 1, v := 2, w := 1 }, { u := 2, v := 3, w := 3 },
   { u := 3, v := 0, w := 2 }, { u := 0, v := 2, w := 5 }]

/-- The edges of `square` by ascending weight. -/
def squareSorted : List Edge :=
  [{ u := 1, v := 2, w := 1 }, { u := 3, v := 0, w := 2 }, { u := 2, v := 3, w := 3 },
   { u := 0, v := 1, w := 4 }, { u := 0, v := 2, w := 5 }]

/-- The greedy choice over the base `B`: going through the edges in order, an edge is kept
exactly when the base and the edges kept so far do not connect its endpoints. -/
inductive Greedy : List Edge → List Edge → List Edge → Prop
  | nil (B : List Edge) : Greedy B [] []
  | skip {B L P : List Edge} {e : Edge} : Conn B e.u e.v → Greedy B L P → Greedy B (e :: L) P
  | take {B L P : List Edge} {e : Edge} :
      ¬ Conn B e.u e.v → Greedy (B ++ [e]) L P → Greedy B (e :: L) (e :: P)


end KruskalCase6

namespace BstAssetLifecycleCase3

/-! # DAA-2025 / Atharva / bst-asset-lifecycle(case-3).cpp

A shallow embedding of `Date`, `Device` and `DeviceBST`.

Modelling conventions, in addition to those above.
* A `Node*` is a value of the inductive type `Node`: `Node.null` is `nullptr`, and
  `Node.mk dev left right` is a pointer to a node with these members.  The trees of a
  `DeviceBST` are built by `new Node(d)` only and never share nodes, so a tree value
  describes the heap; `delete` has no counterpart.
* Assigning to `node->left`, `node->right` or `node->dev` and returning `node` is building
  the node with the new member.
* The `const Date &` parameters are passed as values: inside `removeRec` the reference to
  `succ->dev.expiry` is last read before `succ` is deleted.
-/

/-- `struct Date`. -/
structure Date where
  y : Int
  m : Int
  d : Int
deriving DecidableEq

namespace Date

/-- `Date::operator<`. -/
def lt (a o : Date) : Bool :=
  if a.y ≠ o.y then decide (a.y < o.y)
  else if a.m ≠ o.m then decide (a.m < o.m)
  else decide (a.d < o.d)

/-- `Date::operator>`. -/
def gt (a o : Date) : Bool :=
  if a.y ≠ o.y then decide (a.y > o.y)
  else if a.m ≠ o.m then decide (a.m > o.m)
  else decide (a.d > o.d)

/-- `Date::operator==`. -/
def eq (a o : Date) : Bool :=
  decide (a.y = o.y) && decide (a.m = o.m) && decide (a.d = o.d)

end Date

/-- `makeDate`. -/
def makeDate (y m d : Int) : Date := { y := y, m := m, d := d }

/-- `struct Device`; the two strings are lists of bytes. -/
structure Device where
  deviceId : Int
  type : List (Fin 256)
  brand : List (Fin 256)
  expiry : Date
  requiresRepair : Bool
deriving DecidableEq

/-- A `Node*`: `nullptr`, or a pointer to a `struct Node`. -/
inductive Node where
  | null : Node
  | mk (dev : Device) (left right : Node) : Node
deriving DecidableEq

/-- `DeviceBST::insertRec`. -/
def insertRec : Node → Device → Node
  | .null, d => .mk d .null .null
  | .mk dev left right, d =>
    if d.expiry.lt dev.expiry then .mk dev (insertRec left d) right
    else if d.expiry.gt dev.expiry then .mk dev left (insertRec right d)
    else if d.deviceId < dev.deviceId then .mk dev (insertRec left d) right
    else .mk dev left (insertRec right d)

/-- The walk `while (succ->left) succ = succ->left;` of `removeRec`, from a node with
members `dev` and `left`; the result is `succ->dev` after the loop. -/
def leftmost (dev : Device) : Node → Device
  | .null => dev
  | .mk d l _ => leftmost d l

/-- `DeviceBST::removeRec`. -/
def removeRec : Node → Date → Int → Node
  | .null, _, _ => .null
  | .mk dev left right, expiry, deviceId =>
    if expiry.lt dev.expiry then .mk dev (removeRec left expiry deviceId) right
    else if expiry.gt dev.expiry then .mk dev left (removeRec right expiry deviceId)
    else if deviceId < dev.deviceId then .mk dev (removeRec left expiry deviceId) right
    else if deviceId > dev.deviceId then .mk dev left (removeRec right expiry deviceId)
    else
      match left, right with
      | .null, r => r
      | .mk ld ll lr, .null => .mk ld ll lr
      | .mk ld ll lr, .mk rd rl rr =>
        let succ := leftmost rd rl
        .mk succ (.mk ld ll lr) (removeRec (.mk rd rl rr) succ.expiry succ.deviceId)

/-- `DeviceBST::collectBefore`; `res` is the vector passed by reference. -/
def collectBefore : Node → Date → List Device → List Device
  | .null, _, res => res
  | .mk dev left right, limit, res =>
    if dev.expiry.lt limit then
      collectBefore right limit (collectBefore left limit (res ++ [dev]))
    else collectBefore left limit res

/-- `DeviceBST::collectRange`; `res` is the vector passed by reference, `endDate` is the
parameter `end`. -/
def collectRange : Node → Date → Date → List Device → List Device
  | .null, _, _, res => res
  | .mk dev left right, start, endDate, res =>
    let res1 := if dev.expiry.gt start then collectRange left start endDate res else res
    let res2 := if dev.expiry.gt start && dev.expiry.lt endDate then res1 ++ [dev] else res1
    if dev.expiry.lt endDate then collectRange right start endDate res2 else res2

/-- `DeviceBST::containsRec`. -/
def containsRec : Node → Date → Int → Bool
  | .null, _, _ => false
  | .mk dev left right, expiry, deviceId =>
    if expiry.lt dev.expiry then containsRec left expiry deviceId
    else if expiry.gt dev.expiry then containsRec right expiry deviceId
    else if deviceId < dev.deviceId then containsRec left expiry deviceId
    else if deviceId > dev.deviceId then containsRec right expiry deviceId
    else true

/-- The data member of `class DeviceBST`. -/
structure DeviceBST where
  root : Node
deriving DecidableEq

namespace DeviceBST

/-- `DeviceBST::DeviceBST()`. -/
def new : DeviceBST := { root := .null }

/-- `DeviceBST::insert`. -/
def insert (t : DeviceBST) (d : Device) : DeviceBST := { root := insertRec t.root d }

/-- `DeviceBST::remove`. -/
def remove (t : DeviceBST) (expiry : Date) (deviceId : Int) : DeviceBST :=
  { root := removeRec t.root expiry deviceId }

/-- `DeviceBST::allExpiringBefore`. -/
def allExpiringBefore (t : DeviceBST) (limit : Date) : List Device :=
  collectBefore t.root limit []

/-- `DeviceBST::allExpiringInRange`. -/
def allExpiringInRange (t : DeviceBST) (start endDate : Date) : List Device :=
  collectRange t.root start endDate []

/-- `DeviceBST::containsDevice`. -/
def containsDevice (t : DeviceBST) (expiry : Date) (deviceId : Int) : Bool :=
  containsRec t.root expiry deviceId

end DeviceBST

/-! ## Reference descriptions for `DeviceBST` -/

/-- One call on a `DeviceBST`: `insert(d)` or `remove(expiry, deviceId)`. -/
inductive Op where
  | insert (d : Device) : Op
  | remove (expiry : Date) (deviceId : Int) : Op

/-- The effect of one call. -/
def DeviceBST.apply (t : DeviceBST) : Op → DeviceBST
  | .insert d => t.insert d
  | .remove expiry deviceId => t.remove expiry deviceId

/-- The tree after a sequence of calls on the empty tree. -/
def DeviceBST.run (ops : List Op) : DeviceBST := ops.foldl DeviceBST.apply DeviceBST.new

/-- The devices of a tree, left subtree first, then the node, then the right subtree. -/
def inorder : Node → List Device
  | .null => []
  | .mk dev left right => inorder left ++ dev :: inorder right

/-- The date `a` is earlier than `b`: year, month, day compared lexicographically. -/
def DateLt (a b : Date) : Prop :=
  a.y < b.y ∨ (a.y = b.y ∧ (a.m < b.m ∨ (a.m = b.m ∧ a.d < b.d)))

instance (a b : Date) : Decidable (DateLt a b) := by
  unfold DateLt; infer_instance

/-- The key `(expiry, deviceId)` of `a` is smaller than that of `b`, lexicographically. -/
def KeyLt (a b : Device) : Prop :=
  DateLt a.expiry b.expiry ∨ (a.expiry = b.expiry ∧ a.deviceId < b.deviceId)

instance (a b : Device) : Decidable (KeyLt a b) := by
  unfold KeyLt; infer_instance

/-- The key of `a` is smaller than or equal to that of `b`. -/
def KeyLe (a b : Device) : Prop :=
  KeyLt a b ∨ (a.expiry = b.expiry ∧ a.deviceId = b.deviceId)

instance (a b : Device) : Decidable (KeyLe a b) := by
  unfold KeyLe; infer_instance

/-- The search-tree ordering: at every node, the devices of the left subtree have a
strictly smaller key and the devices of the right subtree a greater or equal key. -/
def Ordered : Node → Prop
  | .null => True
  | .mk dev left right =>
    (∀ x ∈ inorder left, KeyLt x dev) ∧ (∀ x ∈ inorder right, KeyLe dev x) ∧
      Ordered left ∧ Ordered right

/-- The device `x` has the key `(expiry, deviceId)`. -/
def hasKey (expiry : Date) (deviceId : Int) (x : Device) : Bool :=
  decide (x.expiry = expiry ∧ x.deviceId = deviceId)

/-- Sample devices: ids 1 to 4, device 3 stored in two versions with the same key. -/
def dev1 : Device :=
  { deviceId := 1, type := [], brand := [], expiry := makeDate 2025 3 10, requiresRepair := false }

def dev2 : Device :=
  { deviceId := 2, type := [], brand := [], expiry := makeDate 2025 6 1, requiresRepair := false }

def dev3 : Device :=
  { deviceId := 3, type := [], brand := [], expiry := makeDate 2025 6 1, requiresRepair := false }

def dev3b : Device :=
  { deviceId := 3, type := [], brand := [], expiry := makeDate 2025 6 1, requiresRepair := true }

def dev4 : Device :=
  { deviceId := 4, type := [], brand := [], expiry := makeDate 2026 1 15, requiresRepair := false }

/-- A sample sequence of calls. -/
def sampleOps : List Op :=
  [.insert dev2, .insert dev4, .insert dev1, .insert dev3, .insert dev3b]

end BstAssetLifecycleCase3

namespace BoyerMooreCase1

/-! ## Indexing -/

theorem readAt_natCast {α : Type} (v : List α) (k : Nat) : readAt v (k : Int) = v[k]? := by
  simp [readAt]

theorem readAt_of_nonneg {α : Type} (v : List α) (k : Int) (h : 0 ≤ k) :
    readAt v k = v[k.toNat]? := by
  simp [readAt, h]

theorem writeAt_natCast {α : Type} (v : List α) (k : Nat) (x : α) (h : k < v.length) :
    writeAt v (k : Int) x = some (v.set k x) := by
  simp [writeAt, h]

/-! ## The bad-character table -/

theorem bcTable_length (P : List Byte) (t : Nat) : (bcTable P t).length = 256 := by
  simp [bcTable]

theorem bcTable_zero (P : List Byte) : bcTable P 0 = List.replicate 256 (-1) := by
  have key : ∀ N : Nat, (List.range N).map (fun c => lastIdx P c 0) = List.replicate N (-1) := by
    intro N
    apply List.ext_getElem
    · simp
    · intro n h1 h2
      simp [lastIdx]
  exact key 256

theorem bcTable_getElem? (P : List Byte) (t c : Nat) (hc : c < 256) :
    (bcTable P t)[c]? = some (lastIdx P c t) := by
  simp [bcTable, List.getElem?_range hc]

theorem bcTable_succ (P : List Byte) (t : Nat) (b : Byte) (hb : P[t]? = some b) :
    (bcTable P t).set b.val (t : Int) = bcTable P (t + 1) := by
  apply List.ext_getElem?
  intro c
  by_cases hc : c < 256
  · rw [bcTable_getElem? P (t + 1) c hc, List.getElem?_set]
    simp only [bcTable_length, lastIdx, hb, Option.map_some']
    by_cases hbc : b.val = c
    · simp [hbc, hc]
    · have : ¬ (some b.val = some c) := by simpa using hbc
      simp [hbc, bcTable_getElem? P t c hc]
  · have h1 : (bcTable P (t + 1)).length ≤ c := by rw [bcTable_length]; omega
    have h2 : ((bcTable P t).set b.val (t : Int)).length ≤ c := by
      rw [List.length_set, bcTable_length]; omega
    rw [List.getElem?_eq_none h1, List.getElem?_eq_none h2]

theorem set_replicate_same {α : Type} (N t : Nat) (x : α) :
    (List.replicate N x).set t x = List.replicate N x := by
  apply List.ext_getElem?
  intro c
  rw [List.getElem?_set]
  by_cases hc : t = c
  · subst hc
    by_cases ht : t < N
    · simp [ht]
    · simp [ht]; omega
  · simp [hc]

theorem clearBadChar_replicate :
    BoyerMoore.clearBadChar (List.replicate 256 (-1)) = some (List.replicate 256 (-1)) := by
  have key : ∀ N t : Nat, t ≤ N →
      (List.range t).foldlM (fun bc (i : Nat) => writeAt bc (i : Int) (-1))
        (List.replicate N (-1 : Int)) = some (List.replicate N (-1)) := by
    intro N t
    induction t with
    | zero => intro _; rfl
    | succ t ih =>
      intro ht
      rw [List.range_succ, List.foldlM_append, ih (by omega)]
      have hlt : t < (List.replicate N (-1 : Int)).length := by simp; omega
      simp only [Option.bind_eq_bind, Option.some_bind, List.foldlM_cons, List.foldlM_nil,
        writeAt_natCast _ _ _ hlt, set_replicate_same]
      rfl
  exact key 256 256 (le_refl _)

theorem fillBadChar_spec (P : List Byte) (t : Nat) (ht : t ≤ P.length) :
    (List.range t).foldlM
      (fun bc (i : Nat) => do
        let c ← readAt P (i : Int)
        writeAt bc (c.val : Int) (i : Int))
      (bcTable P 0) = some (bcTable P t) := by
  induction t with
  | zero => rfl
  | succ t ih =>
    rw [List.range_succ, List.foldlM_append, ih (by omega)]
    have hlt : t < P.length := by omega
    have hb : P[t]? = some P[t] := List.getElem?_eq_getElem hlt
    have hw : (P[t]).val < (bcTable P t).length := by rw [bcTable_length]; exact P[t].isLt
    simp only [Option.bind_eq_bind, Option.some_bind, List.foldlM_cons, List.foldlM_nil,
      readAt_natCast, hb, writeAt_natCast _ _ _ hw, bcTable_succ P t _ hb]
    rfl

theorem fillBadChar_eq (P : List Byte) :
    BoyerMoore.fillBadChar P (P.length : Int) (bcTable P 0) = some (bcTable P P.length) := by
  unfold BoyerMoore.fillBadChar
  rw [Int.toNat_ofNat]
  exact fillBadChar_spec P P.length (le_refl _)

theorem preprocessBadChar_spec (P : List Byte) (S : List Int) (B : List Bool) :
    BoyerMoore.preprocessBadChar
      { pat := P, m := (P.length : Int), badChar := List.replicate 256 (-1),
        suffix := S, isPrefix := B }
      = some { pat := P, m := (P.length : Int), badChar := bcTable P P.length,
               suffix := S, isPrefix := B } := by
  unfold BoyerMoore.preprocessBadChar
  dsimp only
  rw [clearBadChar_replicate, ← bcTable_zero P]
  simp only [Option.bind_eq_bind, Option.some_bind, fillBadChar_eq]
  rfl

theorem lastIdx_ge_neg_one (P : List Byte) (c t : Nat) : -1 ≤ lastIdx P c t := by
  induction t with
  | zero => simp [lastIdx]
  | succ t ih =>
    simp only [lastIdx]
    split
    · omega
    · exact ih

theorem lastIdx_lt (P : List Byte) (c t : Nat) : lastIdx P c t < (t : Int) := by
  induction t with
  | zero => simp [lastIdx]
  | succ t ih =>
    simp only [lastIdx]
    split
    · omega
    · omega

/-- Every position below `t` that holds `c` is at most `lastIdx P c t`. -/
theorem lastIdx_upper (P : List Byte) (c t idx : Nat) (hidx : idx < t)
    (h : P[idx]?.map Fin.val = some c) : (idx : Int) ≤ lastIdx P c t := by
  induction t with
  | zero => omega
  | succ t ih =>
    simp only [lastIdx]
    split
    · omega
    · rename_i hne
      have : idx ≠ t := by
        intro e; subst e; exact hne h
      exact ih (by omega)

/-- `lastIdx P c t` is `-1` or a position below `t` that holds `c`. -/
theorem lastIdx_holds (P : List Byte) (c t : Nat) :
    lastIdx P c t = -1 ∨
      ∃ idx : Nat, lastIdx P c t = (idx : Int) ∧ idx < t ∧ P[idx]?.map Fin.val = some c := by
  induction t with
  | zero => left; rfl
  | succ t ih =>
    simp only [lastIdx]
    split
    · rename_i h
      exact Or.inr ⟨t, rfl, by omega, h⟩
    · rcases ih with h | ⟨idx, h1, h2, h3⟩
      · exact Or.inl h
      · exact Or.inr ⟨idx, h1, by omega, h3⟩


/-! ## The good-suffix tables -/

theorem sufTable_length (P : List Byte) (t : Nat) : (sufTable P t).length = P.length := by
  simp [sufTable]

theorem pfxTable_length (P : List Byte) (t : Nat) : (pfxTable P t).length = P.length := by
  simp [pfxTable]

theorem sufTable_getElem? (P : List Byte) (t k : Nat) (hk : k < P.length) :
    (sufTable P t)[k]? = some (sufVal P k t) := by
  simp [sufTable, List.getElem?_range hk]

theorem pfxTable_getElem? (P : List Byte) (t k : Nat) (hk : k < P.length) :
    (pfxTable P t)[k]? = some (pfxVal P k t) := by
  simp [pfxTable, List.getElem?_range hk]

theorem sufTable_zero (P : List Byte) : sufTable P 0 = List.replicate P.length (-1) := by
  apply List.ext_getElem
  · simp [sufTable]
  · intro n h1 h2
    simp [sufTable, sufVal]

theorem pfxTable_zero (P : List Byte) : pfxTable P 0 = List.replicate P.length false := by
  apply List.ext_getElem
  · simp [pfxTable]
  · intro n h1 h2
    simp only [pfxTable, pfxVal, List.getElem_map, List.getElem_range, List.getElem_replicate,
      decide_eq_false_iff_not]
    omega

theorem clearGoodSuffix_replicate (N : Nat) :
    BoyerMoore.clearGoodSuffix (N : Int) (List.replicate N (-1)) (List.replicate N false)
      = some (List.replicate N (-1), List.replicate N false) := by
  have key : ∀ t : Nat, t ≤ N →
      (List.range t).foldlM
        (fun (sp : List Int × List Bool) (i : Nat) => do
          let s ← writeAt sp.1 (i : Int) (-1)
          let p ← writeAt sp.2 (i : Int) false
          pure (s, p))
        (List.replicate N (-1 : Int), List.replicate N false)
        = some (List.replicate N (-1), List.replicate N false) := by
    intro t
    induction t with
    | zero => intro _; rfl
    | succ t ih =>
      intro ht
      rw [List.range_succ, List.foldlM_append, ih (by omega)]
      have h1 : t < (List.replicate N (-1 : Int)).length := by simp; omega
      have h2 : t < (List.replicate N false).length := by simp; omega
      simp only [Option.bind_eq_bind, Option.some_bind, List.foldlM_cons, List.foldlM_nil,
        writeAt_natCast _ _ _ h1, writeAt_natCast _ _ _ h2, set_replicate_same]
      rfl
  unfold BoyerMoore.clearGoodSuffix
  rw [Int.toNat_ofNat]
  exact key N (le_refl _)

theorem SufAt_mono (P : List Byte) (i k k' : Nat) (h : SufAt P i k') (hk : k ≤ k') :
    SufAt P i k :=
  ⟨by have := h.1; omega, fun t ht => h.2 t (by omega)⟩

theorem SufAt_zero (P : List Byte) (i : Nat) : SufAt P i 0 :=
  ⟨by omega, fun t ht => by omega⟩

theorem SufAt_succ (P : List Byte) (i k : Nat) (h : SufAt P i k) (hk : k ≤ i)
    (he : P[i - k]? = P[P.length - 1 - k]?) : SufAt P i (k + 1) := by
  refine ⟨by omega, fun t ht => ?_⟩
  by_cases htk : t = k
  · subst htk; exact he
  · exact h.2 t (by omega)

/-- The inner loop of `preprocessGoodSuffix`, started after `k` matched bytes, stops after
the longest match `k'` and has written `suffix[κ] = i - κ + 1` for `k < κ ≤ k'`. -/
theorem gsInner_spec (P : List Byte) (i : Nat) (hi : i + 2 ≤ P.length) :
    ∀ (fuel k : Nat) (S : List Int), k ≤ i + 1 → i + 2 ≤ fuel + k → S.length = P.length →
      SufAt P i k →
      ∃ (k' : Nat) (S' : List Int),
        BoyerMoore.gsInner P (P.length : Int) fuel ((i : Int) - k) (k : Int) S
          = some ((i : Int) - k', (k' : Int), S') ∧
        k ≤ k' ∧ SufAt P i k' ∧ ¬ SufAt P i (k' + 1) ∧ S'.length = P.length ∧
        ∀ κ : Nat, S'[κ]? = if k < κ ∧ κ ≤ k' then some ((i : Int) - κ + 1) else S[κ]? := by
  intro fuel
  induction fuel with
  | zero => intro k S hk hf; omega
  | succ fuel ih =>
    intro k S hk hf hS hsuf
    unfold BoyerMoore.gsInner
    by_cases hj : (0 : Int) ≤ (i : Int) - k
    · have hki : k ≤ i := by omega
      have e1 : ((i : Int) - (k : Int)) = ((i - k : Nat) : Int) := by omega
      have e2 : ((P.length : Int) - 1 - (k : Int)) = ((P.length - 1 - k : Nat) : Int) := by omega
      have r1 : i - k < P.length := by omega
      have r2 : P.length - 1 - k < P.length := by omega
      have g1 : P[i - k]? = some P[i - k] := List.getElem?_eq_getElem r1
      have g2 : P[P.length - 1 - k]? = some P[P.length - 1 - k] := List.getElem?_eq_getElem r2
      simp only [hj, if_true]
      rw [e1, e2, readAt_natCast, readAt_natCast, g1, g2]
      simp only [Option.bind_eq_bind, Option.some_bind]
      by_cases heq : P[i - k] = P[P.length - 1 - k]
      · have hsuf' : SufAt P i (k + 1) := SufAt_succ P i k hsuf hki (by rw [g1, g2, heq])
        have hw : k + 1 < S.length := by omega
        have e3 : ((k : Int) + 1) = ((k + 1 : Nat) : Int) := by omega
        have e4 : (((i - k : Nat) : Int) - 1 + 1) = ((i - k : Nat) : Int) := by omega
        have e5 : (((i - k : Nat) : Int) - 1) = (i : Int) - ((k + 1 : Nat) : Int) := by omega
        simp only [heq, if_true]
        rw [e3, e4, writeAt_natCast _ _ _ hw]
        simp only [Option.some_bind]
        rw [e5]
        obtain ⟨k', S', h1, h2, h3, h4, h5, h6⟩ :=
          ih (k + 1) (S.set (k + 1) ((i - k : Nat) : Int)) (by omega) (by omega)
            (by rw [List.length_set]; exact hS) hsuf'
        refine ⟨k', S', h1, by omega, h3, h4, h5, ?_⟩
        intro κ
        rw [h6 κ, List.getElem?_set]
        by_cases c3 : k + 1 = κ
        · subst c3
          have c1 : ¬ (k + 1 < k + 1 ∧ k + 1 ≤ k') := by omega
          have c2 : k < k + 1 ∧ k + 1 ≤ k' := by omega
          rw [if_neg c1, if_pos c2, if_pos rfl, if_pos hw]
          congr 1
          omega
        · have c4 : (k + 1 < κ ∧ κ ≤ k') ↔ (k < κ ∧ κ ≤ k') := by omega
          simp only [c4, c3, if_false]
      · simp only [heq, if_false]
        refine ⟨k, S, ?_, le_refl _, hsuf, ?_, hS, ?_⟩
        · rw [e1]; rfl
        · intro hc
          have := hc.2 k (by omega)
          rw [g1, g2] at this
          exact heq (Option.some.inj this)
        · intro κ
          have c2 : ¬ (k < κ ∧ κ ≤ k) := by omega
          simp only [c2, if_false]
    · simp only [hj, if_false]
      refine ⟨k, S, rfl, le_refl _, hsuf, ?_, hS, ?_⟩
      · intro hc
        have := hc.1
        omega
      · intro κ
        have c2 : ¬ (k < κ ∧ κ ≤ k) := by omega
        simp only [c2, if_false]

theorem gsOuterBody_spec (P : List Byte) (i : Nat) (hi : i + 2 ≤ P.length) :
    BoyerMoore.gsOuterBody P (P.length : Int) (sufTable P i, pfxTable P i) i
      = some (sufTable P (i + 1), pfxTable P (i + 1)) := by
  obtain ⟨k', S', h1, -, h3, h4, h5, h6⟩ :=
    gsInner_spec P i hi (i + 2) 0 (sufTable P i) (by omega) (by omega) (sufTable_length P i)
      (SufAt_zero P i)
  simp only [Nat.cast_zero, sub_zero] at h1
  have hk' : k' ≤ i + 1 := h3.1
  have hiff : ∀ κ, SufAt P i κ ↔ κ ≤ k' := by
    intro κ
    constructor
    · intro h
      by_contra hc
      exact h4 (SufAt_mono P i (k' + 1) κ h (by omega))
    · intro h
      exact SufAt_mono P i κ k' h3 h
  have hS : S' = sufTable P (i + 1) := by
    apply List.ext_getElem?
    intro κ
    rw [h6 κ]
    by_cases hκ : κ < P.length
    · rw [sufTable_getElem? P i κ hκ, sufTable_getElem? P (i + 1) κ hκ]
      simp only [sufVal, hiff]
      by_cases c : 0 < κ ∧ κ ≤ k'
      · have c' : 1 ≤ κ ∧ κ ≤ k' := by omega
        rw [if_pos c, if_pos c']
      · have c' : ¬ (1 ≤ κ ∧ κ ≤ k') := by omega
        rw [if_neg c, if_neg c']
    · have c : ¬ (0 < κ ∧ κ ≤ k') := by omega
      rw [if_neg c, List.getElem?_eq_none (by rw [sufTable_length]; omega),
        List.getElem?_eq_none (by rw [sufTable_length]; omega)]
  unfold BoyerMoore.gsOuterBody
  simp only [h1, Option.bind_eq_bind, Option.some_bind]
  by_cases hj : (i : Int) - (k' : Int) = -1
  · have hk1 : k' = i + 1 := by omega
    have hw : k' < (pfxTable P i).length := by rw [pfxTable_length]; omega
    simp only [hj, if_true, writeAt_natCast _ _ _ hw, Option.some_bind]
    rw [hS]
    have hB : (pfxTable P i).set k' true = pfxTable P (i + 1) := by
      apply List.ext_getElem?
      intro κ
      rw [List.getElem?_set]
      by_cases hκ : κ < P.length
      · rw [pfxTable_getElem? P i κ hκ, pfxTable_getElem? P (i + 1) κ hκ]
        by_cases c : k' = κ
        · subst c
          rw [if_pos rfl, if_pos hw]
          congr 1
          simp only [pfxVal]
          symm
          rw [decide_eq_true_iff]
          refine ⟨by omega, by omega, ?_⟩
          have e : k' - 1 = i := by omega
          rw [e]
          exact h3
        · rw [if_neg c]
          congr 1
          simp only [pfxVal]
          rw [decide_eq_decide]
          constructor
          · rintro ⟨a, b, d⟩
            exact ⟨a, by omega, d⟩
          · rintro ⟨a, b, d⟩
            exact ⟨a, by omega, d⟩
      · have c : ¬ (k' = κ) := by omega
        rw [if_neg c, List.getElem?_eq_none (by rw [pfxTable_length]; omega),
          List.getElem?_eq_none (by rw [pfxTable_length]; omega)]
    rw [hB]
    rfl
  · have hk1 : k' ≤ i := by omega
    simp only [hj, if_false]
    rw [hS]
    have hB : pfxTable P i = pfxTable P (i + 1) := by
      apply List.ext_getElem?
      intro κ
      by_cases hκ : κ < P.length
      · rw [pfxTable_getElem? P i κ hκ, pfxTable_getElem? P (i + 1) κ hκ]
        congr 1
        simp only [pfxVal]
        rw [decide_eq_decide]
        constructor
        · rintro ⟨a, b, d⟩
          exact ⟨a, by omega, d⟩
        · rintro ⟨a, b, d⟩
          refine ⟨a, ?_, d⟩
          by_contra hc
          have e : κ = i + 1 := by omega
          subst e
          have := (hiff (i + 1)).1 (by simpa using d)
          omega
      · rw [List.getElem?_eq_none (by rw [pfxTable_length]; omega),
          List.getElem?_eq_none (by rw [pfxTable_length]; omega)]
    rw [← hB]
    rfl

theorem fillGoodSuffix_spec (P : List Byte) (t : Nat) (ht : t + 1 ≤ P.length) :
    (List.range t).foldlM (BoyerMoore.gsOuterBody P (P.length : Int))
      (sufTable P 0, pfxTable P 0) = some (sufTable P t, pfxTable P t) := by
  induction t with
  | zero => rfl
  | succ t ih =>
    rw [List.range_succ, List.foldlM_append, ih (by omega)]
    simp only [Option.bind_eq_bind, Option.some_bind, List.foldlM_cons, List.foldlM_nil,
      gsOuterBody_spec P t (by omega)]
    rfl

theorem fillGoodSuffix_eq (P : List Byte) :
    BoyerMoore.fillGoodSuffix P (P.length : Int) (sufTable P 0) (pfxTable P 0)
      = some (sufTable P (P.length - 1), pfxTable P (P.length - 1)) := by
  unfold BoyerMoore.fillGoodSuffix
  have e : ((P.length : Int) - 1).toNat = P.length - 1 := by omega
  rw [e]
  by_cases h : P.length = 0
  · rw [h]; rfl
  · exact fillGoodSuffix_spec P (P.length - 1) (by omega)

/-- The constructor never fails, and it builds exactly the reference tables. -/
theorem new_built (P : List Byte) : BoyerMoore.new P = some (built P) := by
  unfold built
  unfold BoyerMoore.new
  simp only [Option.bind_eq_bind, preprocessBadChar_spec, Option.some_bind, Int.toNat_ofNat]
  unfold BoyerMoore.preprocessGoodSuffix
  dsimp only
  rw [clearGoodSuffix_replicate, ← sufTable_zero, ← pfxTable_zero]
  simp only [Option.bind_eq_bind, Option.some_bind, fillGoodSuffix_eq]
  rfl


/-! ## Occurrences, and the shifts -/

theorem occ_iff (P T : List Byte) (i : Nat) (hP : 0 < P.length) :
    Occ P T i ↔ i + P.length ≤ T.length ∧ ∀ t, t < P.length → T[i + t]? = P[t]? := by
  unfold Occ
  constructor
  · intro h
    have hlen : ((T.drop i).take P.length).length = P.length := by rw [h]
    rw [List.length_take, List.length_drop] at hlen
    refine ⟨by omega, fun t ht => ?_⟩
    have := congrArg (fun l => l[t]?) h
    simp only [List.getElem?_take, List.getElem?_drop] at this
    rw [if_pos ht] at this
    exact this
  · rintro ⟨h1, h2⟩
    apply List.ext_getElem?
    intro t
    rw [List.getElem?_take, List.getElem?_drop]
    by_cases ht : t < P.length
    · rw [if_pos ht]; exact h2 t ht
    · rw [if_neg ht, List.getElem?_eq_none (by omega)]

theorem sufVal_upper (P : List Byte) (k t i0 : Nat) (hk : 1 ≤ k) (hi0 : i0 < t)
    (h : SufAt P i0 k) : (i0 : Int) - k + 1 ≤ sufVal P k t := by
  induction t with
  | zero => omega
  | succ t ih =>
    simp only [sufVal]
    split
    · omega
    · rename_i hne
      have : i0 ≠ t := by
        intro e; subst e; exact hne ⟨hk, h⟩
      exact ih (by omega)

theorem sufVal_holds (P : List Byte) (k t : Nat) :
    sufVal P k t = -1 ∨
      ∃ i0 : Nat, i0 < t ∧ 1 ≤ k ∧ SufAt P i0 k ∧ sufVal P k t = (i0 : Int) - k + 1 := by
  induction t with
  | zero => left; rfl
  | succ t ih =>
    simp only [sufVal]
    split
    · rename_i h
      exact Or.inr ⟨t, by omega, h.1, h.2, rfl⟩
    · rcases ih with h | ⟨i0, h1, h2, h3, h4⟩
      · exact Or.inl h
      · exact Or.inr ⟨i0, by omega, h2, h3, h4⟩

theorem sufVal_nonneg_of_ne (P : List Byte) (k t : Nat) (h : sufVal P k t ≠ -1) :
    0 ≤ sufVal P k t := by
  rcases sufVal_holds P k t with h1 | ⟨i0, _, _, h3, h4⟩
  · exact absurd h1 h
  · have := h3.1
    omega

/-- The comparison loop stops at `-1` on an occurrence, and otherwise at the right-most
position where text and pattern differ. -/
theorem matchLoop_spec (bm : BoyerMoore) (T : List Byte) (i : Nat)
    (hi : i + bm.pat.length ≤ T.length) :
    ∀ (fuel j1 : Nat), j1 ≤ bm.pat.length → j1 + 1 ≤ fuel →
      (∀ t, j1 ≤ t → t < bm.pat.length → T[i + t]? = bm.pat[t]?) →
      ∃ j : Int, BoyerMoore.matchLoop bm T (i : Int) fuel ((j1 : Int) - 1) = some j ∧
        ((j = -1 ∧ ∀ t, t < bm.pat.length → T[i + t]? = bm.pat[t]?) ∨
          ∃ jn : Nat, j = (jn : Int) ∧ jn < bm.pat.length ∧ T[i + jn]? ≠ bm.pat[jn]? ∧
            ∀ t, jn < t → t < bm.pat.length → T[i + t]? = bm.pat[t]?) := by
  intro fuel
  induction fuel with
  | zero => intro j1 _ hf; omega
  | succ fuel ih =>
    intro j1 hj1 hf hm
    unfold BoyerMoore.matchLoop
    by_cases hj : (0 : Int) ≤ (j1 : Int) - 1
    · have hpos : 1 ≤ j1 := by omega
      have e1 : (i : Int) + ((j1 : Int) - 1) = ((i + (j1 - 1) : Nat) : Int) := by omega
      have e2 : (j1 : Int) - 1 = ((j1 - 1 : Nat) : Int) := by omega
      have r1 : i + (j1 - 1) < T.length := by omega
      have r2 : j1 - 1 < bm.pat.length := by omega
      have g1 : T[i + (j1 - 1)]? = some T[i + (j1 - 1)] := List.getElem?_eq_getElem r1
      have g2 : bm.pat[j1 - 1]? = some bm.pat[j1 - 1] := List.getElem?_eq_getElem r2
      simp only [hj, if_true]
      rw [e1, readAt_natCast, g1]
      simp only [Option.bind_eq_bind, Option.some_bind]
      rw [e2, readAt_natCast, g2]
      simp only [Option.some_bind]
      by_cases heq : T[i + (j1 - 1)] = bm.pat[j1 - 1]
      · simp only [heq, if_true]
        have e3 : ((j1 - 1 : Nat) : Int) - 1 = (((j1 - 1 : Nat)) : Int) - 1 := rfl
        apply ih (j1 - 1) (by omega) (by omega)
        intro t ht1 ht2
        by_cases c : t = j1 - 1
        · subst c; rw [g1, g2, heq]
        · exact hm t (by omega) ht2
      · simp only [heq, if_false]
        refine ⟨((j1 - 1 : Nat) : Int), rfl, Or.inr ⟨j1 - 1, rfl, r2, ?_, ?_⟩⟩
        · rw [g1, g2]
          intro hc
          exact heq (Option.some.inj hc)
        · intro t ht1 ht2
          exact hm t (by omega) ht2
    · simp only [hj, if_false]
      have hz : j1 = 0 := by omega
      refine ⟨(j1 : Int) - 1, rfl, Or.inl ⟨by omega, ?_⟩⟩
      intro t ht
      exact hm t (by omega) ht

/-- The scan over candidate shifts `r` returns the first `r` whose `prefix[m - r]` is set,
or `m`; every candidate it passed over has `prefix[m - r]` clear. -/
theorem gsScan_spec (P : List Byte) :
    ∀ (fuel r : Nat), 1 ≤ r → r ≤ P.length → P.length + 1 ≤ fuel + r →
      ∃ g : Nat, BoyerMoore.gsScan (built P) fuel (r : Int) = some (g : Int) ∧
        r ≤ g ∧ g ≤ P.length ∧
        ∀ ρ, r ≤ ρ → ρ < g → pfxVal P (P.length - ρ) (P.length - 1) = false := by
  intro fuel
  induction fuel with
  | zero => intro r _ h1 h2; omega
  | succ fuel ih =>
    intro r hr1 hr2 hf
    unfold BoyerMoore.gsScan
    by_cases hc : (r : Int) ≤ (built P).m - 1
    · have hlt : r + 1 ≤ P.length := by
        simp only [built] at hc; omega
      have e1 : (built P).m - (r : Int) = ((P.length - r : Nat) : Int) := by
        simp only [built]; omega
      have hread : (built P).isPrefix[P.length - r]?
          = some (pfxVal P (P.length - r) (P.length - 1)) := by
        simp only [built]
        exact pfxTable_getElem? P _ _ (by omega)
      simp only [hc, if_true]
      rw [e1, readAt_natCast, hread]
      simp only [Option.bind_eq_bind, Option.some_bind]
      by_cases hp : pfxVal P (P.length - r) (P.length - 1) = true
      · simp only [hp, if_true]
        exact ⟨r, rfl, le_refl _, hr2, fun ρ h1 h2 => by omega⟩
      · simp only [hp]
        have e2 : (r : Int) + 1 = ((r + 1 : Nat) : Int) := by omega
        rw [e2]
        obtain ⟨g, h1, h2, h3, h4⟩ := ih (r + 1) (by omega) hlt (by omega)
        refine ⟨g, h1, by omega, h3, ?_⟩
        intro ρ hρ1 hρ2
        by_cases c : ρ = r
        · subst c; simpa using hp
        · exact h4 ρ (by omega) hρ2
    · have hge : r = P.length := by
        simp only [built] at hc; omega
      simp only [hc, if_false]
      refine ⟨P.length, ?_, by omega, le_refl _, fun ρ h1 h2 => by omega⟩
      simp only [built]
      rfl

/-- A shift `d` that is compatible with the matched suffix and keeps it inside the pattern
gives a copy of the suffix that ends before the last position. -/
theorem SufAt_of_compat (P : List Byte) (j d : Nat) (hj : j + 2 ≤ P.length)
    (hd : d ≤ j + 1) (h : Compat P j d) : SufAt P (P.length - 1 - d) (P.length - 1 - j) := by
  refine ⟨by omega, fun t ht => ?_⟩
  have := h (P.length - 1 - t) (by omega) (by omega) (by omega)
  have e : P.length - 1 - t - d = P.length - 1 - d - t := by omega
  rw [e] at this
  exact this

/-- A shift `d` beyond the mismatch that is compatible with the matched suffix makes the
last `m - d` bytes of the pattern a prefix of it. -/
theorem pfxVal_of_compat (P : List Byte) (j d : Nat) (hd : j + 2 ≤ d)
    (hdm : d < P.length) (h : Compat P j d) :
    pfxVal P (P.length - d) (P.length - 1) = true := by
  simp only [pfxVal, decide_eq_true_iff]
  refine ⟨by omega, by omega, by omega, fun t ht => ?_⟩
  have := h (P.length - 1 - t) (by omega) (by omega) (by omega)
  have e : P.length - 1 - t - d = P.length - d - 1 - t := by omega
  rw [e] at this
  exact this

/-- `moveByGoodSuffix(j)` for `0 ≤ j < m - 1` returns a shift in `1..m` that passes over no
alignment compatible with the matched suffix. -/
theorem moveByGoodSuffix_spec (P : List Byte) (j : Nat) (hj : j + 2 ≤ P.length) :
    ∃ g : Nat, BoyerMoore.moveByGoodSuffix (built P) (j : Int) = some (g : Int) ∧
      1 ≤ g ∧ g ≤ P.length ∧ ∀ d, 0 < d → d < g → ¬ Compat P j d := by
  unfold BoyerMoore.moveByGoodSuffix
  have e1 : (built P).m - 1 - (j : Int) = ((P.length - 1 - j : Nat) : Int) := by
    simp only [built]; omega
  have hread : (built P).suffix[P.length - 1 - j]?
      = some (sufVal P (P.length - 1 - j) (P.length - 1)) := by
    simp only [built]
    exact sufTable_getElem? P _ _ (by omega)
  dsimp only
  rw [e1, readAt_natCast, hread]
  simp only [Option.bind_eq_bind, Option.some_bind]
  by_cases hs : sufVal P (P.length - 1 - j) (P.length - 1) = -1
  · simp only [hs, ne_eq, not_true_eq_false, if_false]
    have e2 : (built P).m.toNat + 1 = P.length + 1 := by simp only [built]; omega
    have e3 : (j : Int) + 2 = ((j + 2 : Nat) : Int) := by omega
    rw [e2, e3]
    obtain ⟨g, h1, h2, h3, h4⟩ := gsScan_spec P (P.length + 1) (j + 2) (by omega) hj (by omega)
    refine ⟨g, h1, by omega, h3, ?_⟩
    intro d hd0 hdg hcompat
    by_cases hdj : d ≤ j + 1
    · have hsuf := SufAt_of_compat P j d hj hdj hcompat
      have := sufVal_upper P (P.length - 1 - j) (P.length - 1) (P.length - 1 - d)
        (by omega) (by omega) hsuf
      omega
    · have := h4 d (by omega) hdg
      rw [pfxVal_of_compat P j d (by omega) (by omega) hcompat] at this
      exact Bool.noConfusion this
  · simp only [ne_eq, hs, not_false_eq_true, if_true]
    have hnn := sufVal_nonneg_of_ne P _ _ hs
    rcases sufVal_holds P (P.length - 1 - j) (P.length - 1) with h0 | ⟨i0, hi0, hk, hsuf, hv⟩
    · exact absurd h0 hs
    · have hk' := hsuf.1
      refine ⟨(j + (P.length - 1 - j) - i0), ?_, by omega, by omega, ?_⟩
      · show some _ = some _
        congr 1
        rw [hv]
        omega
      · intro d hd0 hdg hcompat
        have hdj : d ≤ j + 1 := by omega
        have hsuf2 := SufAt_of_compat P j d hj hdj hcompat
        have := sufVal_upper P (P.length - 1 - j) (P.length - 1) (P.length - 1 - d)
          (by omega) (by omega) hsuf2
        omega


/-! ## The alignment loop against the naive scan -/

theorem naiveFrom_of_occ (P T : List Byte) (i : Nat) (hP : 0 < P.length) (h : Occ P T i) :
    naiveFrom P T i = (i : Int) :: naiveFrom P T (i + P.length) := by
  have hr := ((occ_iff P T i hP).1 h).1
  have h' : (T.drop i).take P.length = P := h
  rw [naiveFrom]
  rw [dif_pos ⟨hP, hr⟩, if_pos h']

theorem naiveFrom_of_not_occ (P T : List Byte) (i : Nat) (h : ¬ Occ P T i) :
    naiveFrom P T i = naiveFrom P T (i + 1) := by
  have h' : ¬ ((T.drop i).take P.length = P) := h
  rw [naiveFrom]
  by_cases c : 0 < P.length ∧ i + P.length ≤ T.length
  · rw [dif_pos c, if_neg h']
  · rw [dif_neg c, naiveFrom, dif_neg (by omega)]

theorem naiveFrom_skip (P T : List Byte) (s i : Nat) (h : ∀ d, d < s → ¬ Occ P T (i + d)) :
    naiveFrom P T i = naiveFrom P T (i + s) := by
  induction s with
  | zero => rfl
  | succ s ih =>
    rw [ih (fun d hd => h d (by omega)), naiveFrom_of_not_occ P T (i + s) (h s (by omega))]
    rfl

theorem naiveFrom_out (P T : List Byte) (i : Nat) (h : T.length < i + P.length) :
    naiveFrom P T i = [] := by
  rw [naiveFrom, dif_neg (by omega)]

/-- The bad-character shift passes over no occurrence. -/
theorem badChar_safe (P T : List Byte) (i jn d : Nat) (c : Byte) (hP : 0 < P.length)
    (hjn : jn < P.length) (hc : T[i + jn]? = some c)
    (hd : (d : Int) < (jn : Int) - lastIdx P c.val P.length) : ¬ Occ P T (i + d) := by
  intro hocc
  have h2 := ((occ_iff P T (i + d) hP).1 hocc).2
  have hlb := lastIdx_ge_neg_one P c.val P.length
  have hdj : d ≤ jn := by omega
  have h3 := h2 (jn - d) (by omega)
  have e : i + d + (jn - d) = i + jn := by omega
  rw [e, hc] at h3
  have := lastIdx_upper P c.val P.length (jn - d) (by omega) (by rw [← h3]; rfl)
  omega

/-- An occurrence `d` places to the right of an alignment whose bytes after `jn` matched is
compatible with the matched suffix. -/
theorem compat_of_occ (P T : List Byte) (i jn d : Nat) (hP : 0 < P.length)
    (hm : ∀ t, jn < t → t < P.length → T[i + t]? = P[t]?) (hocc : Occ P T (i + d)) :
    Compat P jn d := by
  intro t h1 h2 h3
  have h4 := ((occ_iff P T (i + d) hP).1 hocc).2 (t - d) (by omega)
  have e : i + d + (t - d) = i + t := by omega
  rw [e] at h4
  rw [← h4, hm t h1 h2]

theorem ite_bind_out {α β : Type} (c : Prop) [Decidable c] (x y : Option α)
    (f : α → Option β) :
    (if c then x.bind f else y.bind f) = (if c then x else y).bind f := by
  split <;> rfl

/-- From alignment `i` with result so far `res`, and with fuel for the remaining
alignments, the loop returns `res` followed by the naive scan from `i`. -/
theorem searchLoop_spec (P T : List Byte) (hP : 0 < P.length) :
    ∀ (fuel i : Nat) (res : List Int), 1 ≤ fuel → T.length + 1 ≤ fuel + i →
      BoyerMoore.searchLoop (built P) T (T.length : Int) fuel (i : Int) res
        = some (res ++ naiveFrom P T i) := by
  intro fuel
  induction fuel with
  | zero => intro i res h; omega
  | succ fuel ih =>
    intro i res _ hf
    have hpat : (built P).pat = P := rfl
    have hm : (built P).m = (P.length : Int) := rfl
    unfold BoyerMoore.searchLoop
    by_cases hc : (i : Int) ≤ (T.length : Int) - (built P).m
    · have hin : i + P.length ≤ T.length := by rw [hm] at hc; omega
      have hfuel : 1 ≤ fuel := by omega
      obtain ⟨j, hj, hcase⟩ := matchLoop_spec (built P) T i (by rw [hpat]; exact hin)
        (P.length + 1) P.length (by rw [hpat]) (by omega) (fun t h1 h2 => by rw [hpat] at h2; omega)
      have efuel : (built P).m.toNat + 1 = P.length + 1 := by rw [hm]; omega
      simp only [hc, if_true]
      rw [efuel, hm, hj]
      simp only [Option.bind_eq_bind, Option.some_bind]
      rw [hpat] at hcase
      rcases hcase with ⟨hneg, hall⟩ | ⟨jn, hjn, hlt, hne, hsuf⟩
      · have hocc : Occ P T i := (occ_iff P T i hP).2 ⟨hin, hall⟩
        have hj0 : j < 0 := by omega
        have e : (i : Int) + (P.length : Int) = ((i + P.length : Nat) : Int) := by omega
        simp only [hj0, if_true]
        rw [e, ih (i + P.length) (res ++ [(i : Int)]) hfuel (by omega),
          naiveFrom_of_occ P T i hP hocc]
        simp
      · have hj0 : ¬ (j < 0) := by omega
        have hnocc : ¬ Occ P T i := by
          intro hocc
          exact hne (((occ_iff P T i hP).1 hocc).2 jn hlt)
        have r1 : i + jn < T.length := by omega
        have g1 : T[i + jn]? = some T[i + jn] := List.getElem?_eq_getElem r1
        have e1 : (i : Int) + j = ((i + jn : Nat) : Int) := by omega
        have hbc : (built P).badChar[(T[i + jn]).val]?
            = some (lastIdx P (T[i + jn]).val P.length) :=
          bcTable_getElem? P P.length _ (T[i + jn]).isLt
        simp only [hj0, if_false]
        rw [e1, readAt_natCast, g1]
        simp only [Option.some_bind]
        rw [readAt_natCast, hbc]
        simp only [Option.some_bind]
        -- the good-suffix shift
        have hgs : ∃ g : Int,
            (if j < (P.length : Int) - 1 then BoyerMoore.moveByGoodSuffix (built P) j
              else pure 0) = some g ∧
            ∀ d : Nat, 0 < d → (d : Int) < g → ¬ Occ P T (i + d) := by
          by_cases hjl : j < (P.length : Int) - 1
          · obtain ⟨g, h1, _, _, h4⟩ := moveByGoodSuffix_spec P jn (by omega)
            refine ⟨(g : Int), ?_, ?_⟩
            · rw [if_pos hjl, hjn, h1]
            · intro d hd0 hdg hocc
              exact h4 d hd0 (by omega) (compat_of_occ P T i jn d hP hsuf hocc)
          · refine ⟨0, ?_, ?_⟩
            · rw [if_neg hjl]; rfl
            · intro d _ hd; omega
        obtain ⟨g, hg1, hg2⟩ := hgs
        rw [ite_bind_out, hg1]
        simp only [Option.some_bind]
        -- the applied shift, as a natural number
        obtain ⟨s, hs⟩ : ∃ s : Nat,
            max 1 (max (j - lastIdx P (T[i + jn]).val P.length) g) = (s : Int) :=
          ⟨(max 1 (max (j - lastIdx P (T[i + jn]).val P.length) g)).toNat, by
            have : (1 : Int) ≤ max 1 (max (j - lastIdx P (T[i + jn]).val P.length) g) :=
              le_max_left _ _
            omega⟩
        have hs1 : 1 ≤ s := by
          have : (1 : Int) ≤ max 1 (max (j - lastIdx P (T[i + jn]).val P.length) g) :=
            le_max_left _ _
          omega
        have e2 : (i : Int) + (s : Int) = ((i + s : Nat) : Int) := by omega
        rw [hs, e2, ih (i + s) res hfuel (by omega)]
        congr 2
        symm
        apply naiveFrom_skip
        intro d hd
        by_cases hd0 : d = 0
        · subst hd0; exact hnocc
        · have hlt2 : (d : Int) < max (j - lastIdx P (T[i + jn]).val P.length) g := by
            have h1 : (d : Int) < max 1 (max (j - lastIdx P (T[i + jn]).val P.length) g) := by
              rw [hs]; omega
            rcases lt_max_iff.1 h1 with h | h
            · omega
            · exact h
          rcases lt_max_iff.1 hlt2 with h | h
          · exact badChar_safe P T i jn d _ hP hlt g1 (by rw [← hjn]; exact h)
          · exact hg2 d (by omega) h
    · simp only [hc, if_false]
      have hout : T.length < i + P.length := by rw [hm] at hc; omega
      rw [naiveFrom_out P T i hout]
      simp

theorem searchAll_built (P T : List Byte) (hP : 0 < P.length) :
    (built P).searchAll T = some (naiveSearch P T) := by
  unfold BoyerMoore.searchAll naiveSearch
  have hm : (built P).m = (P.length : Int) := rfl
  dsimp only
  by_cases hc : (built P).m = 0 ∨ (T.length : Int) < (built P).m
  · rw [if_pos hc, naiveFrom_out P T 0 (by rw [hm] at hc; omega)]
    rfl
  · rw [if_neg hc]
    have := searchLoop_spec P T hP (T.length + 1) 0 [] (by omega) (by omega)
    simpa using this


/-! ## Claims on `BoyerMoore::searchAll` -/

theorem bmSearch_built (P T : List Byte) : bmSearch P T = (built P).searchAll T := by
  unfold bmSearch
  rw [new_built]
  rfl

theorem naiveSearch_nil (T : List Byte) : naiveSearch [] T = [] := by
  unfold naiveSearch
  rw [naiveFrom, dif_neg (by simp)]

theorem searchAll_built_nil (T : List Byte) : (built []).searchAll T = some [] := by
  unfold BoyerMoore.searchAll
  have hm : (built []).m = 0 := rfl
  dsimp only
  rw [if_pos (Or.inl hm)]
  rfl

/-- For every pattern, empty or not, the built matcher returns the naive scan. -/
theorem searchAll_built_all (P T : List Byte) :
    (built P).searchAll T = some (naiveSearch P T) := by
  by_cases h : P = []
  · subst h
    rw [searchAll_built_nil, naiveSearch_nil]
  · exact searchAll_built P T (List.length_pos.2 h)

/-- Every index the naive scan records from `i` on is at least `i` and starts an occurrence,
and consecutive indices are at least `len(P)` apart. -/
theorem naiveFrom_props (P T : List Byte) :
    ∀ (k i : Nat), T.length + 1 - i ≤ k →
      (∀ x ∈ naiveFrom P T i, (i : Int) ≤ x ∧ Occ P T x.toNat) ∧
      List.Chain' (fun a b : Int => a + (P.length : Int) ≤ b) (naiveFrom P T i) := by
  intro k
  induction k with
  | zero =>
    intro i hk
    rw [naiveFrom_out P T i (by omega)]
    exact ⟨fun x hx => absurd hx (List.not_mem_nil x), List.chain'_nil⟩
  | succ k ih =>
    intro i hk
    by_cases hr : 0 < P.length ∧ i + P.length ≤ T.length
    · by_cases hocc : Occ P T i
      · rw [naiveFrom_of_occ P T i hr.1 hocc]
        obtain ⟨h1, h2⟩ := ih (i + P.length) (by omega)
        constructor
        · intro x hx
          rcases List.mem_cons.1 hx with h | h
          · subst h
            exact ⟨le_refl _, by simpa using hocc⟩
          · have := h1 x h
            exact ⟨by omega, this.2⟩
        · rw [List.chain'_cons']
          refine ⟨?_, h2⟩
          intro y hy
          have := (h1 y (List.mem_of_mem_head? hy)).1
          omega
      · rw [naiveFrom_of_not_occ P T i hocc]
        obtain ⟨h1, h2⟩ := ih (i + 1) (by omega)
        refine ⟨fun x hx => ?_, h2⟩
        have := h1 x hx
        exact ⟨by omega, this.2⟩
    · rw [naiveFrom, dif_neg hr]
      exact ⟨fun x hx => absurd hx (List.not_mem_nil x), List.chain'_nil⟩

/-- Claim C1. For every non-empty pattern `P` and every text `T`, `BoyerMoore(P).searchAll(T)`
(construction included) succeeds and returns exactly the list of the naive left-to-right
scan that records `i` and resumes at `i + m` on `T[i..i+m) == P` and resumes at `i + 1`
otherwise. -/
theorem searchAll_eq_naiveSearch (P T : List Byte) (hP : P ≠ []) :
    bmSearch P T = some (naiveSearch P T) := by
  rw [bmSearch_built]
  exact searchAll_built P T (List.length_pos.2 hP)

set_option maxRecDepth 100000 in
/-- Witness for C1: `P = "AAA"`, `T = "AAAAAA"` gives `[0, 3]`. -/
theorem searchAll_eq_naiveSearch_witness :
    ([65, 65, 65] : List Byte) ≠ [] ∧
      bmSearch [65, 65, 65] [65, 65, 65, 65, 65, 65]
        = some (naiveSearch [65, 65, 65] [65, 65, 65, 65, 65, 65]) ∧
      bmSearch [65, 65, 65] [65, 65, 65, 65, 65, 65] = some [0, 3] :=
  ⟨by decide, searchAll_eq_naiveSearch _ _ (by decide), by decide⟩

/-- Claim C2. For every non-empty pattern `P` and every text `T`, `BoyerMoore(P).searchAll(T)`
returns a list in which every index starts an occurrence `T[i..i+len(P)) == P`, the
indices are strictly increasing, and each is at least `len(P)` above the previous one. -/
theorem searchAll_sound (P T : List Byte) (hP : P ≠ []) :
    ∃ r : List Int, bmSearch P T = some r ∧
      (∀ x ∈ r, 0 ≤ x ∧ Occ P T x.toNat) ∧
      List.Pairwise (fun a b : Int => a < b) r ∧
      List.Chain' (fun a b : Int => a + (P.length : Int) ≤ b) r := by
  have hpos : 0 < P.length := List.length_pos.2 hP
  refine ⟨naiveSearch P T, ?_, ?_, ?_, ?_⟩
  · rw [bmSearch_built]
    exact searchAll_built P T hpos
  · intro x hx
    have := (naiveFrom_props P T (T.length + 1) 0 (by omega)).1 x hx
    exact ⟨by omega, this.2⟩
  · have hch := (naiveFrom_props P T (T.length + 1) 0 (by omega)).2
    have hlt : List.Chain' (fun a b : Int => a < b) (naiveFrom P T 0) :=
      hch.imp (fun {a b} h => by omega)
    exact List.chain'_iff_pairwise.1 hlt
  · exact (naiveFrom_props P T (T.length + 1) 0 (by omega)).2

set_option maxRecDepth 100000 in
/-- Witness for C2: `P = "AB"`, `T = "ABABAB"` gives `[0, 2, 4]`. -/
theorem searchAll_sound_witness :
    ([65, 66] : List Byte) ≠ [] ∧
      (∃ r : List Int, bmSearch [65, 66] [65, 66, 65, 66, 65, 66] = some r ∧
        (∀ x ∈ r, 0 ≤ x ∧ Occ [65, 66] [65, 66, 65, 66, 65, 66] x.toNat) ∧
        List.Pairwise (fun a b : Int => a < b) r ∧
        List.Chain' (fun a b : Int => a + (([65, 66] : List Byte).length : Int) ≤ b) r) ∧
      bmSearch [65, 66] [65, 66, 65, 66, 65, 66] = some [0, 2, 4] :=
  ⟨by decide, searchAll_sound _ _ (by decide), by rw [bmSearch_built]; decide⟩

/-- Claim C3. If the pattern is empty or the text is shorter than the pattern, constructing the
matcher succeeds and `searchAll` returns the empty sequence. -/
theorem searchAll_empty_or_short (P T : List Byte) (h : P = [] ∨ T.length < P.length) :
    (∃ bm, BoyerMoore.new P = some bm) ∧ bmSearch P T = some [] := by
  refine ⟨⟨built P, new_built P⟩, ?_⟩
  rw [bmSearch_built]
  unfold BoyerMoore.searchAll
  have hm : (built P).m = (P.length : Int) := rfl
  dsimp only
  rw [if_pos]
  · rfl
  · rw [hm]
    rcases h with h | h
    · left; rw [h]; rfl
    · right; omega

set_option maxRecDepth 100000 in
/-- Witness for C3: the empty pattern on a text, and a pattern longer than the text. -/
theorem searchAll_empty_or_short_witness :
    ((∃ bm, BoyerMoore.new [] = some bm) ∧ bmSearch [] [65, 66] = some []) ∧
      ((∃ bm, BoyerMoore.new [65, 66, 67] = some bm) ∧ bmSearch [65, 66, 67] [65, 66] = some []) :=
  ⟨searchAll_empty_or_short [] [65, 66] (Or.inl rfl),
   searchAll_empty_or_short [65, 66, 67] [65, 66] (Or.inr (by decide))⟩


/-! ## `PatternTracker` -/

namespace PatternTracker

theorem valid_bm (t : PatternTracker) (hv : t.Valid) : t.bm = built t.pattern := by
  unfold Valid at hv
  rw [new_built] at hv
  exact (Option.some.inj hv).symm

theorem searchAll_of_valid (t : PatternTracker) (hv : t.Valid) (code : List Byte) :
    t.bm.searchAll code = some (naiveSearch t.pattern code) := by
  rw [valid_bm t hv]
  exact searchAll_built_all t.pattern code

theorem bmSearch_of_valid (t : PatternTracker) (hv : t.Valid) (code : List Byte) :
    bmSearch t.pattern code = t.bm.searchAll code := by
  rw [bmSearch_built, valid_bm t hv]

theorem new_tracker (p : List Byte) (w th : Int) :
    PatternTracker.new p w th = some
      { pattern := p, bm := built p, windowSize := w, alertThreshold := th,
        windowCounts := [], occurrences := 0 } := by
  unfold PatternTracker.new
  rw [new_built]
  rfl

theorem pushEventCount_pattern (t : PatternTracker) (c : Int) :
    (t.pushEventCount c).pattern = t.pattern := by
  unfold pushEventCount; dsimp only; split <;> rfl

theorem pushEventCount_bm (t : PatternTracker) (c : Int) :
    (t.pushEventCount c).bm = t.bm := by
  unfold pushEventCount; dsimp only; split <;> rfl

theorem pushEventCount_windowSize (t : PatternTracker) (c : Int) :
    (t.pushEventCount c).windowSize = t.windowSize := by
  unfold pushEventCount; dsimp only; split <;> rfl

theorem pushEventCount_alertThreshold (t : PatternTracker) (c : Int) :
    (t.pushEventCount c).alertThreshold = t.alertThreshold := by
  unfold pushEventCount; dsimp only; split <;> rfl

theorem pushEventCount_valid (t : PatternTracker) (c : Int) (hv : t.Valid) :
    (t.pushEventCount c).Valid := by
  unfold Valid
  rw [pushEventCount_pattern, pushEventCount_bm]
  exact hv

theorem pushEventCount_windowCounts (t : PatternTracker) (c : Int) :
    (t.pushEventCount c).windowCounts =
      if ((t.windowCounts ++ [c]).length : Int) > t.windowSize then (t.windowCounts ++ [c]).tail
      else t.windowCounts ++ [c] := by
  unfold pushEventCount; dsimp only; split <;> rfl

theorem sum_tail_eq (L : List Int) (h : L ≠ []) : L.tail.sum = L.sum - L.head h := by
  cases L with
  | nil => exact absurd rfl h
  | cons x xs => simp

theorem pushEventCount_occurrences (t : PatternTracker) (c : Int)
    (h : t.occurrences = t.windowCounts.sum) :
    (t.pushEventCount c).occurrences = (t.pushEventCount c).windowCounts.sum := by
  unfold pushEventCount
  dsimp only
  split
  · dsimp only
    rw [sum_tail_eq _ (by simp), h]
    simp
  · dsimp only
    rw [h]
    simp

theorem pushEventCount_inv (t : PatternTracker) (c : Int)
    (h : t.WindowInv) : (t.pushEventCount c).WindowInv := by
  refine ⟨pushEventCount_occurrences t c h.1, ?_⟩
  have h2 := h.2
  rw [pushEventCount_windowCounts, pushEventCount_windowSize]
  split
  · rw [List.length_tail, List.length_append, List.length_singleton]
    omega
  · rename_i hc
    omega

theorem processEvent_of_valid (t : PatternTracker) (hv : t.Valid) (code : List Byte) :
    t.processEvent code = some
      (t.pushEventCount ((naiveSearch t.pattern code).length : Int),
       (t.pushEventCount ((naiveSearch t.pattern code).length : Int)).checkAlert) := by
  unfold processEvent
  rw [searchAll_of_valid t hv]
  rfl

/-- Keeping the last `k` of the last `k` of `A`, extended by `B`, keeps the last `k` of
`A ++ B`. -/
theorem drop_last_append (k : Nat) (A B : List Int) :
    (A.drop (A.length - k) ++ B).drop ((A.drop (A.length - k) ++ B).length - k)
      = (A ++ B).drop ((A ++ B).length - k) := by
  by_cases h : A.length ≤ k
  · have e : A.length - k = 0 := by omega
    rw [e, List.drop_zero]
  · have e1 : (A.drop (A.length - k) ++ B).length - k = B.length := by
      rw [List.length_append, List.length_drop]; omega
    have e2 : (A ++ B).length - k = (A.length - k) + B.length := by
      rw [List.length_append]; omega
    have e3 : A.length - k ≤ A.length := by omega
    rw [e1, e2, ← List.drop_drop, List.drop_append_of_le_length e3]

theorem pushEventCount_windowCounts_drop (t : PatternTracker) (c : Int)
    (hw : 0 ≤ t.windowSize) (hlen : (t.windowCounts.length : Int) ≤ t.windowSize) :
    (t.pushEventCount c).windowCounts =
      (t.windowCounts ++ [c]).drop ((t.windowCounts ++ [c]).length - t.windowSize.toNat) := by
  rw [pushEventCount_windowCounts]
  split
  · rename_i hc
    have e : (t.windowCounts ++ [c]).length - t.windowSize.toNat = 1 := by
      rw [List.length_append, List.length_singleton] at hc ⊢
      omega
    rw [e, List.drop_one]
  · rename_i hc
    have e : (t.windowCounts ++ [c]).length - t.windowSize.toNat = 0 := by
      rw [List.length_append, List.length_singleton] at hc ⊢
      omega
    rw [e, List.drop_zero]

/-- Feeding codes to a valid tracker with a non-negative window size never fails; the
window then holds the last `windowSize` entries of the old window followed by the new
counts, and `occurrences` is their sum. -/
theorem feed_window (codes : List (List Byte)) :
    ∀ t : PatternTracker, t.Valid → 0 ≤ t.windowSize → t.WindowInv →
      ∃ tn alerts, t.feed codes = some (tn, alerts) ∧
        tn.windowCounts =
          (t.windowCounts ++ codes.map (fun code => ((naiveSearch t.pattern code).length : Int))).drop
            ((t.windowCounts ++ codes.map
              (fun code => ((naiveSearch t.pattern code).length : Int))).length
              - t.windowSize.toNat) ∧
        tn.occurrences = tn.windowCounts.sum := by
  induction codes with
  | nil =>
    intro t _ hw hinv
    refine ⟨t, [], rfl, ?_, hinv.1⟩
    have h2 := hinv.2
    have e : (t.windowCounts ++ List.map
        (fun code => ((naiveSearch t.pattern code).length : Int)) []).length
        - t.windowSize.toNat = 0 := by
      rw [List.map_nil, List.append_nil]; omega
    rw [e, List.drop_zero, List.map_nil, List.append_nil]
  | cons code rest ih =>
    intro t hv hw hinv
    have hv1 := pushEventCount_valid t ((naiveSearch t.pattern code).length : Int) hv
    have hinv1 := pushEventCount_inv t ((naiveSearch t.pattern code).length : Int) hinv
    have hw1 : 0 ≤ (t.pushEventCount ((naiveSearch t.pattern code).length : Int)).windowSize := by
      rw [pushEventCount_windowSize]; exact hw
    obtain ⟨tn, alerts, h1, h2, h3⟩ := ih _ hv1 hw1 hinv1
    refine ⟨tn, (t.pushEventCount ((naiveSearch t.pattern code).length : Int)).checkAlert
      :: alerts, ?_, ?_, h3⟩
    · unfold feed
      rw [processEvent_of_valid t hv]
      simp only [Option.bind_eq_bind, Option.some_bind, h1]
      rfl
    · rw [h2, pushEventCount_windowSize, pushEventCount_pattern,
        pushEventCount_windowCounts_drop t _ hw hinv.2, drop_last_append, List.map_cons,
        List.append_assoc, List.singleton_append]

/-- Feeding codes to a valid tracker never fails; a threshold `≤ 0` gives no alert, and the
window state after the run does not depend on the threshold. -/
theorem feed_threshold (codes : List (List Byte)) :
    ∀ t : PatternTracker, t.Valid →
      ∃ tn alerts, t.feed codes = some (tn, alerts) ∧
        (t.alertThreshold ≤ 0 → ∀ b ∈ alerts, b = false) ∧
        ∀ t2 : PatternTracker, t2.Valid → t2.pattern = t.pattern →
          t2.windowSize = t.windowSize → t2.windowCounts = t.windowCounts →
          t2.occurrences = t.occurrences →
          ∃ tn2 alerts2, t2.feed codes = some (tn2, alerts2) ∧
            tn2.windowCounts = tn.windowCounts ∧ tn2.occurrences = tn.occurrences := by
  induction codes with
  | nil =>
    intro t _
    exact ⟨t, [], rfl, fun _ b hb => absurd hb (List.not_mem_nil b),
      fun t2 _ _ _ h1 h2 => ⟨t2, [], rfl, h1, h2⟩⟩
  | cons code rest ih =>
    intro t hv
    have hv1 := pushEventCount_valid t ((naiveSearch t.pattern code).length : Int) hv
    obtain ⟨tn, alerts, h1, h2, h3⟩ := ih _ hv1
    refine ⟨tn, (t.pushEventCount ((naiveSearch t.pattern code).length : Int)).checkAlert
      :: alerts, ?_, ?_, ?_⟩
    · unfold feed
      rw [processEvent_of_valid t hv]
      simp only [Option.bind_eq_bind, Option.some_bind, h1]
      rfl
    · intro hth b hb
      rcases List.mem_cons.1 hb with h | h
      · rw [h]
        unfold checkAlert
        rw [pushEventCount_alertThreshold]
        have : ¬ (t.alertThreshold > 0) := by omega
        simp [this]
      · exact h2 (by rw [pushEventCount_alertThreshold]; exact hth) b h
    · intro t2 hv2 hp hws hwc hocc
      have hv21 := pushEventCount_valid t2 ((naiveSearch t2.pattern code).length : Int) hv2
      have hsame : (t2.pushEventCount ((naiveSearch t2.pattern code).length : Int)).windowCounts
            = (t.pushEventCount ((naiveSearch t.pattern code).length : Int)).windowCounts ∧
          (t2.pushEventCount ((naiveSearch t2.pattern code).length : Int)).occurrences
            = (t.pushEventCount ((naiveSearch t.pattern code).length : Int)).occurrences := by
        unfold pushEventCount
        simp only [hp, hws, hwc, hocc]
        split <;> exact ⟨rfl, rfl⟩
      obtain ⟨tn2, alerts2, g1, g2, g3⟩ := h3 _ hv21
        (by rw [pushEventCount_pattern, pushEventCount_pattern, hp])
        (by rw [pushEventCount_windowSize, pushEventCount_windowSize, hws])
        hsame.1 hsame.2
      refine ⟨tn2, (t2.pushEventCount ((naiveSearch t2.pattern code).length : Int)).checkAlert
        :: alerts2, ?_, g2, g3⟩
      unfold feed
      rw [processEvent_of_valid t2 hv2]
      simp only [Option.bind_eq_bind, Option.some_bind, g1]
      rfl

theorem feed_length (codes : List (List Byte)) :
    ∀ (t tn : PatternTracker) (alerts : List Bool), t.feed codes = some (tn, alerts) →
      alerts.length = codes.length := by
  induction codes with
  | nil =>
    intro t tn alerts h
    simp only [feed, Option.some.injEq, Prod.mk.injEq] at h
    rw [← h.2]
    rfl
  | cons code rest ih =>
    intro t tn alerts h
    unfold feed at h
    cases hp : t.processEvent code with
    | none => rw [hp] at h; exact absurd h (by simp)
    | some x =>
      obtain ⟨t1, b⟩ := x
      rw [hp] at h
      simp only [Option.bind_eq_bind, Option.some_bind] at h
      cases hf : t1.feed rest with
      | none => rw [hf] at h; exact absurd h (by simp)
      | some y =>
        obtain ⟨t2, bs⟩ := y
        rw [hf] at h
        simp only [Option.some_bind, pure, Option.some.injEq, Prod.mk.injEq] at h
        rw [← h.2, List.length_cons, List.length_cons, ih t1 t2 bs hf]

end PatternTracker

/-! ## Claims on `PatternTracker` -/

/-- Claim C4. For a window size `w > 0`, `occurrences == sum(windowCounts)` and
`len(windowCounts) <= w` hold for the freshly constructed tracker, and every `processEvent`
call on a tracker that satisfies them completes and gives a tracker that satisfies them;
when the window would exceed `w` the oldest count (the front) is the one removed. -/
theorem windowInv_init_and_preserved (p : List Byte) (w th : Int) (hw : 0 < w) :
    (∃ t0, PatternTracker.new p w th = some t0 ∧ t0.windowSize = w ∧ t0.Valid ∧ t0.WindowInv) ∧
    ∀ (t : PatternTracker) (code : List Byte), t.Valid → t.windowSize = w → t.WindowInv →
      ∃ (r : List Int) (t1 : PatternTracker) (b : Bool),
        t.bm.searchAll code = some r ∧ t.processEvent code = some (t1, b) ∧
        t1.Valid ∧ t1.windowSize = w ∧ t1.WindowInv ∧
        t1.windowCounts =
          if (t.windowCounts.length : Int) + 1 > w then t.windowCounts.tail ++ [(r.length : Int)]
          else t.windowCounts ++ [(r.length : Int)] := by
  constructor
  · refine ⟨_, PatternTracker.new_tracker p w th, rfl, new_built p, rfl, ?_⟩
    show ((0 : Nat) : Int) ≤ w
    omega
  · intro t code hv hws hinv
    refine ⟨naiveSearch t.pattern code, _, _, PatternTracker.searchAll_of_valid t hv code,
      PatternTracker.processEvent_of_valid t hv code,
      PatternTracker.pushEventCount_valid t _ hv, ?_,
      PatternTracker.pushEventCount_inv t _ hinv, ?_⟩
    · rw [PatternTracker.pushEventCount_windowSize, hws]
    · rw [PatternTracker.pushEventCount_windowCounts, hws, List.length_append,
        List.length_singleton]
      by_cases hc : (t.windowCounts.length : Int) + 1 > w
      · have hne : t.windowCounts ≠ [] := by
          intro h
          rw [h] at hc
          simp at hc
          omega
        have hc' : ((t.windowCounts.length + 1 : Nat) : Int) > w := by omega
        rw [if_pos hc, if_pos hc', List.tail_append_of_ne_nil hne]
      · have hc' : ¬ (((t.windowCounts.length + 1 : Nat) : Int) > w) := by omega
        rw [if_neg hc, if_neg hc']

/-- Witness for C4: window size 3; the full window `[2, 2, 2]` takes one more event. -/
theorem windowInv_init_and_preserved_witness :
    (0 : Int) < 3 ∧
    (∃ t0, PatternTracker.new [65] 3 5 = some t0 ∧ t0.windowSize = 3 ∧ t0.Valid ∧
      t0.WindowInv) ∧
    ∃ (r : List Int) (t1 : PatternTracker) (b : Bool),
      fullTracker.bm.searchAll [65, 66] = some r ∧
      fullTracker.processEvent [65, 66] = some (t1, b) ∧
      t1.Valid ∧ t1.windowSize = 3 ∧ t1.WindowInv ∧
      t1.windowCounts =
        if (fullTracker.windowCounts.length : Int) + 1 > 3
        then fullTracker.windowCounts.tail ++ [(r.length : Int)]
        else fullTracker.windowCounts ++ [(r.length : Int)] :=
  ⟨by decide, (windowInv_init_and_preserved [65] 3 5 (by decide)).1,
   (windowInv_init_and_preserved [65] 3 5 (by decide)).2 fullTracker [65, 66]
     (new_built [65]) rfl ⟨by decide, by decide⟩⟩

/-- Claim C5. After feeding the codes `c1..cn` to a fresh tracker with window size `w > 0`,
`windowCounts` is the list of the match counts `|searchAll(ck)|` of the most recent
`min(n, w)` codes in arrival order, and `currentWindowCount()` is their sum. -/
theorem window_after_feed (p : List Byte) (w th : Int) (hw : 0 < w)
    (codes : List (List Byte)) :
    ∃ (t0 tn : PatternTracker) (alerts : List Bool) (counts : List Int),
      PatternTracker.new p w th = some t0 ∧ t0.feed codes = some (tn, alerts) ∧
      List.Forall₂ (fun code c => ∃ r, bmSearch p code = some r ∧ c = (r.length : Int))
        codes counts ∧
      tn.windowCounts = counts.drop (counts.length - min counts.length w.toNat) ∧
      tn.currentWindowCount = (counts.drop (counts.length - min counts.length w.toNat)).sum := by
  obtain ⟨tn, alerts, h1, h2, h3⟩ :=
    PatternTracker.feed_window codes
      { pattern := p, bm := built p, windowSize := w, alertThreshold := th,
        windowCounts := [], occurrences := 0 }
      (new_built p) (by show 0 ≤ w; omega) ⟨rfl, by show ((0 : Nat) : Int) ≤ w; omega⟩
  simp only [List.nil_append] at h2
  have e : ∀ n : Nat, n - min n w.toNat = n - w.toNat := by intro n; omega
  refine ⟨_, tn, alerts, codes.map (fun code => ((naiveSearch p code).length : Int)),
    PatternTracker.new_tracker p w th, h1, ?_, ?_, ?_⟩
  · have : ∀ l : List (List Byte),
        List.Forall₂ (fun code c => ∃ r, bmSearch p code = some r ∧ c = (r.length : Int))
          l (l.map (fun code => ((naiveSearch p code).length : Int))) := by
      intro l
      induction l with
      | nil => exact List.Forall₂.nil
      | cons a l ih =>
        refine List.Forall₂.cons ⟨naiveSearch p a, ?_, rfl⟩ ih
        rw [bmSearch_built]
        exact searchAll_built_all p a
    exact this codes
  · rw [e]; exact h2
  · rw [e]
    show tn.occurrences = _
    rw [h3, h2]

set_option maxRecDepth 100000 in
/-- Witness for C5: window size 2 and the three codes `"AA"`, `"A"`, `"AAA"` for the
pattern `"A"`; the counts are 2, 1, 3 and the window ends as `[1, 3]` with sum 4. -/
theorem window_after_feed_witness :
    (0 : Int) < 2 ∧
    (∃ (t0 tn : PatternTracker) (alerts : List Bool) (counts : List Int),
      PatternTracker.new [65] 2 5 = some t0 ∧
      t0.feed [[65, 65], [65], [65, 65, 65]] = some (tn, alerts) ∧
      List.Forall₂ (fun code c => ∃ r, bmSearch [65] code = some r ∧ c = (r.length : Int))
        [[65, 65], [65], [65, 65, 65]] counts ∧
      tn.windowCounts = counts.drop (counts.length - min counts.length (2 : Int).toNat) ∧
      tn.currentWindowCount
        = (counts.drop (counts.length - min counts.length (2 : Int).toNat)).sum) ∧
    ((PatternTracker.new [65] 2 5).bind
        (fun t => t.feed [[65, 65], [65], [65, 65, 65]])).map
      (fun x => (x.1.windowCounts, x.1.currentWindowCount)) = some ([1, 3], 4) :=
  ⟨by decide, window_after_feed [65] 2 5 (by decide) [[65, 65], [65], [65, 65, 65]],
   by rw [PatternTracker.new_tracker]; decide⟩

/-- Claim C6. For every tracker whose matcher is the one built from its pattern, and every event
code, `processEvent(code)` completes, updates the window with the match count of the code,
and returns `true` exactly when, after that update, `occurrences >= threshold` and
`threshold > 0`. -/
theorem processEvent_alert_iff (t : PatternTracker) (code : List Byte) (hv : t.Valid) :
    ∃ (r : List Int) (t1 : PatternTracker) (b : Bool),
      t.bm.searchAll code = some r ∧ t.processEvent code = some (t1, b) ∧
      t1 = t.pushEventCount (r.length : Int) ∧ t1.alertThreshold = t.alertThreshold ∧
      (b = true ↔ (t1.occurrences ≥ t.alertThreshold ∧ t.alertThreshold > 0)) := by
  refine ⟨naiveSearch t.pattern code, _, _, PatternTracker.searchAll_of_valid t hv code,
    PatternTracker.processEvent_of_valid t hv code, rfl,
    PatternTracker.pushEventCount_alertThreshold t _, ?_⟩
  unfold PatternTracker.checkAlert
  rw [PatternTracker.pushEventCount_alertThreshold]
  simp

set_option maxRecDepth 100000 in
/-- Witness for C6: pattern `"A"`, window size 3, threshold 5.  Three events `"AA"` (2
matches each) give `occurrences = 6` and only the third call returns `true`; three events
`"A"` (1 match each) give `occurrences = 3` and no call returns `true`. -/
theorem processEvent_alert_iff_witness :
    fullTracker.Valid ∧
    (∃ (r : List Int) (t1 : PatternTracker) (b : Bool),
      fullTracker.bm.searchAll [65, 65] = some r ∧
      fullTracker.processEvent [65, 65] = some (t1, b) ∧
      t1 = fullTracker.pushEventCount (r.length : Int) ∧
      t1.alertThreshold = fullTracker.alertThreshold ∧
      (b = true ↔ (t1.occurrences ≥ fullTracker.alertThreshold ∧
        fullTracker.alertThreshold > 0))) ∧
    ((PatternTracker.new [65] 3 5).bind
        (fun t => t.feed [[65, 65], [65, 65], [65, 65]])).map
      (fun x => (x.1.occurrences, x.2)) = some (6, [false, false, true]) ∧
    ((PatternTracker.new [65] 3 5).bind
        (fun t => t.feed [[65], [65], [65]])).map
      (fun x => (x.1.occurrences, x.2)) = some (3, [false, false, false]) :=
  ⟨new_built [65], processEvent_alert_iff fullTracker [65, 65] (new_built [65]),
   by rw [PatternTracker.new_tracker]; decide, by rw [PatternTracker.new_tracker]; decide⟩

/-- Claim C7. With a threshold `≤ 0`, for every pattern, window size and sequence of event codes,
every `processEvent` call completes and none returns `true`; the window counts and
`occurrences` after the run are the same as with any other threshold. -/
theorem no_alert_when_threshold_nonpos (p : List Byte) (w th : Int) (hth : th ≤ 0)
    (codes : List (List Byte)) :
    ∃ (t0 tn : PatternTracker) (alerts : List Bool),
      PatternTracker.new p w th = some t0 ∧ t0.feed codes = some (tn, alerts) ∧
      alerts.length = codes.length ∧ (∀ b ∈ alerts, b = false) ∧
      ∀ th2 : Int, ∃ (s0 sn : PatternTracker) (alerts2 : List Bool),
        PatternTracker.new p w th2 = some s0 ∧ s0.feed codes = some (sn, alerts2) ∧
        sn.windowCounts = tn.windowCounts ∧ sn.occurrences = tn.occurrences := by
  obtain ⟨tn, alerts, h1, h2, h3⟩ :=
    PatternTracker.feed_threshold codes
      { pattern := p, bm := built p, windowSize := w, alertThreshold := th,
        windowCounts := [], occurrences := 0 }
      (new_built p)
  refine ⟨_, tn, alerts, PatternTracker.new_tracker p w th, h1,
    PatternTracker.feed_length codes _ _ _ h1, h2 hth, ?_⟩
  intro th2
  obtain ⟨sn, alerts2, g1, g2, g3⟩ :=
    h3 { pattern := p, bm := built p, windowSize := w, alertThreshold := th2,
         windowCounts := [], occurrences := 0 }
      (new_built p) rfl rfl rfl rfl
  exact ⟨_, sn, alerts2, PatternTracker.new_tracker p w th2, g1, g2, g3⟩

set_option maxRecDepth 100000 in
/-- Witness for C7: threshold 0 on the events of the alerting example; `occurrences`
reaches 6 and no call returns `true`. -/
theorem no_alert_when_threshold_nonpos_witness :
    (0 : Int) ≤ 0 ∧
    (∃ (t0 tn : PatternTracker) (alerts : List Bool),
      PatternTracker.new [65] 3 0 = some t0 ∧
      t0.feed [[65, 65], [65, 65], [65, 65]] = some (tn, alerts) ∧
      alerts.length = [[65, 65], [65, 65], [(65 : Byte), 65]].length ∧
      (∀ b ∈ alerts, b = false) ∧
      ∀ th2 : Int, ∃ (s0 sn : PatternTracker) (alerts2 : List Bool),
        PatternTracker.new [65] 3 th2 = some s0 ∧
        s0.feed [[65, 65], [65, 65], [65, 65]] = some (sn, alerts2) ∧
        sn.windowCounts = tn.windowCounts ∧ sn.occurrences = tn.occurrences) ∧
    ((PatternTracker.new [65] 3 0).bind
        (fun t => t.feed [[65, 65], [65, 65], [65, 65]])).map
      (fun x => (x.1.occurrences, x.2)) = some (6, [false, false, false]) :=
  ⟨by decide, no_alert_when_threshold_nonpos [65] 3 0 (by decide) _,
   by rw [PatternTracker.new_tracker]; decide⟩


/-! ## `EventBuffer` -/

namespace EventBuffer

/-- What every run keeps: the queue is within capacity, and the events pushed are the
events popped followed by the events still queued. -/
theorem Run.step_inv (r : Run) (op : Op)
    (h : r.buf.q.length ≤ r.buf.cap ∧ r.popped ++ r.buf.q = r.pushed) :
    (r.step op).buf.q.length ≤ (r.step op).buf.cap ∧
      (r.step op).popped ++ (r.step op).buf.q = (r.step op).pushed ∧
      (r.step op).buf.cap = r.buf.cap := by
  obtain ⟨h1, h2⟩ := h
  cases op with
  | push ev =>
    unfold Run.step push
    by_cases hc : r.buf.q.length < r.buf.cap
    · simp only [hc, if_true]
      refine ⟨?_, ?_, by first | rfl | trivial⟩
      · show (r.buf.q ++ [ev]).length ≤ r.buf.cap
        rw [List.length_append, List.length_singleton]; omega
      · show r.popped ++ (r.buf.q ++ [ev]) = r.pushed ++ [ev]
        rw [← List.append_assoc, h2]
    · simp only [hc, if_false]
      exact ⟨h1, h2, by first | rfl | trivial⟩
  | pop =>
    unfold Run.step pop
    cases hq : r.buf.q with
    | nil =>
      cases ht : r.buf.terminated with
      | true =>
        simp only [List.isEmpty_nil, Bool.not_true, Bool.false_or, if_true]
        exact ⟨h1, h2, by first | rfl | trivial⟩
      | false =>
        simp only [List.isEmpty_nil, Bool.not_true, Bool.false_or, Bool.false_eq_true, if_false]
        exact ⟨h1, h2, by first | rfl | trivial⟩
    | cons front rest =>
      simp only [List.isEmpty_cons, Bool.not_false, Bool.true_or, if_true]
      rw [hq] at h1 h2
      refine ⟨?_, ?_, by first | rfl | trivial⟩
      · show rest.length ≤ r.buf.cap
        rw [List.length_cons] at h1; omega
      · show (r.popped ++ [front]) ++ rest = r.pushed
        rw [List.append_assoc]; exact h2
  | terminate =>
    exact ⟨h1, h2, rfl⟩

theorem Run.steps_inv (ops : List Op) :
    ∀ r : Run, (r.buf.q.length ≤ r.buf.cap ∧ r.popped ++ r.buf.q = r.pushed) →
      (r.steps ops).buf.q.length ≤ r.buf.cap ∧
        (r.steps ops).popped ++ (r.steps ops).buf.q = (r.steps ops).pushed ∧
        (r.steps ops).buf.cap = r.buf.cap := by
  induction ops with
  | nil => intro r h; exact ⟨h.1, h.2, rfl⟩
  | cons op rest ih =>
    intro r h
    obtain ⟨g1, g2, g3⟩ := Run.step_inv r op h
    obtain ⟨k1, k2, k3⟩ := ih (r.step op) ⟨g1, g2⟩
    show ((r.step op).steps rest).buf.q.length ≤ r.buf.cap ∧ _
    rw [g3] at k1 k3
    exact ⟨k1, k2, k3⟩

theorem Run.init_inv (C : Nat) :
    (Run.init C).buf.q.length ≤ (Run.init C).buf.cap ∧
      (Run.init C).popped ++ (Run.init C).buf.q = (Run.init C).pushed :=
  ⟨Nat.zero_le _, rfl⟩

/-- After `terminate()`, popping a buffer as many times as it holds events and once more
returns the events in queue order with `true`, then `false`. -/
theorem pops_drain (cap : Nat) :
    ∀ (q : List SensorEvent) (out : SensorEvent),
      pops (q.length + 1) { q := q, cap := cap, terminated := true } out
        = some ({ q := [], cap := cap, terminated := true }, q.getLastD out,
                q.map (fun e => (e, true)) ++ [(q.getLastD out, false)]) := by
  intro q
  induction q with
  | nil =>
    intro out
    rfl
  | cons e rest ih =>
    intro out
    have hpop : pop { q := e :: rest, cap := cap, terminated := true } out
        = some ({ q := rest, cap := cap, terminated := true }, e, true) := rfl
    rw [List.length_cons, pops, hpop]
    simp only [Option.bind_eq_bind, Option.some_bind, ih e]
    cases rest with
    | nil => rfl
    | cons e2 rest2 => rfl

end EventBuffer

/-! ## Claims on `EventBuffer` -/

/-- Claim C8. From the empty buffer of any capacity `C` (so for every `C ≥ 1`), after every
sequence of attempted `push`, `pop` and `terminate` calls, the queue holds at most `C`
events, a `push` completes exactly when the queue holds fewer than `C` events, and no
pushed event is dropped: the events pushed are the events popped followed by those still
queued.  With capacity 2, two pushes complete, a third does not complete until a pop has
completed, and then it completes and leaves two events queued. -/
theorem queue_bounded_nothing_dropped :
    (∀ (C : Nat) (ops : List EventBuffer.Op),
      ((EventBuffer.Run.init C).steps ops).buf.q.length ≤ C ∧
      ((EventBuffer.Run.init C).steps ops).buf.cap = C ∧
      (∀ ev, (((EventBuffer.Run.init C).steps ops).buf.push ev).isSome = true ↔
        ((EventBuffer.Run.init C).steps ops).buf.q.length < C) ∧
      (∀ ev b, ((EventBuffer.Run.init C).steps ops).buf.push ev = some b →
        b.q = ((EventBuffer.Run.init C).steps ops).buf.q ++ [ev]) ∧
      ((EventBuffer.Run.init C).steps ops).pushed =
        ((EventBuffer.Run.init C).steps ops).popped ++
          ((EventBuffer.Run.init C).steps ops).buf.q) ∧
    (∀ e1 e2 e3 : SensorEvent,
      ((EventBuffer.Run.init 2).steps [.push e1, .push e2]).buf.q = [e1, e2] ∧
      ((EventBuffer.Run.init 2).steps [.push e1, .push e2]).buf.push e3 = none ∧
      ((EventBuffer.Run.init 2).steps [.push e1, .push e2, .push e3]).buf.q = [e1, e2] ∧
      ((EventBuffer.Run.init 2).steps [.push e1, .push e2, .pop]).buf.push e3
        = some { q := [e2, e3], cap := 2, terminated := false }) := by
  constructor
  · intro C ops
    obtain ⟨h1, h2, h3⟩ := EventBuffer.Run.steps_inv ops (EventBuffer.Run.init C)
      (EventBuffer.Run.init_inv C)
    have hcap : ((EventBuffer.Run.init C).steps ops).buf.cap = C := h3
    refine ⟨h1, hcap, ?_, ?_, h2.symm⟩
    · intro ev
      unfold EventBuffer.push
      rw [hcap]
      by_cases hc : ((EventBuffer.Run.init C).steps ops).buf.q.length < C
      · simp [hc]
      · simp [hc]
    · intro ev b hb
      unfold EventBuffer.push at hb
      by_cases hc : ((EventBuffer.Run.init C).steps ops).buf.q.length <
          ((EventBuffer.Run.init C).steps ops).buf.cap
      · rw [if_pos hc] at hb
        rw [← Option.some.inj hb]
      · rw [if_neg hc] at hb
        exact absurd hb (by simp)
  · intro e1 e2 e3
    exact ⟨rfl, rfl, rfl, rfl⟩

/-- Claim C9. For a buffer holding `e1..ek` (`k ≥ 0`), after `terminate()` the next `k` calls of
`pop` return `e1..ek` in that order with `true` and leave the queue empty, and call `k + 1`
returns `false` with `out` unchanged.  Pushing three events into the empty buffer,
terminating and popping four times gives the three events in push order, then `false`. -/
theorem terminate_then_drain :
    (∀ (b : EventBuffer) (out : SensorEvent),
      EventBuffer.pops (b.q.length + 1) b.terminate out
        = some ({ q := [], cap := b.cap, terminated := true }, b.q.getLastD out,
                b.q.map (fun e => (e, true)) ++ [(b.q.getLastD out, false)])) ∧
    (∀ e1 e2 e3 out : SensorEvent,
      EventBuffer.pops 4
          ((EventBuffer.Run.init 3).steps [.push e1, .push e2, .push e3, .terminate]).buf out
        = some ({ q := [], cap := 3, terminated := true }, e3,
                [(e1, true), (e2, true), (e3, true), (e3, false)])) := by
  constructor
  · intro b out
    exact EventBuffer.pops_drain b.cap b.q out
  · intro e1 e2 e3 out
    rfl

/-- Claim C10. From the empty buffer, after every sequence of attempted `push`, `pop` and
`terminate` calls, the events returned by the successful pops, in pop order, are a prefix
of the events pushed, in push order; the rest of the pushed events is the queue. -/
theorem popped_prefix_of_pushed (C : Nat) (ops : List EventBuffer.Op) :
    ((EventBuffer.Run.init C).steps ops).popped <+: ((EventBuffer.Run.init C).steps ops).pushed ∧
    ((EventBuffer.Run.init C).steps ops).pushed =
      ((EventBuffer.Run.init C).steps ops).popped ++ ((EventBuffer.Run.init C).steps ops).buf.q := by
  obtain ⟨_, h2, _⟩ := EventBuffer.Run.steps_inv ops (EventBuffer.Run.init C)
    (EventBuffer.Run.init_inv C)
  exact ⟨⟨_, h2⟩, h2.symm⟩


/-! ## More claims on `EventBuffer` -/

theorem EventBuffer.steps_terminated (ops : List EventBuffer.Op) :
    ∀ r : EventBuffer.Run, r.buf.terminated = true → (r.steps ops).buf.terminated = true := by
  induction ops with
  | nil => intro r h; exact h
  | cons op rest ih =>
    intro r h
    apply ih (r.step op)
    cases op with
    | push ev =>
      unfold EventBuffer.Run.step EventBuffer.push
      by_cases hc : r.buf.q.length < r.buf.cap
      · simp only [hc, if_true]; exact h
      · simp only [hc, if_false]; exact h
    | pop =>
      unfold EventBuffer.Run.step EventBuffer.pop
      cases hq : r.buf.q with
      | nil => simp only [h, List.isEmpty_nil, Bool.not_true, Bool.or_true, if_true]
      | cons front rest2 =>
        simp only [List.isEmpty_cons, Bool.not_false, Bool.true_or, if_true]
        exact h
    | terminate => rfl

theorem EventBuffer.steps_cap_zero (ops : List EventBuffer.Op) :
    ∀ r : EventBuffer.Run, r.buf.cap = 0 → r.buf.q = [] →
      (r.steps ops).buf.cap = 0 ∧ (r.steps ops).buf.q = [] := by
  induction ops with
  | nil => intro r h1 h2; exact ⟨h1, h2⟩
  | cons op rest ih =>
    intro r h1 h2
    have : (r.step op).buf.cap = 0 ∧ (r.step op).buf.q = [] := by
      cases op with
      | push ev =>
        unfold EventBuffer.Run.step EventBuffer.push
        have hc : ¬ (r.buf.q.length < r.buf.cap) := by rw [h1]; omega
        simp only [hc, if_false]
        exact ⟨h1, h2⟩
      | pop =>
        unfold EventBuffer.Run.step EventBuffer.pop
        rw [h2]
        cases ht : r.buf.terminated with
        | true =>
          simp only [List.isEmpty_nil, Bool.not_true, Bool.false_or, if_true]
          exact ⟨h1, h2⟩
        | false =>
          simp only [List.isEmpty_nil, Bool.not_true, Bool.false_or, Bool.false_eq_true, if_false]
          exact ⟨h1, h2⟩
      | terminate => exact ⟨h1, h2⟩
    exact ih (r.step op) this.1 this.2

/-- Claim C11. For every buffer state and every content of `out`, `pop(out)` completes with
`false`, leaving queue and `out` unchanged, exactly when the queue is empty and terminated;
it completes with `true`, returning and removing the front event, exactly when the queue is
non-empty, terminated or not; and it stays blocked exactly when the queue is empty and not
terminated. -/
theorem pop_three_cases (b : EventBuffer) (out : SensorEvent) :
    ((∃ b1 out1, b.pop out = some (b1, out1, false)) ↔ (b.q = [] ∧ b.terminated = true)) ∧
    (∀ b1 out1, b.pop out = some (b1, out1, false) → b1 = b ∧ out1 = out) ∧
    ((∃ b1 out1, b.pop out = some (b1, out1, true)) ↔ b.q ≠ []) ∧
    (∀ b1 out1, b.pop out = some (b1, out1, true) →
      b.q = out1 :: b1.q ∧ b1.cap = b.cap ∧ b1.terminated = b.terminated) ∧
    (b.pop out = none ↔ (b.q = [] ∧ b.terminated = false)) := by
  obtain ⟨q, cap, term⟩ := b
  cases q with
  | nil =>
    cases term with
    | true =>
      have h : EventBuffer.pop ⟨[], cap, true⟩ out = some (⟨[], cap, true⟩, out, false) := rfl
      rw [h]
      simp
    | false =>
      have h : EventBuffer.pop ⟨[], cap, false⟩ out = none := rfl
      rw [h]
      simp
  | cons front rest =>
    have h : EventBuffer.pop ⟨front :: rest, cap, term⟩ out
        = some (⟨rest, cap, term⟩, front, true) := rfl
    rw [h]
    simp

/-- Claim C12. `terminate()` sets the terminated flag and leaves the queued events and the
capacity unchanged; calling it twice gives the same state as calling it once; and once the
flag is set, no completed `push` or `pop` and no sequence of attempted `push`, `pop` and
`terminate` calls resets it. -/
theorem terminate_idempotent_one_way (b : EventBuffer) :
    b.terminate.terminated = true ∧ b.terminate.q = b.q ∧ b.terminate.cap = b.cap ∧
    b.terminate.terminate = b.terminate ∧
    (∀ ev b1, b.terminate.push ev = some b1 → b1.terminated = true) ∧
    (∀ out b1 out1 ok, b.terminate.pop out = some (b1, out1, ok) → b1.terminated = true) ∧
    (∀ (pushed popped : List SensorEvent) (ops : List EventBuffer.Op),
      ((EventBuffer.Run.mk b.terminate pushed popped).steps ops).buf.terminated = true) := by
  refine ⟨rfl, rfl, rfl, rfl, ?_, ?_, ?_⟩
  · intro ev b1 h
    unfold EventBuffer.push at h
    by_cases hc : b.terminate.q.length < b.terminate.cap
    · rw [if_pos hc] at h
      rw [← Option.some.inj h]
      rfl
    · rw [if_neg hc] at h
      exact absurd h (by simp)
  · intro out b1 out1 ok h
    obtain ⟨q, cap, term⟩ := b
    cases q with
    | nil =>
      have h2 : EventBuffer.pop (EventBuffer.terminate ⟨[], cap, term⟩) out
          = some (⟨[], cap, true⟩, out, false) := rfl
      rw [h2] at h
      simp only [Option.some.injEq, Prod.mk.injEq] at h
      rw [← h.1]
    | cons front rest =>
      have h2 : EventBuffer.pop (EventBuffer.terminate ⟨front :: rest, cap, term⟩) out
          = some (⟨rest, cap, true⟩, front, true) := rfl
      rw [h2] at h
      simp only [Option.some.injEq, Prod.mk.injEq] at h
      rw [← h.1]
  · intro pushed popped ops
    exact EventBuffer.steps_terminated ops _ rfl

/-- Counterexample to C13: the constructor accepts capacity 0 and returns a queue on which a
push does not complete. -/
theorem capacity_zero_accepted :
    EventBuffer.new 0 = { q := [], cap := 0, terminated := false } ∧
    (EventBuffer.new 0).push { ts := 0, code := [], sensorId := 0 } = none :=
  ⟨rfl, rfl⟩

/-- Claim C13, amended. The constructor validates nothing: for every capacity, 0 included,
it returns the empty, non-terminated queue with that capacity.  On the queue of capacity 0
no push ever completes, whatever calls are attempted; on a queue of capacity at least 1 a
push on the empty queue completes. -/
theorem constructor_accepts_every_capacity :
    (∀ c : Nat, EventBuffer.new c = { q := [], cap := c, terminated := false }) ∧
    (∀ (ops : List EventBuffer.Op) (ev : SensorEvent),
      ((EventBuffer.Run.init 0).steps ops).buf.push ev = none ∧
      ((EventBuffer.Run.init 0).steps ops).buf.q = []) ∧
    (∀ (c : Nat) (ev : SensorEvent),
      (EventBuffer.new (c + 1)).push ev = some { q := [ev], cap := c + 1, terminated := false }) := by
  refine ⟨fun c => rfl, ?_, fun c ev => ?_⟩
  · intro ops ev
    obtain ⟨h1, h2⟩ := EventBuffer.steps_cap_zero ops (EventBuffer.Run.init 0) rfl rfl
    refine ⟨?_, h2⟩
    unfold EventBuffer.push
    rw [h1, h2]
    rfl
  · unfold EventBuffer.push EventBuffer.new
    simp


/-! ## `AlertManager` -/

namespace AlertManager

theorem processEvent_pattern (t t1 : PatternTracker) (b : Bool) (code : List Byte)
    (h : t.processEvent code = some (t1, b)) :
    t1.pattern = t.pattern ∧ t1.bm = t.bm ∧ t1.windowSize = t.windowSize ∧
      t1.alertThreshold = t.alertThreshold := by
  unfold PatternTracker.processEvent at h
  cases hs : t.bm.searchAll code with
  | none => rw [hs] at h; exact absurd h (by simp)
  | some r =>
    rw [hs] at h
    simp only [Option.bind_eq_bind, Option.some_bind, pure, Option.some.injEq,
      Prod.mk.injEq] at h
    rw [← h.1]
    exact ⟨PatternTracker.pushEventCount_pattern t _, PatternTracker.pushEventCount_bm t _,
      PatternTracker.pushEventCount_windowSize t _,
      PatternTracker.pushEventCount_alertThreshold t _⟩

theorem processEvent_valid (t t1 : PatternTracker) (b : Bool) (code : List Byte)
    (hv : t.Valid) (h : t.processEvent code = some (t1, b)) : t1.Valid := by
  obtain ⟨h1, h2, _, _⟩ := processEvent_pattern t t1 b code h
  unfold PatternTracker.Valid at hv ⊢
  rw [h1, h2]
  exact hv

/-- The loop visits the trackers still to visit once each, in order, and writes one line
for each of them whose `processEvent` returned `true`, in order. -/
theorem processLoop_spec (ev : SensorEvent) (clock : Nat → Int) :
    ∀ (todo done : List PatternTracker) (out : List (List Byte)),
      (∀ t ∈ todo, t.Valid) →
      ∃ (results : List (PatternTracker × Bool)) (lines : List (List Byte)),
        processLoop ev clock done todo out = some (done ++ results.map (·.1), out ++ lines) ∧
        List.Forall₂ (fun t r => t.processEvent ev.code = some r) todo results ∧
        List.Forall₂
          (fun r line => ∃ time cnt : Int,
            line = alertLine r.1.name ev.sensorId ev.code time cnt)
          (results.filter (·.2)) lines := by
  intro todo
  induction todo with
  | nil =>
    intro done out _
    exact ⟨[], [], by simp [processLoop], List.Forall₂.nil, List.Forall₂.nil⟩
  | cons t rest ih =>
    intro done out hv
    have hvt : t.Valid := hv t (List.mem_cons_self _ _)
    have hp := PatternTracker.processEvent_of_valid t hvt ev.code
    obtain ⟨results, lines, h1, h2, h3⟩ :=
      ih (done ++ [t.pushEventCount ((naiveSearch t.pattern ev.code).length : Int)])
        (if (t.pushEventCount ((naiveSearch t.pattern ev.code).length : Int)).checkAlert then
          out ++ [emitAlert
            { trackers := done ++
                t.pushEventCount ((naiveSearch t.pattern ev.code).length : Int) :: rest }
            (t.pushEventCount ((naiveSearch t.pattern ev.code).length : Int)).name ev
            (clock done.length)]
         else out)
        (fun s hs => hv s (List.mem_cons_of_mem _ hs))
    cases hb : (t.pushEventCount ((naiveSearch t.pattern ev.code).length : Int)).checkAlert with
    | true =>
      rw [hb] at h1
      refine ⟨(t.pushEventCount ((naiveSearch t.pattern ev.code).length : Int), true)
          :: results,
        emitAlert
            { trackers := done ++
                t.pushEventCount ((naiveSearch t.pattern ev.code).length : Int) :: rest }
            (t.pushEventCount ((naiveSearch t.pattern ev.code).length : Int)).name ev
            (clock done.length) :: lines, ?_, ?_, ?_⟩
      · unfold processLoop
        rw [hp, hb]
        simp only [Option.bind_eq_bind, Option.some_bind, if_true]
        simp only [if_true] at h1
        rw [h1]
        simp
      · exact List.Forall₂.cons (by rw [hp, hb]) h2
      · rw [List.filter_cons_of_pos (by rfl)]
        exact List.Forall₂.cons ⟨_, _, rfl⟩ h3
    | false =>
      rw [hb] at h1
      refine ⟨(t.pushEventCount ((naiveSearch t.pattern ev.code).length : Int), false)
          :: results, lines, ?_, ?_, ?_⟩
      · unfold processLoop
        rw [hp, hb]
        simp only [Option.bind_eq_bind, Option.some_bind]
        simp only [Bool.false_eq_true, if_false] at h1 ⊢
        rw [h1]
        simp
      · exact List.Forall₂.cons (by rw [hp, hb]) h2
      · rw [List.filter_cons_of_neg (by simp)]
        exact h3

theorem processEvent_spec (am : AlertManager) (hv : ∀ t ∈ am.trackers, t.Valid)
    (ev : SensorEvent) (clock : Nat → Int) :
    ∃ (results : List (PatternTracker × Bool)) (lines : List (List Byte)),
      am.processEvent ev clock = some ({ trackers := results.map (·.1) }, lines) ∧
      List.Forall₂ (fun t r => t.processEvent ev.code = some r) am.trackers results ∧
      List.Forall₂
        (fun r line => ∃ time cnt : Int,
          line = alertLine r.1.name ev.sensorId ev.code time cnt)
        (results.filter (·.2)) lines := by
  obtain ⟨results, lines, h1, h2, h3⟩ := processLoop_spec ev clock am.trackers [] [] hv
  refine ⟨results, lines, ?_, h2, h3⟩
  unfold processEvent
  rw [h1]
  simp

theorem results_valid (code : List Byte) :
    ∀ (ts : List PatternTracker) (results : List (PatternTracker × Bool)),
      (∀ t ∈ ts, t.Valid) →
      List.Forall₂ (fun t r => t.processEvent code = some r) ts results →
      ∀ t ∈ results.map (·.1), t.Valid := by
  intro ts results hv h
  induction h with
  | nil => intro t ht; exact absurd ht (List.not_mem_nil t)
  | cons hab _ ih =>
    rename_i a b l1 l2 _
    intro t ht
    rcases List.mem_cons.1 ht with h1 | h1
    · rw [h1]
      exact processEvent_valid a b.1 b.2 code (hv a (List.mem_cons_self _ _)) hab
    · exact ih (fun s hs => hv s (List.mem_cons_of_mem _ hs)) t h1

theorem feed_pattern (codes : List (List Byte)) :
    ∀ (t tn : PatternTracker) (al : List Bool), t.feed codes = some (tn, al) →
      tn.pattern = t.pattern := by
  induction codes with
  | nil =>
    intro t tn al h
    simp only [PatternTracker.feed, Option.some.injEq, Prod.mk.injEq] at h
    rw [← h.1]
  | cons code rest ih =>
    intro t tn al h
    unfold PatternTracker.feed at h
    cases hp : t.processEvent code with
    | none => rw [hp] at h; exact absurd h (by simp)
    | some x =>
      obtain ⟨t1, b⟩ := x
      rw [hp] at h
      simp only [Option.bind_eq_bind, Option.some_bind] at h
      cases hf : t1.feed rest with
      | none => rw [hf] at h; exact absurd h (by simp)
      | some y =>
        obtain ⟨t2, bs⟩ := y
        rw [hf] at h
        simp only [Option.some_bind, pure, Option.some.injEq, Prod.mk.injEq] at h
        rw [← h.1, ih t1 t2 bs hf, (processEvent_pattern t t1 b code hp).1]

theorem registerAll_spec (specs : List (List Byte × Int × Int)) :
    ∀ am : AlertManager,
      ∃ ts : List PatternTracker,
        am.registerAll specs = some { trackers := am.trackers ++ ts } ∧
        List.Forall₂ (fun spec t => PatternTracker.new spec.1 spec.2.1 spec.2.2 = some t)
          specs ts ∧
        ∀ t ∈ ts, t.Valid := by
  induction specs with
  | nil =>
    intro am
    exact ⟨[], by simp [registerAll], List.Forall₂.nil,
      fun t ht => absurd ht (List.not_mem_nil t)⟩
  | cons spec rest ih =>
    intro am
    obtain ⟨ts, h1, h2, h3⟩ := ih
      { trackers := am.trackers ++
          [{ pattern := spec.1, bm := built spec.1, windowSize := spec.2.1,
             alertThreshold := spec.2.2, windowCounts := [], occurrences := 0 }] }
    refine ⟨{ pattern := spec.1, bm := built spec.1, windowSize := spec.2.1,
              alertThreshold := spec.2.2, windowCounts := [], occurrences := 0 } :: ts,
      ?_, List.Forall₂.cons (PatternTracker.new_tracker _ _ _) h2, ?_⟩
    · rw [registerAll, registerPattern, PatternTracker.new_tracker]
      simp only [Option.bind_eq_bind, Option.some_bind, pure]
      rw [h1]
      simp only [List.append_assoc, List.singleton_append]
    · intro t ht
      rcases List.mem_cons.1 ht with h | h
      · rw [h]; exact new_built spec.1
      · exact h3 t h

/-- Joining the results of one event with the stand-alone runs over the later events gives
the stand-alone runs over all events. -/
theorem feed_cons_zip (code : List Byte) (codes : List (List Byte)) :
    ∀ (ts : List PatternTracker) (results : List (PatternTracker × Bool))
      (rest : List (PatternTracker × List Bool)),
      List.Forall₂ (fun t r => t.processEvent code = some r) ts results →
      List.Forall₂ (fun t s => t.feed codes = some s) (results.map (·.1)) rest →
      ∃ all : List (PatternTracker × List Bool),
        List.Forall₂ (fun t s => t.feed (code :: codes) = some s) ts all ∧
        all.map (·.1) = rest.map (·.1) ∧
        (all.filter (fun s => decide (s.2[0]? = some true))).map (·.1.name)
          = (results.filter (·.2)).map (·.1.name) ∧
        ∀ j : Nat, (all.filter (fun s => decide (s.2[j + 1]? = some true))).map (·.1.name)
          = (rest.filter (fun s => decide (s.2[j]? = some true))).map (·.1.name) := by
  intro ts results rest h
  induction h generalizing rest with
  | nil =>
    intro h2
    cases h2
    exact ⟨[], List.Forall₂.nil, rfl, rfl, fun j => rfl⟩
  | cons hab _ ih =>
    rename_i t r ts1 rs1 _
    intro h2
    rw [List.map_cons] at h2
    cases h2 with
    | cons hs hrest =>
      rename_i s rest1
      obtain ⟨all, g1, g2, g3, g4⟩ := ih rest1 hrest
      have hname : s.1.name = r.1.name := feed_pattern codes r.1 s.1 s.2 hs
      refine ⟨(s.1, r.2 :: s.2) :: all, List.Forall₂.cons ?_ g1, ?_, ?_, ?_⟩
      · unfold PatternTracker.feed
        rw [hab]
        simp only [Option.bind_eq_bind, Option.some_bind, hs]
        rfl
      · rw [List.map_cons, List.map_cons, g2]
      · cases hb : r.2 with
        | true =>
          rw [List.filter_cons_of_pos (by simp [hb]), List.filter_cons_of_pos hb,
            List.map_cons, List.map_cons, g3, hname]
        | false =>
          rw [List.filter_cons_of_neg (by simp [hb]), List.filter_cons_of_neg (by simp [hb]), g3]
      · intro j
        have e : (r.2 :: s.2)[j + 1]? = s.2[j]? := List.getElem?_cons_succ
        by_cases hc : s.2[j]? = some true
        · rw [List.filter_cons_of_pos (by simp only [e, hc, decide_True]),
            List.filter_cons_of_pos (by simp only [hc, decide_True]),
            List.map_cons, List.map_cons, g4 j]
        · rw [List.filter_cons_of_neg (by simp only [e, hc, decide_False]; simp),
            List.filter_cons_of_neg (by simp only [hc, decide_False]; simp), g4 j]

/-- A run of the manager over a list of events, against the stand-alone runs of its
trackers over the codes of the same events. -/
theorem feedAll_spec (events : List SensorEvent) :
    ∀ (am : AlertManager) (clock : Nat → Nat → Int), (∀ t ∈ am.trackers, t.Valid) →
      ∃ (amn : AlertManager) (outs : List (List (List Byte)))
        (standalone : List (PatternTracker × List Bool)),
        am.feedAll events clock = some (amn, outs) ∧
        List.Forall₂ (fun t s => t.feed (events.map (·.code)) = some s) am.trackers standalone ∧
        amn.trackers = standalone.map (·.1) ∧
        outs.length = events.length ∧
        ∀ (j : Nat) (ev : SensorEvent), events[j]? = some ev →
          ∃ lines, outs[j]? = some lines ∧
            List.Forall₂
              (fun name line => ∃ time cnt : Int,
                line = alertLine name ev.sensorId ev.code time cnt)
              ((standalone.filter (fun s => decide (s.2[j]? = some true))).map (·.1.name))
              lines := by
  induction events with
  | nil =>
    intro am clock _
    refine ⟨am, [], am.trackers.map (fun t => (t, [])), rfl, ?_, ?_, rfl, ?_⟩
    · have : ∀ l : List PatternTracker,
          List.Forall₂ (fun t s => t.feed [] = some s) l (l.map (fun t => (t, []))) := by
        intro l
        induction l with
        | nil => exact List.Forall₂.nil
        | cons a l ih => exact List.Forall₂.cons rfl ih
      exact this am.trackers
    · rw [List.map_map]
      exact (List.map_id _).symm
    · intro j ev h
      simp at h
  | cons ev rest ih =>
    intro am clock hv
    obtain ⟨results, lines, h1, h2, h3⟩ := processEvent_spec am hv ev (clock 0)
    have hv1 := results_valid ev.code am.trackers results hv h2
    obtain ⟨amn, outs, standalone1, k1, k2, k3, k4, k5⟩ :=
      ih { trackers := results.map (·.1) } (fun j => clock (j + 1)) hv1
    obtain ⟨all, g1, g2, g3, g4⟩ :=
      feed_cons_zip ev.code (rest.map (·.code)) am.trackers results standalone1 h2 k2
    refine ⟨amn, lines :: outs, all, ?_, ?_, ?_, ?_, ?_⟩
    · unfold feedAll
      rw [h1]
      simp only [Option.bind_eq_bind, Option.some_bind, k1]
      rfl
    · rw [List.map_cons]; exact g1
    · rw [k3, g2]
    · rw [List.length_cons, List.length_cons, k4]
    · intro j ev2 hj
      cases j with
      | zero =>
        simp only [List.getElem?_cons_zero, Option.some.injEq] at hj
        subst hj
        refine ⟨lines, List.getElem?_cons_zero, ?_⟩
        rw [g3, List.forall₂_map_left_iff]
        exact h3
      | succ j =>
        rw [List.getElem?_cons_succ] at hj
        obtain ⟨lines2, m1, m2⟩ := k5 j ev2 hj
        refine ⟨lines2, by rw [List.getElem?_cons_succ]; exact m1, ?_⟩
        rw [g4 j]
        exact m2

end AlertManager

/-! ## Claims on `AlertManager` -/

theorem AlertManager.registerAll_eq (specs : List (List Byte × Int × Int)) :
    ∀ am : AlertManager,
      am.registerAll specs = some { trackers := am.trackers ++ specs.map freshTracker } := by
  induction specs with
  | nil => intro am; simp [AlertManager.registerAll]
  | cons spec rest ih =>
    intro am
    rw [AlertManager.registerAll, AlertManager.registerPattern, PatternTracker.new_tracker]
    simp only [Option.bind_eq_bind, Option.some_bind, pure]
    rw [ih]
    simp only [List.append_assoc, List.singleton_append, List.map_cons]
    rfl

theorem freshTracker_valid (spec : List Byte × Int × Int) : (freshTracker spec).Valid :=
  new_built spec.1

theorem managerAB_valid : ∀ t ∈ managerAB.trackers, t.Valid := by
  intro t ht
  simp only [managerAB, List.mem_cons, List.mem_singleton, List.not_mem_nil, or_false] at ht
  rcases ht with h | h
  · rw [h]; exact freshTracker_valid _
  · rw [h]; exact freshTracker_valid _

/-- Claim C14. For every manager whose trackers were built by registration, and every
event, `processEvent` completes; every tracker is given the event's code exactly once, in
registration order (the new tracker list is the list of the results of one `processEvent`
call per tracker); the lines written are one alert per tracker whose call returned `true`,
in registration order, each carrying that tracker's name and the event's sensor id and
code; and neither the tracker states nor the trackers that alert depend on the clock. -/
theorem processEvent_registration_order (am : AlertManager)
    (hv : ∀ t ∈ am.trackers, t.Valid) (ev : SensorEvent) (clock : Nat → Int) :
    ∃ (results : List (PatternTracker × Bool)) (lines : List (List Byte)),
      am.processEvent ev clock = some ({ trackers := results.map (·.1) }, lines) ∧
      List.Forall₂ (fun t r => t.processEvent ev.code = some r) am.trackers results ∧
      List.Forall₂
        (fun r line => ∃ time cnt : Int,
          line = alertLine r.1.name ev.sensorId ev.code time cnt)
        (results.filter (·.2)) lines ∧
      (∀ t ∈ results.map (·.1), t.Valid) ∧
      ∀ clock2 : Nat → Int, ∃ lines2 : List (List Byte),
        am.processEvent ev clock2 = some ({ trackers := results.map (·.1) }, lines2) ∧
        lines2.length = lines.length := by
  obtain ⟨results, lines, h1, h2, h3⟩ := AlertManager.processEvent_spec am hv ev clock
  refine ⟨results, lines, h1, h2, h3,
    AlertManager.results_valid ev.code am.trackers results hv h2, ?_⟩
  intro clock2
  obtain ⟨results2, lines2, g1, g2, g3⟩ := AlertManager.processEvent_spec am hv ev clock2
  have hres : results2 = results := by
    have : ∀ (ts : List PatternTracker) (r1 r2 : List (PatternTracker × Bool)),
        List.Forall₂ (fun t r => t.processEvent ev.code = some r) ts r1 →
        List.Forall₂ (fun t r => t.processEvent ev.code = some r) ts r2 → r1 = r2 := by
      intro ts r1 r2 k1
      induction k1 generalizing r2 with
      | nil => intro k2; cases k2; rfl
      | cons hab _ ih =>
        intro k2
        cases k2 with
        | cons hab2 hrest =>
          rw [hab] at hab2
          rw [Option.some.inj hab2, ih _ hrest]
    exact this am.trackers results2 results g2 h2
  subst hres
  exact ⟨lines2, g1, by rw [← h3.length_eq, ← g3.length_eq]⟩

set_option maxRecDepth 100000 in
/-- Witness for C14: trackers registered in the order `A`, `B` and an event with code
`"AB"` that makes both alert; the alert for `A` is written first, then the one for `B`. -/
theorem processEvent_registration_order_witness :
    (∀ t ∈ managerAB.trackers, t.Valid) ∧
    (∃ (results : List (PatternTracker × Bool)) (lines : List (List Byte)),
      managerAB.processEvent eventAB (fun _ => 12)
        = some ({ trackers := results.map (·.1) }, lines) ∧
      List.Forall₂ (fun t r => t.processEvent eventAB.code = some r) managerAB.trackers
        results ∧
      List.Forall₂
        (fun r line => ∃ time cnt : Int,
          line = alertLine r.1.name eventAB.sensorId eventAB.code time cnt)
        (results.filter (·.2)) lines ∧
      (∀ t ∈ results.map (·.1), t.Valid) ∧
      ∀ clock2 : Nat → Int, ∃ lines2 : List (List Byte),
        managerAB.processEvent eventAB clock2
          = some ({ trackers := results.map (·.1) }, lines2) ∧
        lines2.length = lines.length) ∧
    AlertManager.new.registerAll [([65], 3, 1), ([66], 3, 1)] = some managerAB ∧
    (managerAB.processEvent eventAB (fun _ => 12)).map (·.2)
      = some [lit "[ALERT] pattern=A sensor=7 code=AB time=12 window_count=1\n",
              lit "[ALERT] pattern=B sensor=7 code=AB time=12 window_count=1\n"] :=
  ⟨managerAB_valid,
   processEvent_registration_order managerAB managerAB_valid eventAB (fun _ => 12),
   AlertManager.registerAll_eq _ _, by decide⟩

set_option maxRecDepth 100000 in
/-- Evaluation for C15 at a failing input.  With `"A"` registered twice (window size 1 and
threshold 100, then window size 3 and threshold 2) and two events with code `"A"`, the
second event's alert is signalled by the second tracker, whose `occurrences` is 2, but the
line written carries `window_count=1`, the count of the first tracker of that name. -/
theorem duplicate_name_reports_first_tracker :
    ((AlertManager.new.registerAll duplicateSpecs).bind
        (fun am => am.feedAll [eventA, eventA] (fun _ _ => 0))).map
      (fun x => (x.1.trackers.map (·.occurrences), x.1.trackers.map (·.alertThreshold), x.2))
      = some ([1, 2], [100, 2],
              [[], [lit "[ALERT] pattern=A sensor=7 code=A time=0 window_count=1\n"]]) := by
  rw [AlertManager.registerAll_eq]
  decide

/-- Claim C16. `registerPattern` never deduplicates: `n` calls give `n` trackers, each the
one its own constructor call builds, in call order.  After any sequence of events the state
of each tracker is the state of a stand-alone tracker with the same pattern, window size
and threshold fed the codes of the same events, and for each event the alerts written are
those of the trackers whose stand-alone run returned `true` on that event, in order. -/
theorem registerPattern_independent_trackers (specs : List (List Byte × Int × Int))
    (events : List SensorEvent) (clock : Nat → Nat → Int) :
    ∃ (am0 amn : AlertManager) (outs : List (List (List Byte)))
      (standalone : List (PatternTracker × List Bool)),
      AlertManager.new.registerAll specs = some am0 ∧
      am0.trackers.length = specs.length ∧
      List.Forall₂ (fun spec t => PatternTracker.new spec.1 spec.2.1 spec.2.2 = some t)
        specs am0.trackers ∧
      am0.feedAll events clock = some (amn, outs) ∧
      List.Forall₂ (fun t s => t.feed (events.map (·.code)) = some s) am0.trackers
        standalone ∧
      amn.trackers = standalone.map (·.1) ∧
      outs.length = events.length ∧
      ∀ (j : Nat) (ev : SensorEvent), events[j]? = some ev →
        ∃ lines, outs[j]? = some lines ∧
          List.Forall₂
            (fun name line => ∃ time cnt : Int,
              line = alertLine name ev.sensorId ev.code time cnt)
            ((standalone.filter (fun s => decide (s.2[j]? = some true))).map (·.1.name))
            lines := by
  obtain ⟨ts, h1, h2, h3⟩ := AlertManager.registerAll_spec specs AlertManager.new
  have e : AlertManager.new.trackers ++ ts = ts := List.nil_append ts
  rw [e] at h1
  obtain ⟨amn, outs, standalone, g1, g2, g3, g4, g5⟩ :=
    AlertManager.feedAll_spec events { trackers := ts } clock h3
  exact ⟨{ trackers := ts }, amn, outs, standalone, h1, h2.length_eq.symm, h2, g1, g2, g3,
    g4, g5⟩

set_option maxRecDepth 100000 in
/-- Counterexample to C17: the line written for pattern `"A"`, sensor 7, code `"AA"`, time
12 and window count 6 starts with the tag `[ALERT] `, so it is not the line of the
specification. -/
theorem emitAlert_line_has_tag :
    AlertManager.emitAlert { trackers := [fullTracker] } [65]
        { ts := 0, code := [65, 65], sensorId := 7 } 12
      = lit "[ALERT] pattern=A sensor=7 code=AA time=12 window_count=6\n" ∧
    AlertManager.emitAlert { trackers := [fullTracker] } [65]
        { ts := 0, code := [65, 65], sensorId := 7 } 12
      ≠ specLine [65] 7 [65, 65] 12 6 := by
  constructor
  · decide
  · decide

/-- Claim C17, amended. For every alert, the line written by `emitAlert` is the tag
`[ALERT] ` followed by `pattern=<name> sensor=<id> code=<code> time=<t> window_count=<n>`
and the newline: the five labelled fields in this order, separated by single spaces, where
`<n>` is what `getWindowCount(<name>)` returns and numbers are printed in decimal. -/
theorem emitAlert_line_format (am : AlertManager) (pattern : List Byte) (ev : SensorEvent)
    (now : Int) :
    am.emitAlert pattern ev now
      = lit "[ALERT] " ++ specLine pattern ev.sensorId ev.code now (am.getWindowCount pattern) ∧
    specLine pattern ev.sensorId ev.code now (am.getWindowCount pattern)
      = lit "pattern=" ++ pattern ++ lit " sensor=" ++ decimal ev.sensorId
          ++ lit " code=" ++ ev.code ++ lit " time=" ++ decimal now
          ++ lit " window_count=" ++ decimal (am.getWindowCount pattern) ++ lit "\n" := by
  constructor
  · unfold AlertManager.emitAlert alertLine specLine
    have e : lit "[ALERT] pattern=" = lit "[ALERT] " ++ lit "pattern=" := by decide
    rw [e]
    simp only [List.append_assoc]
  · rfl


/-! ## Claims on the shifts and the good-suffix tables -/

/-- One round of the alignment loop, with the mismatch branch written as
`mismatchShift`. -/
theorem searchLoop_succ (bm : BoyerMoore) (text : List Byte) (n : Int) (fuel : Nat) (i : Int)
    (res : List Int) :
    BoyerMoore.searchLoop bm text n (fuel + 1) i res =
      if i ≤ n - bm.m then
        (BoyerMoore.matchLoop bm text i (bm.m.toNat + 1) (bm.m - 1)).bind fun j =>
          if j < 0 then BoyerMoore.searchLoop bm text n fuel (i + bm.m) (res ++ [i])
          else (BoyerMoore.mismatchShift bm text i j).bind fun s =>
            BoyerMoore.searchLoop bm text n fuel (i + s) res
      else some res := by
  rw [BoyerMoore.searchLoop]
  by_cases hc : i ≤ n - bm.m
  · rw [if_pos hc, if_pos hc]
    cases hm : BoyerMoore.matchLoop bm text i (bm.m.toNat + 1) (bm.m - 1) with
    | none => rfl
    | some j =>
      simp only [Option.bind_eq_bind, Option.some_bind]
      by_cases hj : j < 0
      · rw [if_pos hj, if_pos hj]
      · rw [if_neg hj, if_neg hj]
        unfold BoyerMoore.mismatchShift
        cases h1 : readAt text (i + j) with
        | none => rfl
        | some c =>
          simp only [Option.bind_eq_bind, Option.some_bind]
          cases h2 : readAt bm.badChar (c.val : Int) with
          | none => rfl
          | some bc =>
            simp only [Option.some_bind]
            by_cases hjl : j < bm.m - 1
            · rw [if_pos hjl, if_pos hjl]
              cases h3 : BoyerMoore.moveByGoodSuffix bm j with
              | none => rfl
              | some g => rfl
            · rw [if_neg hjl, if_neg hjl]
              rfl
  · rw [if_neg hc, if_neg hc]
    rfl

/-- At a mismatch at pattern position `jn`, with the bytes after `jn` matching, the shift is
at least 1 and passes over no occurrence. -/
theorem mismatchShift_spec (P T : List Byte) (i jn : Nat) (hP : 0 < P.length)
    (hin : i + P.length ≤ T.length) (hlt : jn < P.length)
    (hsuf : ∀ t, jn < t → t < P.length → T[i + t]? = P[t]?) :
    ∃ s : Nat, BoyerMoore.mismatchShift (built P) T (i : Int) (jn : Int) = some (s : Int) ∧
      1 ≤ s ∧ ∀ d, 0 < d → d < s → ¬ Occ P T (i + d) := by
  have hm : (built P).m = (P.length : Int) := rfl
  have r1 : i + jn < T.length := by omega
  have g1 : T[i + jn]? = some T[i + jn] := List.getElem?_eq_getElem r1
  have e1 : (i : Int) + (jn : Int) = ((i + jn : Nat) : Int) := by omega
  have hbc : (built P).badChar[(T[i + jn]).val]?
      = some (lastIdx P (T[i + jn]).val P.length) :=
    bcTable_getElem? P P.length _ (T[i + jn]).isLt
  have hgs : ∃ g : Int,
      (if (jn : Int) < (P.length : Int) - 1 then BoyerMoore.moveByGoodSuffix (built P) jn
        else pure 0) = some g ∧
      ∀ d : Nat, 0 < d → (d : Int) < g → ¬ Occ P T (i + d) := by
    by_cases hjl : (jn : Int) < (P.length : Int) - 1
    · obtain ⟨g, h1, _, _, h4⟩ := moveByGoodSuffix_spec P jn (by omega)
      refine ⟨(g : Int), ?_, ?_⟩
      · rw [if_pos hjl, h1]
      · intro d hd0 hdg hocc
        exact h4 d hd0 (by omega) (compat_of_occ P T i jn d hP hsuf hocc)
    · refine ⟨0, ?_, ?_⟩
      · rw [if_neg hjl]; rfl
      · intro d _ hd; omega
  obtain ⟨g, hg1, hg2⟩ := hgs
  have hone : (1 : Int) ≤ max 1 (max ((jn : Int) - lastIdx P (T[i + jn]).val P.length) g) :=
    le_max_left _ _
  refine ⟨(max 1 (max ((jn : Int) - lastIdx P (T[i + jn]).val P.length) g)).toNat, ?_,
    by omega, ?_⟩
  · unfold BoyerMoore.mismatchShift
    rw [e1, readAt_natCast, g1]
    simp only [Option.bind_eq_bind, Option.some_bind]
    rw [readAt_natCast, hbc, hm]
    simp only [Option.some_bind]
    rw [ite_bind_out, hg1]
    simp only [Option.some_bind, pure, Option.some.injEq]
    omega
  · intro d hd0 hd
    have h1 : (d : Int) < max 1 (max ((jn : Int) - lastIdx P (T[i + jn]).val P.length) g) := by
      omega
    have hlt2 : (d : Int) < max ((jn : Int) - lastIdx P (T[i + jn]).val P.length) g := by
      rcases lt_max_iff.1 h1 with h | h
      · omega
      · exact h
    rcases lt_max_iff.1 hlt2 with h | h
    · exact badChar_safe P T i jn d _ hP hlt g1 h
    · exact hg2 d hd0 h

/-- Claim C19. For every non-empty pattern `P`, text `T` and alignment `i ≤ len(T) - m`, the
comparison loop of `searchAll` completes; if it stops at a mismatch position `j ≥ 0`, there
is no occurrence at `i`, the shift `s = max(1, badCharShift, goodSuffixShift)` is computed
without failure, is at least 1, is what the alignment loop adds to `i`, and skips no
occurrence: `T[i'..i'+m) != P` for every `i'` with `i < i' < i + s`. -/
theorem shift_skips_no_occurrence (P T : List Byte) (i : Nat) (hP : P ≠ [])
    (hi : i + P.length ≤ T.length) :
    ∃ (bm : BoyerMoore) (j : Int), BoyerMoore.new P = some bm ∧
      bm.matchLoop T (i : Int) (bm.m.toNat + 1) (bm.m - 1) = some j ∧
      (j < 0 → Occ P T i) ∧
      (0 ≤ j → ¬ Occ P T i ∧
        ∃ s : Int, bm.mismatchShift T (i : Int) j = some s ∧ 1 ≤ s ∧
          (∀ (fuel : Nat) (res : List Int),
            bm.searchLoop T (T.length : Int) (fuel + 1) (i : Int) res
              = bm.searchLoop T (T.length : Int) fuel ((i : Int) + s) res) ∧
          ∀ i2 : Nat, i < i2 → (i2 : Int) < (i : Int) + s → ¬ Occ P T i2) := by
  have hpos : 0 < P.length := List.length_pos.2 hP
  have hpat : (built P).pat = P := rfl
  have hm : (built P).m = (P.length : Int) := rfl
  obtain ⟨j, hj, hcase⟩ := matchLoop_spec (built P) T i (by rw [hpat]; exact hi)
    (P.length + 1) P.length (by rw [hpat]) (by omega) (fun t h1 h2 => by rw [hpat] at h2; omega)
  have efuel : (built P).m.toNat + 1 = P.length + 1 := by rw [hm]; omega
  rw [hpat] at hcase
  refine ⟨built P, j, new_built P, by rw [efuel, hm]; exact hj, ?_, ?_⟩
  · intro hneg
    rcases hcase with ⟨_, hall⟩ | ⟨jn, hjn, _, _, _⟩
    · exact (occ_iff P T i hpos).2 ⟨hi, hall⟩
    · omega
  · intro hnn
    rcases hcase with ⟨hneg, _⟩ | ⟨jn, hjn, hlt, hne, hsuf⟩
    · omega
    · have hnocc : ¬ Occ P T i := by
        intro hocc
        exact hne (((occ_iff P T i hpos).1 hocc).2 jn hlt)
      obtain ⟨s, hs1, hs2, hs3⟩ := mismatchShift_spec P T i jn hpos hi hlt hsuf
      refine ⟨hnocc, (s : Int), by rw [hjn]; exact hs1, by omega, ?_, ?_⟩
      · intro fuel res
        rw [searchLoop_succ, if_pos (by rw [hm]; omega), efuel, hm, hj]
        simp only [Option.some_bind]
        rw [if_neg (by omega), hjn, hs1]
        rfl
      · intro i2 h1 h2
        have := hs3 (i2 - i) (by omega) (by omega)
        have e : i + (i2 - i) = i2 := by omega
        rw [e] at this
        exact this

set_option maxRecDepth 100000 in
/-- Witness for C19: `P = "ABCAB"`, `T = "XXCABCAB"`, alignment 0; the comparison stops at
`j = 1`, the bad-character shift is 2, the good-suffix shift is 3, and the shift 3 leads to
the occurrence at 3. -/
theorem shift_skips_no_occurrence_witness :
    ([65, 66, 67, 65, 66] : List Byte) ≠ [] ∧
    0 + ([65, 66, 67, 65, 66] : List Byte).length
      ≤ ([88, 88, 67, 65, 66, 67, 65, 66] : List Byte).length ∧
    (∃ (bm : BoyerMoore) (j : Int), BoyerMoore.new [65, 66, 67, 65, 66] = some bm ∧
      bm.matchLoop [88, 88, 67, 65, 66, 67, 65, 66] ((0 : Nat) : Int) (bm.m.toNat + 1) (bm.m - 1)
        = some j ∧
      (j < 0 → Occ [65, 66, 67, 65, 66] [88, 88, 67, 65, 66, 67, 65, 66] 0) ∧
      (0 ≤ j → ¬ Occ [65, 66, 67, 65, 66] [88, 88, 67, 65, 66, 67, 65, 66] 0 ∧
        ∃ s : Int, bm.mismatchShift [88, 88, 67, 65, 66, 67, 65, 66] ((0 : Nat) : Int) j
            = some s ∧ 1 ≤ s ∧
          (∀ (fuel : Nat) (res : List Int),
            bm.searchLoop [88, 88, 67, 65, 66, 67, 65, 66]
                (([88, 88, 67, 65, 66, 67, 65, 66] : List Byte).length : Int) (fuel + 1)
                ((0 : Nat) : Int) res
              = bm.searchLoop [88, 88, 67, 65, 66, 67, 65, 66]
                (([88, 88, 67, 65, 66, 67, 65, 66] : List Byte).length : Int) fuel
                (((0 : Nat) : Int) + s) res) ∧
          ∀ i2 : Nat, 0 < i2 → (i2 : Int) < ((0 : Nat) : Int) + s →
            ¬ Occ [65, 66, 67, 65, 66] [88, 88, 67, 65, 66, 67, 65, 66] i2)) ∧
    (built [65, 66, 67, 65, 66]).matchLoop [88, 88, 67, 65, 66, 67, 65, 66] 0 6 4 = some 1 ∧
    (built [65, 66, 67, 65, 66]).moveByGoodSuffix 1 = some 3 ∧
    (built [65, 66, 67, 65, 66]).mismatchShift [88, 88, 67, 65, 66, 67, 65, 66] 0 1 = some 3 ∧
    Occ [65, 66, 67, 65, 66] [88, 88, 67, 65, 66, 67, 65, 66] 3 :=
  ⟨by decide, by decide, shift_skips_no_occurrence _ _ 0 (by decide) (by decide),
   by decide, by decide, by decide, by decide⟩

/-- The `k` bytes of `P` starting at `s` equal the last `k` bytes of `P`, in terms of
`SufAt` at the end position `s + k - 1`. -/
theorem sufAt_iff_take_drop (P : List Byte) (s k : Nat) (hk : 1 ≤ k) (hs : s + k ≤ P.length) :
    SufAt P (s + k - 1) k ↔ (P.drop s).take k = P.drop (P.length - k) := by
  constructor
  · rintro ⟨_, h⟩
    apply List.ext_getElem?
    intro t
    rw [List.getElem?_take, List.getElem?_drop, List.getElem?_drop]
    by_cases ht : t < k
    · rw [if_pos ht]
      have := h (k - 1 - t) (by omega)
      have e1 : s + k - 1 - (k - 1 - t) = s + t := by omega
      have e2 : P.length - 1 - (k - 1 - t) = P.length - k + t := by omega
      rw [e1, e2] at this
      exact this
    · rw [if_neg ht, List.getElem?_eq_none (by omega)]
  · intro h
    refine ⟨by omega, fun t ht => ?_⟩
    have := congrArg (fun l => l[k - 1 - t]?) h
    simp only [List.getElem?_take, List.getElem?_drop] at this
    rw [if_pos (by omega)] at this
    have e1 : s + (k - 1 - t) = s + k - 1 - t := by omega
    have e2 : P.length - k + (k - 1 - t) = P.length - 1 - t := by omega
    rw [e1, e2] at this
    exact this

/-- Claim C20. For every pattern `P` of length `m` and every `k` with `1 ≤ k ≤ m - 1`, the
constructor succeeds and afterwards `suffix[k]` is the largest start `s` in `[0, m-1-k]`
with `P[s..s+k) == P[m-k..m)`, or `-1` when there is no such `s`, and `prefix[k]` is `true`
exactly when `P[0..k) == P[m-k..m)`. -/
theorem goodSuffix_tables_meaning (P : List Byte) (k : Nat) (hk1 : 1 ≤ k)
    (hk2 : k + 1 ≤ P.length) :
    ∃ (bm : BoyerMoore) (v : Int) (p : Bool), BoyerMoore.new P = some bm ∧
      bm.suffix[k]? = some v ∧ bm.isPrefix[k]? = some p ∧
      ((v = -1 ∧ ∀ s : Nat, s + k + 1 ≤ P.length →
          (P.drop s).take k ≠ P.drop (P.length - k)) ∨
        ∃ s0 : Nat, v = (s0 : Int) ∧ s0 + k + 1 ≤ P.length ∧
          (P.drop s0).take k = P.drop (P.length - k) ∧
          ∀ s : Nat, s + k + 1 ≤ P.length → (P.drop s).take k = P.drop (P.length - k) →
            s ≤ s0) ∧
      (p = true ↔ P.take k = P.drop (P.length - k)) := by
  refine ⟨built P, sufVal P k (P.length - 1), pfxVal P k (P.length - 1), new_built P,
    sufTable_getElem? P _ k (by omega), pfxTable_getElem? P _ k (by omega), ?_, ?_⟩
  · have hup : ∀ s : Nat, s + k + 1 ≤ P.length → (P.drop s).take k = P.drop (P.length - k) →
        (s : Int) ≤ sufVal P k (P.length - 1) := by
      intro s hs heq
      have hsuf := (sufAt_iff_take_drop P s k hk1 (by omega)).2 heq
      have := sufVal_upper P k (P.length - 1) (s + k - 1) hk1 (by omega) hsuf
      omega
    rcases sufVal_holds P k (P.length - 1) with h | ⟨i0, hi0, _, hsuf, hv⟩
    · left
      refine ⟨h, fun s hs heq => ?_⟩
      have := hup s hs heq
      omega
    · right
      have hk' := hsuf.1
      refine ⟨i0 + 1 - k, by omega, by omega, ?_, ?_⟩
      · have e : i0 + 1 - k + k - 1 = i0 := by omega
        have := (sufAt_iff_take_drop P (i0 + 1 - k) k hk1 (by omega)).1 (by rw [e]; exact hsuf)
        exact this
      · intro s hs heq
        have := hup s hs heq
        omega
  · simp only [pfxVal, decide_eq_true_iff]
    have h0 := sufAt_iff_take_drop P 0 k hk1 (by omega)
    rw [List.drop_zero, Nat.zero_add] at h0
    constructor
    · rintro ⟨_, _, h⟩
      exact h0.1 h
    · intro h
      exact ⟨hk1, by omega, h0.2 h⟩

set_option maxRecDepth 100000 in
/-- Witness for C20: `P = "ABCAB"` and `k = 2`; `suffix[2] = 0` and `prefix[2] = true`, and
the constructor run gives the tables `[-1, 1, 0, -1, -1]` and
`[false, false, true, false, false]`. -/
theorem goodSuffix_tables_meaning_witness :
    1 ≤ 2 ∧ 2 + 1 ≤ ([65, 66, 67, 65, 66] : List Byte).length ∧
    (∃ (bm : BoyerMoore) (v : Int) (p : Bool),
      BoyerMoore.new [65, 66, 67, 65, 66] = some bm ∧
      bm.suffix[2]? = some v ∧ bm.isPrefix[2]? = some p ∧
      ((v = -1 ∧ ∀ s : Nat, s + 2 + 1 ≤ ([65, 66, 67, 65, 66] : List Byte).length →
          (([65, 66, 67, 65, 66] : List Byte).drop s).take 2
            ≠ ([65, 66, 67, 65, 66] : List Byte).drop
                (([65, 66, 67, 65, 66] : List Byte).length - 2)) ∨
        ∃ s0 : Nat, v = (s0 : Int) ∧ s0 + 2 + 1 ≤ ([65, 66, 67, 65, 66] : List Byte).length ∧
          (([65, 66, 67, 65, 66] : List Byte).drop s0).take 2
            = ([65, 66, 67, 65, 66] : List Byte).drop
                (([65, 66, 67, 65, 66] : List Byte).length - 2) ∧
          ∀ s : Nat, s + 2 + 1 ≤ ([65, 66, 67, 65, 66] : List Byte).length →
            (([65, 66, 67, 65, 66] : List Byte).drop s).take 2
              = ([65, 66, 67, 65, 66] : List Byte).drop
                  (([65, 66, 67, 65, 66] : List Byte).length - 2) →
            s ≤ s0) ∧
      (p = true ↔ ([65, 66, 67, 65, 66] : List Byte).take 2
        = ([65, 66, 67, 65, 66] : List Byte).drop
            (([65, 66, 67, 65, 66] : List Byte).length - 2))) ∧
    (BoyerMoore.new [65, 66, 67, 65, 66]).map (fun bm => (bm.suffix, bm.isPrefix))
      = some ([-1, 1, 0, -1, -1], [false, false, true, false, false]) :=
  ⟨by decide, by decide, goodSuffix_tables_meaning _ 2 (by decide) (by decide), by decide⟩


/-! ## Claims on the bad-character table, termination and index ranges -/

theorem readAt_out_of_range {α : Type} (v : List α) (k : Int)
    (h : k < 0 ∨ (v.length : Int) ≤ k) : readAt v k = none := by
  unfold readAt
  by_cases h0 : 0 ≤ k
  · rw [if_pos h0]
    exact List.getElem?_eq_none (by omega)
  · rw [if_neg h0]

theorem writeAt_out_of_range {α : Type} (v : List α) (k : Int) (x : α)
    (h : k < 0 ∨ (v.length : Int) ≤ k) : writeAt v k x = none := by
  unfold writeAt
  rw [if_neg (by omega)]

/-- Claim C21. For every pattern `P` and every byte value `c`, after construction the table
`badChar` has 256 entries and `badChar[c]` is the largest index `i` with `P[i] == c`, or
`-1` if `c` does not occur in `P`. -/
theorem badChar_table_meaning (P : List Byte) (c : Byte) :
    ∃ (bm : BoyerMoore) (v : Int), BoyerMoore.new P = some bm ∧ bm.badChar.length = 256 ∧
      readAt bm.badChar (c.val : Int) = some v ∧
      ((v = -1 ∧ ∀ i : Nat, P[i]? ≠ some c) ∨
        ∃ i : Nat, v = (i : Int) ∧ P[i]? = some c ∧ ∀ i2 : Nat, P[i2]? = some c → i2 ≤ i) := by
  have hval : ∀ i : Nat, P[i]? = some c → i < P.length ∧ P[i]?.map Fin.val = some c.val := by
    intro i hi
    refine ⟨?_, by rw [hi]; rfl⟩
    by_contra hlt
    rw [List.getElem?_eq_none (by omega)] at hi
    cases hi
  refine ⟨built P, lastIdx P c.val P.length, new_built P, bcTable_length P P.length, ?_, ?_⟩
  · rw [readAt_natCast]
    exact bcTable_getElem? P P.length c.val c.isLt
  · rcases lastIdx_holds P c.val P.length with h | ⟨idx, h1, h2, h3⟩
    · left
      refine ⟨h, ?_⟩
      intro i hi
      have := lastIdx_upper P c.val P.length i (hval i hi).1 (hval i hi).2
      omega
    · right
      refine ⟨idx, h1, ?_, ?_⟩
      · cases hp : P[idx]? with
        | none => rw [hp] at h3; cases h3
        | some b =>
          rw [hp] at h3
          simp only [Option.map_some', Option.some.injEq] at h3
          rw [Fin.ext h3]
      · intro i2 hi2
        have := lastIdx_upper P c.val P.length i2 (hval i2 hi2).1 (hval i2 hi2).2
        omega

set_option maxRecDepth 100000 in
/-- Evaluation for C21: for the pattern `"ABCAB"` the entries for `A`, `B`, `C` and `D` are
3, 4, 2 and -1. -/
theorem badChar_table_meaning_witness :
    (∃ (bm : BoyerMoore) (v : Int), BoyerMoore.new [65, 66, 67, 65, 66] = some bm ∧
      bm.badChar.length = 256 ∧
      readAt bm.badChar (((67 : Byte).val : Nat) : Int) = some v ∧
      ((v = -1 ∧ ∀ i : Nat, ([65, 66, 67, 65, 66] : List Byte)[i]? ≠ some 67) ∨
        ∃ i : Nat, v = (i : Int) ∧ ([65, 66, 67, 65, 66] : List Byte)[i]? = some 67 ∧
          ∀ i2 : Nat, ([65, 66, 67, 65, 66] : List Byte)[i2]? = some 67 → i2 ≤ i)) ∧
    [readAt (built [65, 66, 67, 65, 66]).badChar 65, readAt (built [65, 66, 67, 65, 66]).badChar 66,
      readAt (built [65, 66, 67, 65, 66]).badChar 67, readAt (built [65, 66, 67, 65, 66]).badChar 68]
      = [some 3, some 4, some 2, some (-1)] :=
  ⟨badChar_table_meaning [65, 66, 67, 65, 66] 67, by decide⟩

/-- Claim C22. For every pattern `P` and text `T`, construction and `searchAll` complete.
The alignment loop exits as soon as `i > len(T) - m`; at every alignment `i ≤ len(T) - m`
the comparison loop completes and the loop continues at `i + s` with `s ≥ 1`, where `s = m`
on a match and `s = max(1, bcShift, gsShift)` on a mismatch; hence from alignment `i` the
loop completes within `len(T) + 1 - i` rounds. -/
theorem searchAll_terminates (P T : List Byte) :
    ∃ (bm : BoyerMoore) (res : List Int), BoyerMoore.new P = some bm ∧
      bm.searchAll T = some res ∧
      (∀ (fuel : Nat) (i : Int) (r : List Int), (T.length : Int) - bm.m < i →
        bm.searchLoop T (T.length : Int) (fuel + 1) i r = some r) ∧
      (P ≠ [] → ∀ i : Nat, i + P.length ≤ T.length →
        ∃ (j s : Int), bm.matchLoop T (i : Int) (bm.m.toNat + 1) (bm.m - 1) = some j ∧
          1 ≤ s ∧ (j < 0 → s = bm.m) ∧ (0 ≤ j → bm.mismatchShift T (i : Int) j = some s) ∧
          ∀ (fuel : Nat) (r : List Int),
            bm.searchLoop T (T.length : Int) (fuel + 1) (i : Int) r
              = bm.searchLoop T (T.length : Int) fuel ((i : Int) + s)
                  (if j < 0 then r ++ [(i : Int)] else r)) ∧
      (P ≠ [] → ∀ (fuel i : Nat) (r : List Int), T.length + 1 - i ≤ fuel → 1 ≤ fuel →
        ∃ out, bm.searchLoop T (T.length : Int) fuel (i : Int) r = some out) := by
  have hpat : (built P).pat = P := rfl
  have hm : (built P).m = (P.length : Int) := rfl
  refine ⟨built P, naiveSearch P T, new_built P, searchAll_built_all P T, ?_, ?_, ?_⟩
  · intro fuel i r hi
    rw [searchLoop_succ, if_neg (by omega)]
  · intro hP i hi
    have hpos : 0 < P.length := List.length_pos.2 hP
    obtain ⟨j, hj, hcase⟩ := matchLoop_spec (built P) T i (by rw [hpat]; exact hi)
      (P.length + 1) P.length (by rw [hpat]) (by omega) (fun t h1 h2 => by rw [hpat] at h2; omega)
    have efuel : (built P).m.toNat + 1 = P.length + 1 := by rw [hm]; omega
    rw [hpat] at hcase
    rcases hcase with ⟨hneg, _⟩ | ⟨jn, hjn, hlt, _, hsuf⟩
    · refine ⟨j, (P.length : Int), by rw [efuel, hm]; exact hj, by omega, fun _ => hm.symm,
        fun h => by omega, ?_⟩
      intro fuel r
      rw [searchLoop_succ, if_pos (by rw [hm]; omega), efuel, hm, hj]
      simp only [Option.some_bind]
      rw [if_pos (by omega), if_pos (by omega)]
    · obtain ⟨s, hs1, hs2, _⟩ := mismatchShift_spec P T i jn hpos hi hlt hsuf
      refine ⟨j, (s : Int), by rw [efuel, hm]; exact hj, by omega, fun h => by omega,
        fun _ => by rw [hjn]; exact hs1, ?_⟩
      intro fuel r
      rw [searchLoop_succ, if_pos (by rw [hm]; omega), efuel, hm, hj]
      simp only [Option.some_bind]
      rw [if_neg (by omega), if_neg (by omega), hjn, hs1]
      rfl
  · intro hP fuel i r hf h1
    exact ⟨_, searchLoop_spec P T (List.length_pos.2 hP) fuel i r h1 (by omega)⟩

set_option maxRecDepth 100000 in
/-- Evaluation for C22: with the pattern `"BA"` and the text `"AA"` the comparison stops at
`j = 0` on the byte `A`, for which `badChar` is 1, so the bad-character shift is `-1`; the
shift applied is 2. -/
theorem searchAll_terminates_witness :
    (∃ (bm : BoyerMoore) (res : List Int), BoyerMoore.new [66, 65] = some bm ∧
      bm.searchAll [65, 65] = some res ∧
      (∀ (fuel : Nat) (i : Int) (r : List Int),
        (([65, 65] : List Byte).length : Int) - bm.m < i →
        bm.searchLoop [65, 65] (([65, 65] : List Byte).length : Int) (fuel + 1) i r = some r) ∧
      (([66, 65] : List Byte) ≠ [] →
        ∀ i : Nat, i + ([66, 65] : List Byte).length ≤ ([65, 65] : List Byte).length →
        ∃ (j s : Int), bm.matchLoop [65, 65] (i : Int) (bm.m.toNat + 1) (bm.m - 1) = some j ∧
          1 ≤ s ∧ (j < 0 → s = bm.m) ∧
          (0 ≤ j → bm.mismatchShift [65, 65] (i : Int) j = some s) ∧
          ∀ (fuel : Nat) (r : List Int),
            bm.searchLoop [65, 65] (([65, 65] : List Byte).length : Int) (fuel + 1) (i : Int) r
              = bm.searchLoop [65, 65] (([65, 65] : List Byte).length : Int) fuel
                  ((i : Int) + s) (if j < 0 then r ++ [(i : Int)] else r)) ∧
      (([66, 65] : List Byte) ≠ [] → ∀ (fuel i : Nat) (r : List Int),
        ([65, 65] : List Byte).length + 1 - i ≤ fuel → 1 ≤ fuel →
        ∃ out, bm.searchLoop [65, 65] (([65, 65] : List Byte).length : Int) fuel (i : Int) r
          = some out)) ∧
    (built [66, 65]).matchLoop [65, 65] 0 3 1 = some 0 ∧
    readAt (built [66, 65]).badChar 65 = some 1 ∧
    (built [66, 65]).moveByGoodSuffix 0 = some 2 ∧
    (built [66, 65]).mismatchShift [65, 65] 0 0 = some 2 ∧
    (built [66, 65]).searchAll [65, 65] = some [] :=
  ⟨searchAll_terminates [66, 65] [65, 65], by decide, by decide, by decide, by decide,
    by decide⟩

/-- Every recorded call of `moveByGoodSuffix` has an argument `j` with `0 ≤ j < m - 1` and
returned a value between 1 and `m`; with fuel for the remaining alignments the loop
completes. -/
theorem searchLoopCalls_spec (P T : List Byte) (hP : 0 < P.length) :
    ∀ (fuel i : Nat) (calls : List (Int × Int)), 1 ≤ fuel → T.length + 1 ≤ fuel + i →
      (∀ c ∈ calls, 0 ≤ c.1 ∧ c.1 < (P.length : Int) - 1 ∧
        BoyerMoore.moveByGoodSuffix (built P) c.1 = some c.2 ∧ 1 ≤ c.2 ∧
        c.2 ≤ (P.length : Int)) →
      ∃ out, BoyerMoore.searchLoopCalls (built P) T (T.length : Int) fuel (i : Int) calls
          = some out ∧
        ∀ c ∈ out, 0 ≤ c.1 ∧ c.1 < (P.length : Int) - 1 ∧
          BoyerMoore.moveByGoodSuffix (built P) c.1 = some c.2 ∧ 1 ≤ c.2 ∧
          c.2 ≤ (P.length : Int) := by
  intro fuel
  induction fuel with
  | zero => intro i calls h; omega
  | succ fuel ih =>
    intro i calls _ hf hcalls
    have hpat : (built P).pat = P := rfl
    have hm : (built P).m = (P.length : Int) := rfl
    unfold BoyerMoore.searchLoopCalls
    by_cases hc : (i : Int) ≤ (T.length : Int) - (built P).m
    · have hin : i + P.length ≤ T.length := by rw [hm] at hc; omega
      have hfuel : 1 ≤ fuel := by omega
      obtain ⟨j, hj, hcase⟩ := matchLoop_spec (built P) T i (by rw [hpat]; exact hin)
        (P.length + 1) P.length (by rw [hpat]) (by omega) (fun t h1 h2 => by rw [hpat] at h2; omega)
      have efuel : (built P).m.toNat + 1 = P.length + 1 := by rw [hm]; omega
      simp only [hc, if_true]
      rw [efuel, hm, hj]
      simp only [Option.bind_eq_bind, Option.some_bind]
      rw [hpat] at hcase
      rcases hcase with ⟨hneg, _⟩ | ⟨jn, hjn, hlt, _, _⟩
      · have hj0 : j < 0 := by omega
        have e : (i : Int) + (P.length : Int) = ((i + P.length : Nat) : Int) := by omega
        simp only [hj0, if_true]
        rw [e]
        exact ih (i + P.length) calls hfuel (by omega) hcalls
      · have hj0 : ¬ (j < 0) := by omega
        have r1 : i + jn < T.length := by omega
        have g1 : T[i + jn]? = some T[i + jn] := List.getElem?_eq_getElem r1
        have e1 : (i : Int) + j = ((i + jn : Nat) : Int) := by omega
        have hbc : (built P).badChar[(T[i + jn]).val]?
            = some (lastIdx P (T[i + jn]).val P.length) :=
          bcTable_getElem? P P.length _ (T[i + jn]).isLt
        simp only [hj0, if_false]
        rw [e1, readAt_natCast, g1]
        simp only [Option.some_bind]
        rw [readAt_natCast, hbc]
        simp only [Option.some_bind]
        by_cases hjl : j < (P.length : Int) - 1
        · obtain ⟨g, h1, h2, h3, _⟩ := moveByGoodSuffix_spec P jn (by omega)
          rw [← hjn] at h1
          simp only [hjl, if_true]
          rw [h1]
          simp only [Option.some_bind]
          obtain ⟨s, hs⟩ : ∃ s : Nat,
              max 1 (max (j - lastIdx P (T[i + jn]).val P.length) (g : Int)) = (s : Int) :=
            ⟨(max 1 (max (j - lastIdx P (T[i + jn]).val P.length) (g : Int))).toNat, by
              have : (1 : Int) ≤ max 1 (max (j - lastIdx P (T[i + jn]).val P.length) (g : Int)) :=
                le_max_left _ _
              omega⟩
          have hs1 : 1 ≤ s := by
            have : (1 : Int) ≤ max 1 (max (j - lastIdx P (T[i + jn]).val P.length) (g : Int)) :=
              le_max_left _ _
            omega
          have e2 : (i : Int) + (s : Int) = ((i + s : Nat) : Int) := by omega
          rw [hs, e2]
          apply ih (i + s) _ hfuel (by omega)
          intro c hc2
          rcases List.mem_append.1 hc2 with hc2 | hc2
          · exact hcalls c hc2
          · rw [List.mem_singleton.1 hc2]
            exact ⟨by omega, hjl, h1, by omega, by omega⟩
        · simp only [hjl, if_false]
          simp only [pure, Option.some_bind]
          obtain ⟨s, hs⟩ : ∃ s : Nat,
              max 1 (max (j - lastIdx P (T[i + jn]).val P.length) 0) = (s : Int) :=
            ⟨(max 1 (max (j - lastIdx P (T[i + jn]).val P.length) 0)).toNat, by
              have : (1 : Int) ≤ max 1 (max (j - lastIdx P (T[i + jn]).val P.length) 0) :=
                le_max_left _ _
              omega⟩
          have hs1 : 1 ≤ s := by
            have : (1 : Int) ≤ max 1 (max (j - lastIdx P (T[i + jn]).val P.length) 0) :=
              le_max_left _ _
            omega
          have e2 : (i : Int) + (s : Int) = ((i + s : Nat) : Int) := by omega
          rw [hs, e2]
          exact ih (i + s) calls hfuel (by omega) hcalls
    · simp only [hc, if_false]
      exact ⟨calls, rfl, hcalls⟩

/-- Claim C23. For every pattern `P`, the empty pattern and patterns of length 1 included,
and every text `T`, the constructor and `searchAll` complete, which in this model, where an
access outside the range of `pat`, `text`, `badChar`, `suffix` or `prefix` fails, means
that every index was in range; the tables keep their sizes 256, `m` and `m`.  Every call
of `moveByGoodSuffix` made by `searchAll` has `0 ≤ j < m - 1` and returns a value in
`1..m`, as does a call with any such `j`. -/
theorem accesses_in_range (P T : List Byte) :
    ∃ (bm : BoyerMoore) (res : List Int) (calls : List (Int × Int)),
      BoyerMoore.new P = some bm ∧ bm.searchAll T = some res ∧
      bm.pat = P ∧ bm.m = (P.length : Int) ∧ bm.badChar.length = 256 ∧
      bm.suffix.length = P.length ∧ bm.isPrefix.length = P.length ∧
      bm.searchAllCalls T = some calls ∧
      (∀ c ∈ calls, 0 ≤ c.1 ∧ c.1 < bm.m - 1 ∧ bm.moveByGoodSuffix c.1 = some c.2 ∧
        1 ≤ c.2 ∧ c.2 ≤ bm.m) ∧
      (∀ j : Int, 0 ≤ j → j < bm.m - 1 →
        ∃ g : Int, bm.moveByGoodSuffix j = some g ∧ 1 ≤ g ∧ g ≤ bm.m) ∧
      (∀ (v : List Int) (k : Int), k < 0 ∨ (v.length : Int) ≤ k →
        readAt v k = none ∧ ∀ x, writeAt v k x = none) ∧
      (∀ (v : List Byte) (k : Int), k < 0 ∨ (v.length : Int) ≤ k → readAt v k = none) ∧
      (∀ (v : List Bool) (k : Int), k < 0 ∨ (v.length : Int) ≤ k →
        readAt v k = none ∧ ∀ x, writeAt v k x = none) := by
  have hm : (built P).m = (P.length : Int) := rfl
  have hcalls : ∃ calls, (built P).searchAllCalls T = some calls ∧
      ∀ c ∈ calls, 0 ≤ c.1 ∧ c.1 < (P.length : Int) - 1 ∧
        BoyerMoore.moveByGoodSuffix (built P) c.1 = some c.2 ∧ 1 ≤ c.2 ∧
        c.2 ≤ (P.length : Int) := by
    unfold BoyerMoore.searchAllCalls
    dsimp only
    by_cases hc : (built P).m = 0 ∨ (T.length : Int) < (built P).m
    · rw [if_pos hc]
      exact ⟨[], rfl, fun c h => absurd h (List.not_mem_nil c)⟩
    · rw [if_neg hc]
      have hP : 0 < P.length := by rw [hm] at hc; omega
      have := searchLoopCalls_spec P T hP (T.length + 1) 0 [] (by omega) (by omega)
        (fun c h => absurd h (List.not_mem_nil c))
      simpa using this
  obtain ⟨calls, hc1, hc2⟩ := hcalls
  refine ⟨built P, naiveSearch P T, calls, new_built P, searchAll_built_all P T, rfl, rfl,
    bcTable_length P P.length, sufTable_length P _, pfxTable_length P _, hc1, ?_, ?_,
    fun v k h => ⟨readAt_out_of_range v k h, fun x => writeAt_out_of_range v k x h⟩,
    fun v k h => readAt_out_of_range v k h,
    fun v k h => ⟨readAt_out_of_range v k h, fun x => writeAt_out_of_range v k x h⟩⟩
  · intro c hc
    rw [hm]
    exact hc2 c hc
  · intro j hj0 hj1
    rw [hm] at hj1 ⊢
    obtain ⟨g, h1, h2, h3, _⟩ := moveByGoodSuffix_spec P j.toNat (by omega)
    refine ⟨(g : Int), ?_, by omega, by omega⟩
    rw [← h1]
    congr 1
    omega

set_option maxRecDepth 100000 in
/-- Evaluation for C23: the empty pattern and a pattern of length 1 are constructed and
searched; for `"ABCAB"` in `"XXCABCAB"` the only call of `moveByGoodSuffix` has `j = 1` and
returns 3. -/
theorem accesses_in_range_witness :
    BoyerMoore.new [] = some (built []) ∧ (built []).searchAll [65, 66] = some [] ∧
    (built [65]).searchAll [66, 65, 65] = some [1, 2] ∧
    (built [65]).searchAllCalls [66, 65, 65] = some [] ∧
    (built [65, 66, 67, 65, 66]).searchAllCalls [88, 88, 67, 65, 66, 67, 65, 66]
      = some [(1, 3)] ∧
    (built [65, 66, 67, 65, 66]).searchAll [88, 88, 67, 65, 66, 67, 65, 66] = some [3] ∧
    (∃ (bm : BoyerMoore) (res : List Int) (calls : List (Int × Int)),
      BoyerMoore.new [65] = some bm ∧ bm.searchAll [66, 65, 65] = some res ∧
      bm.pat = [65] ∧ bm.m = (([65] : List Byte).length : Int) ∧ bm.badChar.length = 256 ∧
      bm.suffix.length = ([65] : List Byte).length ∧
      bm.isPrefix.length = ([65] : List Byte).length ∧
      bm.searchAllCalls [66, 65, 65] = some calls ∧
      (∀ c ∈ calls, 0 ≤ c.1 ∧ c.1 < bm.m - 1 ∧ bm.moveByGoodSuffix c.1 = some c.2 ∧
        1 ≤ c.2 ∧ c.2 ≤ bm.m) ∧
      (∀ j : Int, 0 ≤ j → j < bm.m - 1 →
        ∃ g : Int, bm.moveByGoodSuffix j = some g ∧ 1 ≤ g ∧ g ≤ bm.m) ∧
      (∀ (v : List Int) (k : Int), k < 0 ∨ (v.length : Int) ≤ k →
        readAt v k = none ∧ ∀ x, writeAt v k x = none) ∧
      (∀ (v : List Byte) (k : Int), k < 0 ∨ (v.length : Int) ≤ k → readAt v k = none) ∧
      (∀ (v : List Bool) (k : Int), k < 0 ∨ (v.length : Int) ≤ k →
        readAt v k = none ∧ ∀ x, writeAt v k x = none)) :=
  ⟨new_built [], by decide, by decide, by decide, by decide, by decide,
    accesses_in_range [65] [66, 65, 65]⟩

end BoyerMooreCase1

namespace KruskalCase6

open BoyerMooreCase1 (readAt writeAt readAt_natCast writeAt_natCast)

/-! ## Connectivity and forests -/

theorem Conn.mono {es es2 : List Edge} (h : ∀ e ∈ es, e ∈ es2) {a b : Int}
    (hc : Conn es a b) : Conn es2 a b := by
  induction hc with
  | edge e he => exact Conn.edge e (h e he)
  | refl a => exact Conn.refl a
  | symm _ ih => exact Conn.symm ih
  | trans _ _ ih1 ih2 => exact Conn.trans ih1 ih2

/-- Connectivity after adding one edge `e` to `B`. -/
theorem conn_snoc {B : List Edge} {e : Edge} {x y : Int} (h : Conn (B ++ [e]) x y) :
    Conn B x y ∨ (Conn B x e.u ∧ Conn B e.v y) ∨ (Conn B x e.v ∧ Conn B e.u y) := by
  induction h with
  | edge f hf =>
    rcases List.mem_append.1 hf with h | h
    · exact Or.inl (Conn.edge f h)
    · have : f = e := by simpa using h
      subst this
      exact Or.inr (Or.inl ⟨Conn.refl _, Conn.refl _⟩)
  | refl a => exact Or.inl (Conn.refl a)
  | symm _ ih =>
    rcases ih with h | ⟨h1, h2⟩ | ⟨h1, h2⟩
    · exact Or.inl (Conn.symm h)
    · exact Or.inr (Or.inr ⟨Conn.symm h2, Conn.symm h1⟩)
    · exact Or.inr (Or.inl ⟨Conn.symm h2, Conn.symm h1⟩)
  | trans _ _ ih1 ih2 =>
    rcases ih1 with h | ⟨h1, h2⟩ | ⟨h1, h2⟩
    · rcases ih2 with g | ⟨g1, g2⟩ | ⟨g1, g2⟩
      · exact Or.inl (Conn.trans h g)
      · exact Or.inr (Or.inl ⟨Conn.trans h g1, g2⟩)
      · exact Or.inr (Or.inr ⟨Conn.trans h g1, g2⟩)
    · rcases ih2 with g | ⟨g1, g2⟩ | ⟨g1, g2⟩
      · exact Or.inr (Or.inl ⟨h1, Conn.trans h2 g⟩)
      · exact Or.inl (Conn.trans h1 (Conn.trans (Conn.symm (Conn.trans h2 g1)) g2))
      · exact Or.inl (Conn.trans h1 g2)
    · rcases ih2 with g | ⟨g1, g2⟩ | ⟨g1, g2⟩
      · exact Or.inr (Or.inr ⟨h1, Conn.trans h2 g⟩)
      · exact Or.inl (Conn.trans h1 g2)
      · exact Or.inl (Conn.trans h1 (Conn.trans (Conn.symm (Conn.trans h2 g1)) g2))

theorem conn_snoc_of {B : List Edge} {e : Edge} {x y : Int}
    (h : Conn B x y ∨ (Conn B x e.u ∧ Conn B e.v y) ∨ (Conn B x e.v ∧ Conn B e.u y)) :
    Conn (B ++ [e]) x y := by
  have hsub : ∀ f ∈ B, f ∈ B ++ [e] := fun f hf => List.mem_append_left _ hf
  have he : Conn (B ++ [e]) e.u e.v := Conn.edge e (by simp)
  rcases h with h | ⟨h1, h2⟩ | ⟨h1, h2⟩
  · exact Conn.mono hsub h
  · exact Conn.trans (Conn.mono hsub h1) (Conn.trans he (Conn.mono hsub h2))
  · exact Conn.trans (Conn.mono hsub h1) (Conn.trans (Conn.symm he) (Conn.mono hsub h2))

theorem conn_snoc_iff {B : List Edge} {e : Edge} {x y : Int} :
    Conn (B ++ [e]) x y ↔
      Conn B x y ∨ (Conn B x e.u ∧ Conn B e.v y) ∨ (Conn B x e.v ∧ Conn B e.u y) :=
  ⟨conn_snoc, conn_snoc_of⟩

/-- Adding an edge whose endpoints are connected already changes nothing. -/
theorem conn_snoc_redundant {B : List Edge} {e : Edge} (he : Conn B e.u e.v) {x y : Int} :
    Conn (B ++ [e]) x y ↔ Conn B x y := by
  rw [conn_snoc_iff]
  constructor
  · rintro (h | ⟨h1, h2⟩ | ⟨h1, h2⟩)
    · exact h
    · exact Conn.trans h1 (Conn.trans he h2)
    · exact Conn.trans h1 (Conn.trans (Conn.symm he) h2)
  · intro h; exact Or.inl h

/-- Two bases with the same connectivity have the same connectivity after the same edge
is added to both. -/
theorem conn_snoc_congr {B B2 : List Edge} (h : ∀ x y, Conn B x y ↔ Conn B2 x y) (e : Edge)
    (x y : Int) : Conn (B ++ [e]) x y ↔ Conn (B2 ++ [e]) x y := by
  rw [conn_snoc_iff, conn_snoc_iff, h x y, h x e.u, h e.v y, h x e.v, h e.u y]

theorem conn_append_congr {B B2 : List Edge} (h : ∀ x y, Conn B x y ↔ Conn B2 x y) :
    ∀ (F : List Edge) (x y : Int), Conn (B ++ F) x y ↔ Conn (B2 ++ F) x y := by
  intro F
  induction F generalizing B B2 with
  | nil => intro x y; simpa using h x y
  | cons f F ih =>
    intro x y
    have e1 : B ++ f :: F = (B ++ [f]) ++ F := by simp
    have e2 : B2 ++ f :: F = (B2 ++ [f]) ++ F := by simp
    rw [e1, e2]
    exact ih (conn_snoc_congr h f) x y

theorem forestOver_congr {B B2 : List Edge} (h : ∀ x y, Conn B x y ↔ Conn B2 x y) :
    ∀ F : List Edge, ForestOver B F → ForestOver B2 F := by
  intro F
  induction F generalizing B B2 with
  | nil => intro _; trivial
  | cons f F ih =>
    intro hf
    exact ⟨fun hc => hf.1 ((h _ _).2 hc), ih (conn_snoc_congr h f) hf.2⟩

theorem forestOver_append (B X Y : List Edge) :
    ForestOver B (X ++ Y) ↔ ForestOver B X ∧ ForestOver (B ++ X) Y := by
  induction X generalizing B with
  | nil => simp [ForestOver]
  | cons x X ih =>
    have e : B ++ x :: X = (B ++ [x]) ++ X := by simp
    rw [List.cons_append, ForestOver, ForestOver, ih, e, and_assoc]

/-- In a forest over `B`, no edge has its endpoints connected by `B`. -/
theorem forestOver_not_conn {B F : List Edge} (h : ForestOver B F) :
    ∀ f ∈ F, ¬ Conn B f.u f.v := by
  induction F generalizing B with
  | nil => intro f hf; exact absurd hf (List.not_mem_nil f)
  | cons g F ih =>
    intro f hf
    rcases List.mem_cons.1 hf with h1 | h1
    · rw [h1]; exact h.1
    · intro hc
      exact ih h.2 f h1 (Conn.mono (fun e he => List.mem_append_left _ he) hc)

/-- Two edges that can be added in one order can be added in the other. -/
theorem forestOver_swap {B : List Edge} {g f : Edge} (hg : ¬ Conn B g.u g.v)
    (hf : ¬ Conn (B ++ [g]) f.u f.v) : ¬ Conn B f.u f.v ∧ ¬ Conn (B ++ [f]) g.u g.v := by
  refine ⟨fun hc => hf (Conn.mono (fun e he => List.mem_append_left _ he) hc), ?_⟩
  intro hc
  rcases conn_snoc hc with h | ⟨h1, h2⟩ | ⟨h1, h2⟩
  · exact hg h
  · exact hf (conn_snoc_of (Or.inr (Or.inl ⟨Conn.symm h1, Conn.symm h2⟩)))
  · exact hf (conn_snoc_of (Or.inr (Or.inr ⟨h2, h1⟩)))

theorem forestOver_perm {F F2 : List Edge} (hp : F.Perm F2) :
    ∀ B : List Edge, ForestOver B F → ForestOver B F2 := by
  induction hp with
  | nil => intro B h; exact h
  | cons x _ ih => intro B h; exact ⟨h.1, ih _ h.2⟩
  | swap x y l =>
    intro B h
    obtain ⟨h1, h2, h3⟩ := h
    obtain ⟨k1, k2⟩ := forestOver_swap h1 h2
    refine ⟨k1, k2, forestOver_congr ?_ l h3⟩
    intro a b
    constructor
    · exact Conn.mono (fun e he => by simp at he ⊢; tauto)
    · exact Conn.mono (fun e he => by simp at he ⊢; tauto)
  | trans _ _ ih1 ih2 => intro B h; exact ih2 B (ih1 B h)

/-- Two edges that join the same two classes of `B` give the same connectivity. -/
theorem conn_snoc_same_join {B : List Edge} {g e : Edge}
    (h : (Conn B e.u g.u ∧ Conn B g.v e.v) ∨ (Conn B e.u g.v ∧ Conn B g.u e.v)) {x y : Int}
    (hc : Conn (B ++ [g]) x y) : Conn (B ++ [e]) x y := by
  apply conn_snoc_of
  rcases conn_snoc hc with k | ⟨k1, k2⟩ | ⟨k1, k2⟩
  · exact Or.inl k
  · rcases h with ⟨h1, h2⟩ | ⟨h1, h2⟩
    · exact Or.inr (Or.inl ⟨Conn.trans k1 (Conn.symm h1), Conn.trans (Conn.symm h2) k2⟩)
    · exact Or.inr (Or.inr ⟨Conn.trans k1 h2, Conn.trans h1 k2⟩)
  · rcases h with ⟨h1, h2⟩ | ⟨h1, h2⟩
    · exact Or.inr (Or.inr ⟨Conn.trans k1 h2, Conn.trans h1 k2⟩)
    · exact Or.inr (Or.inl ⟨Conn.trans k1 (Conn.symm h1), Conn.trans (Conn.symm h2) k2⟩)

/-- The exchange step: if the forest `F` over `B` connects the endpoints of `e`, which `B`
does not, then one edge of `F` can be given up for `e` without loss of connectivity. -/
theorem forest_exchange {e : Edge} :
    ∀ (F B : List Edge), ForestOver B F → ¬ Conn B e.u e.v → Conn (B ++ F) e.u e.v →
      ∃ (f : Edge) (F1 F2 : List Edge), F = F1 ++ f :: F2 ∧
        ForestOver (B ++ [e]) (F1 ++ F2) ∧
        ∀ x y, Conn (B ++ F) x y → Conn ((B ++ [e]) ++ (F1 ++ F2)) x y := by
  intro F
  induction F with
  | nil =>
    intro B _ hne hc
    rw [List.append_nil] at hc
    exact absurd hc hne
  | cons g F ih =>
    intro B hF hne hc
    obtain ⟨hg, hF2⟩ := hF
    have eF : B ++ g :: F = (B ++ [g]) ++ F := by simp
    by_cases h1 : Conn (B ++ [g]) e.u e.v
    · have hjoin : (Conn B e.u g.u ∧ Conn B g.v e.v) ∨ (Conn B e.u g.v ∧ Conn B g.u e.v) := by
        rcases conn_snoc h1 with k | k | k
        · exact absurd k hne
        · exact Or.inl k
        · exact Or.inr k
      have hjoin2 : (Conn B g.u e.u ∧ Conn B e.v g.v) ∨ (Conn B g.u e.v ∧ Conn B e.u g.v) := by
        rcases hjoin with ⟨k1, k2⟩ | ⟨k1, k2⟩
        · exact Or.inl ⟨Conn.symm k1, Conn.symm k2⟩
        · exact Or.inr ⟨k2, k1⟩
      have hiff : ∀ x y, Conn (B ++ [g]) x y ↔ Conn (B ++ [e]) x y :=
        fun x y => ⟨conn_snoc_same_join hjoin, conn_snoc_same_join hjoin2⟩
      refine ⟨g, [], F, rfl, ?_, ?_⟩
      · rw [List.nil_append]
        exact forestOver_congr hiff F hF2
      · intro x y hxy
        rw [eF] at hxy
        rw [List.nil_append]
        exact (conn_append_congr hiff F x y).1 hxy
    · rw [eF] at hc
      obtain ⟨f, F1, F2, k1, k2, k3⟩ := ih (B ++ [g]) hF2 h1 hc
      refine ⟨f, g :: F1, F2, by rw [k1]; rfl, ?_, ?_⟩
      · refine ⟨(forestOver_swap hg h1).2, forestOver_congr ?_ _ k2⟩
        intro a b
        constructor
        · exact Conn.mono (fun e he => by simp at he ⊢; tauto)
        · exact Conn.mono (fun e he => by simp at he ⊢; tauto)
      · intro x y hxy
        rw [eF] at hxy
        exact Conn.mono (fun e he => by simp at he ⊢; tauto) (k3 x y hxy)

theorem forestOver_acyclic {F : List Edge} (h : ForestOver [] F) : Acyclic F := by
  intro l1 e l2 hF
  subst hF
  have hp : (l1 ++ e :: l2).Perm ((l1 ++ l2) ++ [e]) :=
    List.perm_middle.trans (List.perm_append_singleton e (l1 ++ l2)).symm
  have h2 := forestOver_perm hp [] h
  rw [forestOver_append] at h2
  have h3 := h2.2.1
  rw [List.nil_append] at h3
  exact h3

theorem acyclic_forestOver : ∀ F : List Edge, Acyclic F → ForestOver [] F := by
  intro F
  induction F using List.reverseRecOn with
  | nil => intro _; trivial
  | append_singleton l a ih =>
    intro h
    rw [forestOver_append]
    constructor
    · apply ih
      intro l1 e l2 hl
      have := h l1 e (l2 ++ [a]) (by rw [hl]; simp)
      intro hc
      exact this (Conn.mono (fun f hf => by simp at hf ⊢; tauto) hc)
    · have := h l a [] (by simp)
      rw [List.append_nil] at this
      exact ⟨by rw [List.nil_append]; exact this, trivial⟩

/-- Every list of edges has a sub-list that is a forest with the same connectivity. -/
theorem exists_spanning_forest : ∀ F : List Edge,
    ∃ F2 : List Edge, F2.Sublist F ∧ ForestOver [] F2 ∧ ∀ x y, Conn F x y ↔ Conn F2 x y := by
  intro F
  induction F using List.reverseRecOn with
  | nil => exact ⟨[], List.Sublist.refl _, trivial, fun x y => Iff.rfl⟩
  | append_singleton l a ih =>
    obtain ⟨F0, h1, h2, h3⟩ := ih
    by_cases hc : Conn F0 a.u a.v
    · refine ⟨F0, h1.trans (List.sublist_append_left _ _), h2, ?_⟩
      intro x y
      rw [conn_snoc_congr h3 a x y, conn_snoc_redundant hc]
    · refine ⟨F0 ++ [a], List.Sublist.append h1 (List.Sublist.refl _), ?_, ?_⟩
      · rw [forestOver_append]
        exact ⟨h2, by rw [List.nil_append]; exact hc, trivial⟩
      · intro x y
        exact conn_snoc_congr h3 a x y

theorem weight_cons (e : Edge) (es : List Edge) : weight (e :: es) = e.w + weight es := by
  simp [weight]

theorem weight_append (xs ys : List Edge) : weight (xs ++ ys) = weight xs + weight ys := by
  simp [weight]

theorem weight_perm {xs ys : List Edge} (h : xs.Perm ys) : weight xs = weight ys := by
  unfold weight
  exact (h.map _).sum_eq

theorem weight_sublist_le {xs ys : List Edge} (h : xs.Sublist ys)
    (hnn : ∀ e ∈ ys, 0 ≤ e.w) : weight xs ≤ weight ys := by
  induction h with
  | slnil => exact le_refl _
  | cons a _ ih =>
    rw [weight_cons]
    have h1 := ih (fun e he => hnn e (List.mem_cons_of_mem _ he))
    have h2 := hnn a (List.mem_cons_self _ _)
    linarith
  | cons₂ a _ ih =>
    rw [weight_cons, weight_cons]
    have h1 := ih (fun e he => hnn e (List.mem_cons_of_mem _ he))
    linarith


/-! ## The greedy choice is a minimum spanning forest -/

theorem subperm_of_cons_of_not_mem {F L : List Edge} {e : Edge} (h : F.Subperm (e :: L))
    (he : e ∉ F) : F.Subperm L := by
  obtain ⟨l2, hp, hs⟩ := h
  rcases List.sublist_cons_iff.1 hs with h1 | ⟨r, h1, _⟩
  · exact ⟨l2, hp, h1⟩
  · exfalso
    apply he
    apply hp.subset
    rw [h1]
    exact List.mem_cons_self _ _

theorem Greedy.sublist {B L P : List Edge} (h : Greedy B L P) : P.Sublist L := by
  induction h with
  | nil B => exact List.Sublist.refl _
  | skip _ _ ih => exact List.Sublist.cons _ ih
  | take _ _ ih => exact List.Sublist.cons₂ _ ih

theorem Greedy.forestOver {B L P : List Edge} (h : Greedy B L P) : ForestOver B P := by
  induction h with
  | nil B => trivial
  | skip _ _ ih => exact ih
  | take hn _ ih => exact ⟨hn, ih⟩

theorem Greedy.spans {B L P : List Edge} (h : Greedy B L P) :
    ∀ e ∈ L, Conn (B ++ P) e.u e.v := by
  induction h with
  | nil B => intro e he; exact absurd he (List.not_mem_nil e)
  | skip hc _ ih =>
    intro f hf
    rcases List.mem_cons.1 hf with h1 | h1
    · rw [h1]
      exact Conn.mono (fun x hx => List.mem_append_left _ hx) hc
    · exact ih f h1
  | @take B L P e _ _ ih =>
    intro f hf
    rcases List.mem_cons.1 hf with h1 | h1
    · rw [h1]
      exact Conn.edge e (by simp)
    · exact Conn.mono (fun x hx => by simp at hx ⊢; tauto) (ih f h1)

/-- On edges in ascending order of weight, the greedy choice weighs no more than any forest
over the same base that is taken from the same edges and connects the endpoints of each of
them. -/
theorem Greedy.optimal {B L P : List Edge} (h : Greedy B L P) :
    L.Pairwise (fun a b => ¬ b.w < a.w) →
    ∀ F : List Edge, F.Subperm L → ForestOver B F → (∀ e ∈ L, Conn (B ++ F) e.u e.v) →
      weight P ≤ weight F := by
  induction h with
  | nil B =>
    intro _ F hF _ _
    rw [List.subperm_nil.1 hF]
  | @skip B L P e hc _ ih =>
    intro hs F hF hfo hsp
    have he : e ∉ F := fun hm => forestOver_not_conn hfo e hm hc
    exact ih (List.pairwise_cons.1 hs).2 F (subperm_of_cons_of_not_mem hF he) hfo
      (fun f hf => hsp f (List.mem_cons_of_mem _ hf))
  | @take B L P e hn _ ih =>
    intro hs F hF hfo hsp
    have hs2 := (List.pairwise_cons.1 hs).2
    by_cases he : e ∈ F
    · have hp : F.Perm (e :: F.erase e) := List.perm_cons_erase he
      have hsub : (F.erase e).Subperm L :=
        (List.subperm_cons e).1 ((List.Perm.subperm_right hp).1 hF)
      have hfo2 : ForestOver (B ++ [e]) (F.erase e) := (forestOver_perm hp B hfo).2
      have hsp2 : ∀ f ∈ L, Conn ((B ++ [e]) ++ F.erase e) f.u f.v := by
        intro f hf
        refine Conn.mono ?_ (hsp f (List.mem_cons_of_mem _ hf))
        intro x hx
        rcases List.mem_append.1 hx with h1 | h1
        · simp [h1]
        · have := hp.subset h1
          simp at this ⊢
          tauto
      have hle := ih hs2 (F.erase e) hsub hfo2 hsp2
      rw [weight_cons, weight_perm hp, weight_cons]
      linarith
    · have hsub : F.Subperm L := subperm_of_cons_of_not_mem hF he
      have hce : Conn (B ++ F) e.u e.v := hsp e (List.mem_cons_self _ _)
      obtain ⟨f, F1, F2, k1, k2, k3⟩ := forest_exchange F B hfo hn hce
      have hsub2 : (F1 ++ F2).Subperm L := by
        refine List.Subperm.trans (List.Sublist.subperm ?_) hsub
        rw [k1]
        exact List.Sublist.append (List.Sublist.refl _) (List.sublist_cons_self _ _)
      have hsp2 : ∀ g ∈ L, Conn ((B ++ [e]) ++ (F1 ++ F2)) g.u g.v :=
        fun g hg => k3 _ _ (hsp g (List.mem_cons_of_mem _ hg))
      have hle := ih hs2 (F1 ++ F2) hsub2 k2 hsp2
      have hfL : f ∈ L := hsub.subset (by rw [k1]; simp)
      have hw : ¬ f.w < e.w := (List.pairwise_cons.1 hs).1 f hfL
      rw [weight_cons, k1, weight_append, weight_cons]
      rw [weight_append] at hle
      have : e.w ≤ f.w := not_lt.1 hw
      linarith


/-! ## The disjoint-set forest -/

theorem DSU.WF.parent_eq {d : DSU} {n : Nat} (h : d.WF n) {x : Nat} (hx : x < n) :
    d.parent[x]? = some ((par d x : Nat) : Int) := by
  obtain ⟨p, hp, _, _⟩ := h.2.2 x hx
  have : par d x = p := by simp [par, hp]
  rw [this]; exact hp

theorem DSU.WF.par_lt {d : DSU} {n : Nat} (h : d.WF n) {x : Nat} (hx : x < n) :
    par d x < n := by
  obtain ⟨p, hp, hpn, _⟩ := h.2.2 x hx
  have : par d x = p := by simp [par, hp]
  rw [this]; exact hpn

theorem DSU.WF.rk_lt {d : DSU} {n : Nat} (h : d.WF n) {x : Nat} (hx : x < n)
    (hne : par d x ≠ x) : rk d x < rk d (par d x) := by
  obtain ⟨p, hp, _, hr⟩ := h.2.2 x hx
  have : par d x = p := by simp [par, hp]
  rw [this] at hne ⊢
  exact hr hne

theorem DSU.WF.rnk_eq {d : DSU} {n : Nat} (h : d.WF n) {x : Nat} (hx : x < n) :
    d.rnk[x]? = some (rk d x) := by
  have hlt : x < d.rnk.length := by rw [h.2.1]; exact hx
  simp [rk, List.getElem?_eq_getElem hlt]

theorem lvl_le (d : DSU) (x : Nat) : lvl d x ≤ d.parent.length := by
  unfold lvl
  calc ((Finset.range d.parent.length).filter (fun y => rk d x < rk d y)).card
      ≤ (Finset.range d.parent.length).card := Finset.card_filter_le _ _
    _ = d.parent.length := Finset.card_range _

theorem lvl_mono (d : DSU) {x p : Nat} (h : rk d x ≤ rk d p) : lvl d p ≤ lvl d x := by
  unfold lvl
  apply Finset.card_le_card
  intro y hy
  simp only [Finset.mem_filter, Finset.mem_range] at hy ⊢
  exact ⟨hy.1, lt_of_le_of_lt h hy.2⟩

theorem lvl_lt (d : DSU) {x p : Nat} (hp : p < d.parent.length) (h : rk d x < rk d p) :
    lvl d p < lvl d x := by
  unfold lvl
  apply Finset.card_lt_card
  rw [Finset.ssubset_iff_of_subset]
  · refine ⟨p, ?_, ?_⟩
    · simp only [Finset.mem_filter, Finset.mem_range]
      exact ⟨hp, h⟩
    · simp only [Finset.mem_filter, Finset.mem_range, lt_self_iff_false, and_false,
        not_false_eq_true]
  · intro y hy
    simp only [Finset.mem_filter, Finset.mem_range] at hy ⊢
    exact ⟨hy.1, lt_trans h hy.2⟩

theorem DSU.WF.lvl_par_lt {d : DSU} {n : Nat} (h : d.WF n) {x : Nat} (hx : x < n)
    (hne : par d x ≠ x) : lvl d (par d x) < lvl d x :=
  lvl_lt d (by rw [h.1]; exact h.par_lt hx) (h.rk_lt hx hne)

/-- Induction along parent pointers: a property that holds for an element once it holds
for the parent, if there is one, holds for every element. -/
theorem DSU.WF.induction {d : DSU} {n : Nat} (h : d.WF n) (P : Nat → Prop)
    (step : ∀ x, x < n → (par d x ≠ x → P (par d x)) → P x) : ∀ x, x < n → P x := by
  have key : ∀ k x, x < n → lvl d x ≤ k → P x := by
    intro k
    induction k with
    | zero =>
      intro x hx hk
      apply step x hx
      intro hne
      have := h.lvl_par_lt hx hne
      omega
    | succ k ih =>
      intro x hx hk
      apply step x hx
      intro hne
      have := h.lvl_par_lt hx hne
      exact ih _ (h.par_lt hx) (by omega)
  intro x hx
  exact key (lvl d x) x hx (le_refl _)

theorem rootOf_fuel {d : DSU} {n : Nat} (h : d.WF n) :
    ∀ (f f2 x : Nat), x < n → lvl d x ≤ f → lvl d x ≤ f2 → rootOf d f x = rootOf d f2 x := by
  intro f
  induction f with
  | zero =>
    intro f2 x hx h1 _
    cases f2 with
    | zero => rfl
    | succ f2 =>
      simp only [rootOf]
      by_cases hr : par d x = x
      · rw [if_pos hr]
      · have := h.lvl_par_lt hx hr
        omega
  | succ f ih =>
    intro f2 x hx h1 h2
    cases f2 with
    | zero =>
      simp only [rootOf]
      by_cases hr : par d x = x
      · rw [if_pos hr]
      · have := h.lvl_par_lt hx hr
        omega
    | succ f2 =>
      simp only [rootOf]
      by_cases hr : par d x = x
      · rw [if_pos hr, if_pos hr]
      · rw [if_neg hr, if_neg hr]
        have := h.lvl_par_lt hx hr
        exact ih f2 _ (h.par_lt hx) (by omega) (by omega)

theorem DSU.WF.root_unfold {d : DSU} {n : Nat} (h : d.WF n) {x : Nat} (hx : x < n) :
    root d x = if par d x = x then x else root d (par d x) := by
  unfold root
  rw [h.1]
  cases n with
  | zero => omega
  | succ m =>
    have hl : lvl d x ≤ m + 1 := by have := lvl_le d x; rw [h.1] at this; exact this
    by_cases hr : par d x = x
    · simp only [rootOf, if_pos hr]
    · simp only [rootOf, if_neg hr]
      have := h.lvl_par_lt hx hr
      exact rootOf_fuel h m (m + 1) _ (h.par_lt hx) (by omega) (by omega)

theorem DSU.WF.root_of_isRoot {d : DSU} {n : Nat} (h : d.WF n) {x : Nat} (hx : x < n)
    (hr : par d x = x) : root d x = x := by
  rw [h.root_unfold hx, if_pos hr]

theorem DSU.WF.root_par {d : DSU} {n : Nat} (h : d.WF n) {x : Nat} (hx : x < n) :
    root d (par d x) = root d x := by
  by_cases hr : par d x = x
  · rw [hr]
  · rw [h.root_unfold hx, if_neg hr]

theorem DSU.WF.root_spec {d : DSU} {n : Nat} (h : d.WF n) :
    ∀ x, x < n → root d x < n ∧ par d (root d x) = root d x := by
  apply h.induction
  intro x hx ih
  by_cases hr : par d x = x
  · rw [h.root_of_isRoot hx hr]
    exact ⟨hx, hr⟩
  · rw [← h.root_par hx]
    exact ih hr

theorem par_set_parent (d : DSU) (x g : Nat) (hx : x < d.parent.length) (y : Nat) :
    par { d with parent := d.parent.set x (g : Int) } y = if y = x then g else par d y := by
  unfold par
  dsimp only
  rw [List.getElem?_set]
  by_cases hy : y = x
  · subst hy
    simp [hx]
  · have : ¬ x = y := fun h => hy h.symm
    simp [this, hy]

theorem rk_set_parent (d : DSU) (l : List Int) (y : Nat) :
    rk { d with parent := l } y = rk d y := rfl

theorem lvl_set_parent (d : DSU) (x : Nat) (v : Int) (y : Nat) :
    lvl { d with parent := d.parent.set x v } y = lvl d y := by
  unfold lvl
  simp only [List.length_set]
  rfl

/-- Path halving at a non-root `x` keeps the state well formed. -/
theorem DSU.WF.halve {d : DSU} {n : Nat} (h : d.WF n) {x : Nat} (hx : x < n)
    (hr : par d x ≠ x) :
    DSU.WF { d with parent := d.parent.set x ((par d (par d x) : Nat) : Int) } n := by
  have hxl : x < d.parent.length := by rw [h.1]; exact hx
  have hp := h.par_lt hx
  refine ⟨by simp only [List.length_set]; exact h.1, h.2.1, ?_⟩
  intro y hy
  by_cases hyx : y = x
  · subst hyx
    refine ⟨par d (par d y), ?_, h.par_lt hp, ?_⟩
    · dsimp only
      rw [List.getElem?_set_eq_of_lt _ hxl]
    · intro _
      have h1 := h.rk_lt hy hr
      show rk d y < rk d (par d (par d y))
      by_cases hr2 : par d (par d y) = par d y
      · rw [hr2]; exact h1
      · exact lt_trans h1 (h.rk_lt hp hr2)
  · refine ⟨par d y, ?_, h.par_lt hy, ?_⟩
    · dsimp only
      rw [List.getElem?_set_ne (fun e => hyx e.symm)]
      exact h.parent_eq hy
    · intro hne
      exact h.rk_lt hy hne

/-- Path halving at a non-root `x` keeps every root. -/
theorem DSU.WF.halve_root {d : DSU} {n : Nat} (h : d.WF n) {x : Nat} (hx : x < n)
    (hr : par d x ≠ x) :
    ∀ y, y < n →
      root { d with parent := d.parent.set x ((par d (par d x) : Nat) : Int) } y = root d y := by
  have hxl : x < d.parent.length := by rw [h.1]; exact hx
  have hp := h.par_lt hx
  have h1 := h.halve hx hr
  have hg : par d (par d x) ≠ x := by
    intro e
    have k1 := h.rk_lt hx hr
    by_cases hr2 : par d (par d x) = par d x
    · rw [hr2] at e; exact hr e
    · have k2 := h.rk_lt hp hr2
      rw [e] at k2
      exact absurd (lt_trans k1 k2) (lt_irrefl _)
  apply h.induction
  intro y hy ih
  by_cases hyx : y = x
  · subst hyx
    -- the parent of `y` keeps its root, and its root is the root of the new parent of `y`
    have ihp := ih hr
    have e1 : par { d with parent := d.parent.set y ((par d (par d y) : Nat) : Int) } y
        = par d (par d y) := by rw [par_set_parent d y _ hxl, if_pos rfl]
    have e2 : par { d with parent := d.parent.set y ((par d (par d y) : Nat) : Int) } (par d y)
        = par d (par d y) := by rw [par_set_parent d y _ hxl, if_neg hr]
    rw [h1.root_unfold hy, e1, if_neg hg, ← h.root_par hy, ← ihp]
    by_cases hr2 : par d (par d y) = par d y
    · rw [hr2]
    · rw [h1.root_unfold hp, e2, if_neg hr2]
  · have e1 : par { d with parent := d.parent.set x ((par d (par d x) : Nat) : Int) } y
        = par d y := by rw [par_set_parent d x _ hxl, if_neg hyx]
    rw [h1.root_unfold hy, e1, h.root_unfold hy]
    by_cases hry : par d y = y
    · rw [if_pos hry, if_pos hry]
    · rw [if_neg hry, if_neg hry]
      exact ih hry

/-- `find(x)` with fuel above the level of `x` returns the root of `x`; it keeps the state
well formed, the rank entries, the root of every element and the set of roots. -/
theorem find_spec {n : Nat} :
    ∀ (fuel : Nat) (d : DSU) (x : Nat), d.WF n → x < n → lvl d x < fuel →
      ∃ d2 : DSU, d.find fuel (x : Int) = some (d2, ((root d x : Nat) : Int)) ∧ d2.WF n ∧
        d2.rnk = d.rnk ∧ (∀ y, y < n → root d2 y = root d y) ∧
        (∀ y, y < n → (par d2 y = y ↔ par d y = y)) := by
  intro fuel
  induction fuel with
  | zero => intro d x _ _ hl; omega
  | succ fuel ih =>
    intro d x h hx hl
    have hxl : x < d.parent.length := by rw [h.1]; exact hx
    have hp := h.par_lt hx
    unfold DSU.find
    rw [readAt_natCast, h.parent_eq hx]
    simp only [Option.bind_eq_bind, Option.some_bind]
    by_cases hr : par d x = x
    · have hc : ¬ (((par d x : Nat) : Int) ≠ (x : Int)) := by omega
      rw [if_neg hc, h.root_of_isRoot hx hr]
      exact ⟨d, rfl, h, rfl, fun y _ => rfl, fun y _ => Iff.rfl⟩
    · have hc : ((par d x : Nat) : Int) ≠ (x : Int) := by omega
      rw [if_pos hc, readAt_natCast, h.parent_eq hp]
      simp only [Option.some_bind]
      rw [writeAt_natCast _ _ _ hxl]
      simp only [Option.some_bind]
      rw [readAt_natCast, List.getElem?_set_eq_of_lt _ hxl]
      simp only [Option.some_bind]
      have h1 := h.halve hx hr
      have hroot := h.halve_root hx hr
      have hl1 : lvl { d with parent := d.parent.set x ((par d (par d x) : Nat) : Int) }
          (par d (par d x)) < fuel := by
        rw [lvl_set_parent]
        have k1 := h.lvl_par_lt hx hr
        have k2 : lvl d (par d (par d x)) ≤ lvl d (par d x) := by
          by_cases hr2 : par d (par d x) = par d x
          · rw [hr2]
          · exact le_of_lt (h.lvl_par_lt hp hr2)
        omega
      obtain ⟨d2, g1, g2, g3, g4, g5⟩ := ih _ (par d (par d x)) h1 (h.par_lt hp) hl1
      refine ⟨d2, ?_, g2, g3, ?_, ?_⟩
      · rw [g1, hroot _ (h.par_lt hp), h.root_par hp, h.root_par hx]
      · intro y hy
        rw [g4 y hy, hroot y hy]
      · intro y hy
        rw [g5 y hy, par_set_parent d x _ hxl]
        by_cases hyx : y = x
        · subst hyx
          have hg : par d (par d y) ≠ y := by
            intro e
            have k1 := h.rk_lt hy hr
            by_cases hr2 : par d (par d y) = par d y
            · rw [hr2] at e; exact hr e
            · have k2 := h.rk_lt hp hr2
              rw [e] at k2
              exact absurd (lt_trans k1 k2) (lt_irrefl _)
          rw [if_pos rfl]
          exact ⟨fun e => absurd e hg, fun e => absurd e hr⟩
        · rw [if_neg hyx]

theorem par_of_parent_set (d d3 : DSU) (x g : Nat) (hx : x < d.parent.length)
    (hp : d3.parent = d.parent.set x (g : Int)) (y : Nat) :
    par d3 y = if y = x then g else par d y := by
  have := par_set_parent d x g hx y
  unfold par at this ⊢
  rw [hp]
  exact this

theorem rootCount_congr (d d2 : DSU) (hl : d2.parent.length = d.parent.length)
    (h : ∀ y, y < d.parent.length → (par d2 y = y ↔ par d y = y)) :
    rootCount d2 = rootCount d := by
  unfold rootCount
  rw [hl]
  congr 1
  apply Finset.filter_congr
  intro y hy
  exact h y (Finset.mem_range.1 hy)

/-- Linking the root `B` below the root `A`, whose rank entry is not smaller, and raising
the rank entry of `A` when both are equal. -/
theorem link_spec {n : Nat} (d d3 : DSU) (h : d.WF n) (A B : Nat) (hA : A < n) (hB : B < n)
    (hrA : par d A = A) (hrB : par d B = B) (hne : A ≠ B) (hrk : rk d B ≤ rk d A)
    (hp : d3.parent = d.parent.set B (A : Int))
    (hr : d3.rnk = if rk d A = rk d B then d.rnk.set A (rk d A + 1) else d.rnk) :
    d3.WF n ∧ (∀ y, y < n → root d3 y = if root d y = B then A else root d y) ∧
      rootCount d3 + 1 = rootCount d := by
  have hBl : B < d.parent.length := by rw [h.1]; exact hB
  have hAr : A < d.rnk.length := by rw [h.2.1]; exact hA
  have hpar := par_of_parent_set d d3 B A hBl hp
  have hrk3 : ∀ y, rk d3 y = if rk d A = rk d B ∧ y = A then rk d A + 1 else rk d y := by
    intro y
    have e : rk d3 y = (d3.rnk[y]?).getD 0 := rfl
    rw [e, hr]
    by_cases he : rk d A = rk d B
    · rw [if_pos he, List.getElem?_set]
      by_cases hy : y = A
      · subst hy
        simp [he, hAr]
      · have hy2 : ¬ A = y := fun e => hy e.symm
        rw [if_neg hy2, if_neg (fun c => hy c.2)]
        rfl
    · rw [if_neg he, if_neg (fun c => he c.1)]
      rfl
  have hge : ∀ y, rk d y ≤ rk d3 y := by
    intro y
    rw [hrk3]
    split
    · rename_i hc
      rw [hc.2]; omega
    · exact le_refl _
  have hwf : d3.WF n := by
    refine ⟨by rw [hp, List.length_set]; exact h.1, ?_, ?_⟩
    · rw [hr]
      split
      · rw [List.length_set]; exact h.2.1
      · exact h.2.1
    · intro y hy
      by_cases hyB : y = B
      · subst hyB
        refine ⟨A, by rw [hp, List.getElem?_set_eq_of_lt _ hBl], hA, ?_⟩
        intro _
        rw [hrk3, hrk3]
        have c1 : ¬ (rk d A = rk d y ∧ y = A) := fun c => hne c.2.symm
        rw [if_neg c1]
        by_cases he : rk d A = rk d y
        · rw [if_pos ⟨he, rfl⟩]; omega
        · have c2 : ¬ (rk d A = rk d y ∧ A = A) := fun c => he c.1
          rw [if_neg c2]; omega
      · refine ⟨par d y, ?_, h.par_lt hy, ?_⟩
        · rw [hp, List.getElem?_set_ne (fun e => hyB e.symm)]
          exact h.parent_eq hy
        · intro hny
          have hyA : y ≠ A := fun e => hny (by rw [e]; exact hrA)
          have c1 : ¬ (rk d A = rk d B ∧ y = A) := fun c => hyA c.2
          rw [hrk3 y, if_neg c1]
          exact lt_of_lt_of_le (h.rk_lt hy hny) (hge _)
  refine ⟨hwf, ?_, ?_⟩
  · have hA3 : root d3 A = A := by
      apply hwf.root_of_isRoot hA
      rw [hpar, if_neg hne]; exact hrA
    apply h.induction
    intro y hy ih
    by_cases hyB : y = B
    · subst hyB
      rw [hwf.root_unfold hy, hpar, if_pos rfl, if_neg hne, hA3, h.root_of_isRoot hy hrB,
        if_pos rfl]
    · rw [hwf.root_unfold hy, hpar, if_neg hyB]
      by_cases hry : par d y = y
      · rw [if_pos hry, h.root_of_isRoot hy hry, if_neg hyB]
      · rw [if_neg hry, ih hry, h.root_par hy]
  · unfold rootCount
    have hl3 : d3.parent.length = d.parent.length := by rw [hp, List.length_set]
    rw [hl3]
    have hmem : B ∈ (Finset.range d.parent.length).filter (fun x => par d x = x) := by
      simp only [Finset.mem_filter, Finset.mem_range]
      exact ⟨hBl, hrB⟩
    have heq : (Finset.range d.parent.length).filter (fun x => par d3 x = x)
        = ((Finset.range d.parent.length).filter (fun x => par d x = x)).erase B := by
      ext y
      simp only [Finset.mem_filter, Finset.mem_range, Finset.mem_erase]
      rw [hpar]
      by_cases hyB : y = B
      · subst hyB
        simp only [if_pos rfl, ne_eq, not_true_eq_false, false_and, iff_false, not_and]
        intro _ e
        exact hne e
      · simp [hyB]
    rw [heq, Finset.card_erase_of_mem hmem]
    have : 0 < ((Finset.range d.parent.length).filter (fun x => par d x = x)).card :=
      Finset.card_pos.2 ⟨B, hmem⟩
    omega

theorem root_merge_iff (X Y A B a2 b2 : Nat)
    (h : (a2 = A ∧ b2 = B) ∨ (a2 = B ∧ b2 = A)) :
    ((if X = b2 then a2 else X) = (if Y = b2 then a2 else Y)) ↔
      (X = Y ∨ (X = A ∧ B = Y) ∨ (X = B ∧ A = Y)) := by
  by_cases hx : X = b2
  · by_cases hy : Y = b2
    · rw [if_pos hx, if_pos hy]
      constructor
      · intro _; left; omega
      · intro _; rfl
    · rw [if_pos hx, if_neg hy]
      constructor
      · intro e; rcases h with ⟨h1, h2⟩ | ⟨h1, h2⟩ <;> omega
      · intro e; rcases h with ⟨h1, h2⟩ | ⟨h1, h2⟩ <;> omega
  · by_cases hy : Y = b2
    · rw [if_neg hx, if_pos hy]
      constructor
      · intro e; rcases h with ⟨h1, h2⟩ | ⟨h1, h2⟩ <;> omega
      · intro e; rcases h with ⟨h1, h2⟩ | ⟨h1, h2⟩ <;> omega
    · rw [if_neg hx, if_neg hy]
      constructor
      · intro e; left; exact e
      · intro e; rcases h with ⟨h1, h2⟩ | ⟨h1, h2⟩ <;> omega

/-- `unite(a, b)` completes; it returns `true` exactly when `a` and `b` had different
roots, and afterwards two elements have the same root exactly when they had before or were
joined through `a` and `b`; a `true` takes away exactly one root. -/
theorem unite_spec {n : Nat} (d : DSU) (h : d.WF n) (a b : Nat) (ha : a < n) (hb : b < n) :
    ∃ (d3 : DSU) (ok : Bool), d.unite (a : Int) (b : Int) = some (d3, ok) ∧ d3.WF n ∧
      (ok = true ↔ root d a ≠ root d b) ∧
      (∀ x y, x < n → y < n →
        (root d3 x = root d3 y ↔
          (root d x = root d y ∨ (root d x = root d a ∧ root d b = root d y) ∨
            (root d x = root d b ∧ root d a = root d y)))) ∧
      rootCount d3 + (if ok = true then 1 else 0) = rootCount d := by
  have hfa : lvl d a < d.parent.length + 1 := Nat.lt_succ_of_le (lvl_le d a)
  obtain ⟨d1, f1, w1, r1, q1, p1⟩ := find_spec (d.parent.length + 1) d a h ha hfa
  have hfb : lvl d1 b < d1.parent.length + 1 := Nat.lt_succ_of_le (lvl_le d1 b)
  obtain ⟨d2, f2, w2, r2, q2, p2⟩ := find_spec (d1.parent.length + 1) d1 b w1 hb hfb
  have hroot : ∀ y, y < n → root d2 y = root d y := fun y hy => by rw [q2 y hy, q1 y hy]
  have hisroot : ∀ y, y < n → (par d2 y = y ↔ par d y = y) :=
    fun y hy => by rw [p2 y hy, p1 y hy]
  have hcount : rootCount d2 = rootCount d :=
    rootCount_congr d d2 (by rw [w2.1, h.1]) (fun y hy => hisroot y (by rw [← h.1]; exact hy))
  obtain ⟨hAn, hArd⟩ := h.root_spec a ha
  obtain ⟨hBn, hBrd⟩ := h.root_spec b hb
  have hAr : par d2 (root d a) = root d a := (hisroot _ hAn).2 hArd
  have hBr : par d2 (root d b) = root d b := (hisroot _ hBn).2 hBrd
  unfold DSU.unite
  rw [f1]
  simp only [Option.bind_eq_bind, Option.some_bind]
  rw [f2, q1 b hb]
  simp only [Option.some_bind]
  by_cases hAB : root d a = root d b
  · have hc : ((root d a : Nat) : Int) = ((root d b : Nat) : Int) := by rw [hAB]
    rw [if_pos hc]
    refine ⟨d2, false, rfl, w2, ?_, ?_, ?_⟩
    · simp [hAB]
    · intro x y hx hy
      rw [hroot x hx, hroot y hy]
      constructor
      · intro e; exact Or.inl e
      · rintro (e | ⟨e1, e2⟩ | ⟨e1, e2⟩)
        · exact e
        · rw [e1, hAB, e2]
        · rw [e1, ← hAB, e2]
    · simp [hcount]
  · have hc : ¬ (((root d a : Nat) : Int) = ((root d b : Nat) : Int)) := by omega
    rw [if_neg hc, readAt_natCast, w2.rnk_eq hAn]
    simp only [Option.some_bind]
    rw [readAt_natCast, w2.rnk_eq hBn]
    simp only [Option.some_bind]
    by_cases hlt : rk d2 (root d a) < rk d2 (root d b)
    · -- the root of `a` goes below the root of `b`
      have hl : root d a < d2.parent.length := by rw [w2.1]; exact hAn
      have hl2 : root d b < d2.rnk.length := by rw [w2.2.1]; exact hBn
      simp only [hlt, if_true]
      rw [writeAt_natCast _ _ _ hl]
      simp only [Option.some_bind]
      rw [readAt_natCast, w2.rnk_eq hBn]
      simp only [Option.some_bind]
      rw [readAt_natCast, w2.rnk_eq hAn]
      simp only [Option.some_bind]
      have hrnk : ∃ l : List Int,
          (if rk d2 (root d b) = rk d2 (root d a)
            then writeAt d2.rnk ((root d b : Nat) : Int) (rk d2 (root d b) + 1)
            else pure d2.rnk) = some l ∧
          l = if rk d2 (root d b) = rk d2 (root d a)
            then d2.rnk.set (root d b) (rk d2 (root d b) + 1) else d2.rnk := by
        by_cases he : rk d2 (root d b) = rk d2 (root d a)
        · exact ⟨_, by rw [if_pos he, writeAt_natCast _ _ _ hl2], by rw [if_pos he]⟩
        · exact ⟨_, by rw [if_neg he]; rfl, by rw [if_neg he]⟩
      obtain ⟨l, hl3, hl4⟩ := hrnk
      rw [BoyerMooreCase1.ite_bind_out, hl3]
      simp only [Option.some_bind]
      obtain ⟨k1, k2, k3⟩ := link_spec d2 { parent := d2.parent.set (root d a) (root d b), rnk := l }
        w2 (root d b) (root d a) hBn hAn hBr hAr (fun e => hAB e.symm) (le_of_lt hlt) rfl hl4
      refine ⟨_, true, rfl, k1, by simp [hAB], ?_, by simp [k3, hcount]⟩
      intro x y hx hy
      rw [k2 x hx, k2 y hy, hroot x hx, hroot y hy]
      exact root_merge_iff _ _ _ _ _ _ (Or.inr ⟨rfl, rfl⟩)
    · have hl : root d b < d2.parent.length := by rw [w2.1]; exact hBn
      have hl2 : root d a < d2.rnk.length := by rw [w2.2.1]; exact hAn
      simp only [hlt, if_false]
      rw [writeAt_natCast _ _ _ hl]
      simp only [Option.some_bind]
      rw [readAt_natCast, w2.rnk_eq hAn]
      simp only [Option.some_bind]
      rw [readAt_natCast, w2.rnk_eq hBn]
      simp only [Option.some_bind]
      have hrnk : ∃ l : List Int,
          (if rk d2 (root d a) = rk d2 (root d b)
            then writeAt d2.rnk ((root d a : Nat) : Int) (rk d2 (root d a) + 1)
            else pure d2.rnk) = some l ∧
          l = if rk d2 (root d a) = rk d2 (root d b)
            then d2.rnk.set (root d a) (rk d2 (root d a) + 1) else d2.rnk := by
        by_cases he : rk d2 (root d a) = rk d2 (root d b)
        · exact ⟨_, by rw [if_pos he, writeAt_natCast _ _ _ hl2], by rw [if_pos he]⟩
        · exact ⟨_, by rw [if_neg he]; rfl, by rw [if_neg he]⟩
      obtain ⟨l, hl3, hl4⟩ := hrnk
      rw [BoyerMooreCase1.ite_bind_out, hl3]
      simp only [Option.some_bind]
      obtain ⟨k1, k2, k3⟩ := link_spec d2 { parent := d2.parent.set (root d b) (root d a), rnk := l }
        w2 (root d a) (root d b) hAn hBn hAr hBr hAB (not_lt.1 hlt) rfl hl4
      refine ⟨_, true, rfl, k1, by simp [hAB], ?_, by simp [k3, hcount]⟩
      intro x y hx hy
      rw [k2 x hx, k2 y hy, hroot x hx, hroot y hy]
      exact root_merge_iff _ _ _ _ _ _ (Or.inl ⟨rfl, rfl⟩)


/-! ## The loop of `computeMST` -/

theorem conn_nil {a b : Int} (h : Conn [] a b) : a = b := by
  induction h with
  | edge e he => exact absurd he (List.not_mem_nil e)
  | refl a => rfl
  | symm _ ih => exact ih.symm
  | trans _ _ ih1 ih2 => exact ih1.trans ih2

theorem init_fill (n : Nat) :
    ∀ t, t ≤ n →
      (List.range t).foldlM (fun p (i : Nat) => writeAt p (i : Int) (i : Int))
        (List.replicate n (0 : Int))
        = some ((List.range n).map (fun (i : Nat) => if i < t then (i : Int) else 0)) := by
  intro t
  induction t with
  | zero =>
    intro _
    simp only [List.range_zero, List.foldlM_nil, pure, Option.some.injEq]
    apply List.ext_getElem
    · simp
    · intro i h1 h2
      simp
  | succ t ih =>
    intro ht
    rw [List.range_succ, List.foldlM_append, ih (by omega)]
    have hl : t < ((List.range n).map (fun (i : Nat) => if i < t then (i : Int) else 0)).length := by
      simp; omega
    simp only [Option.bind_eq_bind, Option.some_bind, List.foldlM_cons, List.foldlM_nil,
      writeAt_natCast _ _ _ hl]
    simp only [pure, Option.some_bind, Option.some.injEq]
    apply List.ext_getElem
    · simp
    · intro i h1 h2
      simp only [List.length_map, List.length_range] at h2
      rw [List.getElem_set]
      simp only [List.getElem_map, List.getElem_range]
      by_cases hi : t = i
      · subst hi; simp
      · rw [if_neg hi]
        by_cases c : i < t
        · rw [if_pos c, if_pos (by omega)]
        · rw [if_neg c, if_neg (by omega)]

theorem new_spec (m : Nat) :
    DSU.new (m : Int) = some
      { parent := (List.range (m + 1)).map (fun (i : Nat) => (i : Int)),
        rnk := List.replicate (m + 1) 0 } := by
  unfold DSU.new DSU.init
  have hc : ¬ ((m : Int) + 1 < 0) := by omega
  have e : ((m : Int) + 1).toNat = m + 1 := by omega
  rw [if_neg hc, e]
  have hr : ∀ k : Nat, resize ([] : List Int) k 0 = List.replicate k 0 := by
    intro k; simp [resize]
  dsimp only
  rw [hr, init_fill (m + 1) (m + 1) (le_refl _)]
  simp only [Option.bind_eq_bind, Option.some_bind, pure, Option.some.injEq, DSU.mk.injEq,
    and_true]
  apply List.map_congr_left
  intro i hi
  rw [if_pos (List.mem_range.1 hi)]

theorem par_init (m x : Nat) (hx : x < m + 1) :
    par { parent := (List.range (m + 1)).map (fun (i : Nat) => (i : Int)),
          rnk := List.replicate (m + 1) 0 } x = x := by
  simp [par, List.getElem?_range hx]

theorem wf_init (m : Nat) :
    DSU.WF { parent := (List.range (m + 1)).map (fun (i : Nat) => (i : Int)),
             rnk := List.replicate (m + 1) 0 } (m + 1) := by
  refine ⟨by simp, by simp, ?_⟩
  intro x hx
  exact ⟨x, by simp [List.getElem?_range hx], hx, fun h => absurd rfl h⟩

theorem rootCount_init (m : Nat) :
    rootCount { parent := (List.range (m + 1)).map (fun (i : Nat) => (i : Int)),
                rnk := List.replicate (m + 1) 0 } = m + 1 := by
  unfold rootCount
  have hl : ((List.range (m + 1)).map (fun (i : Nat) => (i : Int))).length = m + 1 := by simp
  dsimp only
  rw [hl, Finset.filter_true_of_mem, Finset.card_range]
  intro x hx
  exact par_init m x (Finset.mem_range.1 hx)

/-- From a state whose classes are the connectivity classes of `res`, the loop completes
and adds to `res` the greedy choice over `res` from the remaining edges. -/
theorem mstLoop_spec {n : Nat} :
    ∀ (L : List Edge) (d : DSU) (res : List Edge), d.WF n →
      (∀ x y : Nat, x < n → y < n → (root d x = root d y ↔ Conn res (x : Int) (y : Int))) →
      (∀ e ∈ L, 0 ≤ e.u ∧ e.u < (n : Int) ∧ 0 ≤ e.v ∧ e.v < (n : Int)) →
      ∃ (d2 : DSU) (P : List Edge),
        WarehouseGraph.mstLoop d L res = some (d2, res ++ P) ∧ Greedy res L P ∧ d2.WF n ∧
        (∀ x y : Nat, x < n → y < n →
          (root d2 x = root d2 y ↔ Conn (res ++ P) (x : Int) (y : Int))) ∧
        rootCount d2 + P.length = rootCount d := by
  intro L
  induction L with
  | nil =>
    intro d res h hrep _
    exact ⟨d, [], by simp [WarehouseGraph.mstLoop], Greedy.nil res, h,
      by simpa using hrep, by simp⟩
  | cons e L ih =>
    intro d res h hrep hrange
    obtain ⟨hu0, hun, hv0, hvn⟩ := hrange e (List.mem_cons_self _ _)
    have hrange2 : ∀ f ∈ L, 0 ≤ f.u ∧ f.u < (n : Int) ∧ 0 ≤ f.v ∧ f.v < (n : Int) :=
      fun f hf => hrange f (List.mem_cons_of_mem _ hf)
    have eu : e.u = ((e.u.toNat : Nat) : Int) := by omega
    have ev : e.v = ((e.v.toNat : Nat) : Int) := by omega
    have ha : e.u.toNat < n := by omega
    have hb : e.v.toNat < n := by omega
    obtain ⟨d3, ok, k1, k2, k3, k4, k5⟩ := unite_spec d h e.u.toNat e.v.toNat ha hb
    rw [← eu, ← ev] at k1
    have hconn : root d e.u.toNat = root d e.v.toNat ↔ Conn res e.u e.v := by
      have := hrep e.u.toNat e.v.toNat ha hb
      rw [← eu, ← ev] at this
      exact this
    cases ok with
    | true =>
      have hne : ¬ Conn res e.u e.v := fun hc => (k3.1 rfl) (hconn.2 hc)
      have hrep3 : ∀ x y : Nat, x < n → y < n →
          (root d3 x = root d3 y ↔ Conn (res ++ [e]) (x : Int) (y : Int)) := by
        intro x y hx hy
        rw [k4 x y hx hy, conn_snoc_iff, hrep x y hx hy, hrep x _ hx ha, hrep _ y hb hy,
          hrep x _ hx hb, hrep _ y ha hy, ← eu, ← ev]
      obtain ⟨d2, P, g1, g2, g3, g4, g5⟩ := ih d3 (res ++ [e]) k2 hrep3 hrange2
      refine ⟨d2, e :: P, ?_, Greedy.take hne g2, g3, ?_, ?_⟩
      · unfold WarehouseGraph.mstLoop
        rw [k1]
        simp only [Option.bind_eq_bind, Option.some_bind, if_true]
        rw [g1]
        simp
      · intro x y hx hy
        rw [g4 x y hx hy]
        simp
      · simp only [if_true] at k5
        rw [List.length_cons]
        omega
    | false =>
      have hc : Conn res e.u e.v := by
        apply hconn.1
        by_contra hne
        exact absurd (k3.2 hne) (by simp)
      have hrep3 : ∀ x y : Nat, x < n → y < n →
          (root d3 x = root d3 y ↔ Conn res (x : Int) (y : Int)) := by
        intro x y hx hy
        rw [k4 x y hx hy, hrep x y hx hy, hrep x _ hx ha, hrep _ y hb hy,
          hrep x _ hx hb, hrep _ y ha hy, ← eu, ← ev]
        constructor
        · rintro (c | ⟨c1, c2⟩ | ⟨c1, c2⟩)
          · exact c
          · exact Conn.trans c1 (Conn.trans hc c2)
          · exact Conn.trans c1 (Conn.trans (Conn.symm hc) c2)
        · intro c; exact Or.inl c
      obtain ⟨d2, P, g1, g2, g3, g4, g5⟩ := ih d3 res k2 hrep3 hrange2
      refine ⟨d2, P, ?_, Greedy.skip hc g2, g3, g4, ?_⟩
      · unfold WarehouseGraph.mstLoop
        rw [k1]
        simp only [Option.bind_eq_bind, Option.some_bind, Bool.false_eq_true, if_false]
        exact g1
      · simp only [Bool.false_eq_true, if_false] at k5
        omega


/-! ## Claims on `WarehouseGraph::computeMST` -/

theorem computeMST_spec (m : Nat) (edges sorted : List Edge)
    (hrange : ∀ e ∈ edges, 0 ≤ e.u ∧ e.u ≤ (m : Int) ∧ 0 ≤ e.v ∧ e.v ≤ (m : Int))
    (hs : SortOutcome edges sorted) :
    ∃ (res : List Edge) (d2 : DSU),
      WarehouseGraph.computeMST { N := (m : Int), edges := edges } sorted
        = some ({ N := (m : Int), edges := sorted }, res) ∧
      Greedy [] sorted res ∧ d2.WF (m + 1) ∧
      (∀ x y : Nat, x < m + 1 → y < m + 1 →
        (root d2 x = root d2 y ↔ Conn res (x : Int) (y : Int))) ∧
      rootCount d2 + res.length = m + 1 := by
  have hrange2 : ∀ e ∈ sorted,
      0 ≤ e.u ∧ e.u < ((m + 1 : Nat) : Int) ∧ 0 ≤ e.v ∧ e.v < ((m + 1 : Nat) : Int) := by
    intro e he
    have := hrange e (hs.1.subset he)
    omega
  have hrep0 : ∀ x y : Nat, x < m + 1 → y < m + 1 →
      (root { parent := (List.range (m + 1)).map (fun (i : Nat) => (i : Int)),
              rnk := List.replicate (m + 1) 0 } x
        = root { parent := (List.range (m + 1)).map (fun (i : Nat) => (i : Int)),
                 rnk := List.replicate (m + 1) 0 } y
        ↔ Conn [] (x : Int) (y : Int)) := by
    intro x y hx hy
    rw [(wf_init m).root_of_isRoot hx (par_init m x hx),
      (wf_init m).root_of_isRoot hy (par_init m y hy)]
    constructor
    · intro e; rw [e]; exact Conn.refl _
    · intro c
      have := conn_nil c
      omega
  obtain ⟨d2, P, g1, g2, g3, g4, g5⟩ := mstLoop_spec sorted _ [] (wf_init m) hrep0 hrange2
  rw [List.nil_append] at g1 g4
  refine ⟨P, d2, ?_, g2, g3, g4, ?_⟩
  · unfold WarehouseGraph.computeMST
    dsimp only
    rw [new_spec m]
    simp only [Option.bind_eq_bind, Option.some_bind, g1]
    rfl
  · rw [g5, rootCount_init]

/-- What the greedy choice from the sorted edges has: it is a cycle-free sub-list with the
connectivity of the input, of least weight among the cycle-free sub-multisets of the input
with that connectivity, and among all of them when no weight is negative. -/
theorem greedy_minimum (edges sorted res : List Edge) (hs : SortOutcome edges sorted)
    (hg : Greedy [] sorted res) :
    res.Sublist sorted ∧ res.Subperm edges ∧ Acyclic res ∧
    (∀ a b, Conn res a b ↔ Conn edges a b) ∧
    (∀ F : List Edge, F.Subperm edges → Acyclic F → (∀ a b, Conn F a b ↔ Conn edges a b) →
      weight res ≤ weight F) ∧
    ((∀ e ∈ edges, 0 ≤ e.w) →
      ∀ F : List Edge, F.Subperm edges → (∀ a b, Conn F a b ↔ Conn edges a b) →
        weight res ≤ weight F) := by
  have hsub := hg.sublist
  have hsp : res.Subperm edges := (List.Perm.subperm_left hs.1).1 hsub.subperm
  have hconn : ∀ a b, Conn res a b ↔ Conn edges a b := by
    intro a b
    constructor
    · exact Conn.mono (fun e he => hsp.subset he)
    · intro h
      induction h with
      | edge e he =>
        have := hg.spans e (hs.1.symm.subset he)
        rw [List.nil_append] at this
        exact this
      | refl a => exact Conn.refl a
      | symm _ ih => exact Conn.symm ih
      | trans _ _ ih1 ih2 => exact Conn.trans ih1 ih2
  have hopt : ∀ F : List Edge, F.Subperm edges → Acyclic F →
      (∀ a b, Conn F a b ↔ Conn edges a b) → weight res ≤ weight F := by
    intro F hF hac hFc
    apply hg.optimal hs.2 F ((List.Perm.subperm_left hs.1.symm).1 hF) (acyclic_forestOver F hac)
    intro e he
    rw [List.nil_append]
    exact (hFc _ _).2 (Conn.edge e (hs.1.subset he))
  refine ⟨hsub, hsp, forestOver_acyclic hg.forestOver, hconn, hopt, ?_⟩
  intro hnn F hF hFc
  obtain ⟨F2, k1, k2, k3⟩ := exists_spanning_forest F
  have h1 := hopt F2 (List.Subperm.trans k1.subperm hF) (forestOver_acyclic k2)
    (fun a b => by rw [← k3 a b]; exact hFc a b)
  have h2 := weight_sublist_le k1 (fun e he => hnn e (hF.subset he))
  exact le_trans h1 h2

/-- When one class holds every element, there is exactly one root. -/
theorem rootCount_eq_one {n : Nat} (d : DSU) (h : d.WF n) (hn : 0 < n)
    (hall : ∀ x y, x < n → y < n → root d x = root d y) : rootCount d = 1 := by
  unfold rootCount
  rw [h.1]
  obtain ⟨hr1, hr2⟩ := h.root_spec 0 hn
  have : (Finset.range n).filter (fun x => par d x = x) = {root d 0} := by
    ext y
    simp only [Finset.mem_filter, Finset.mem_range, Finset.mem_singleton]
    constructor
    · rintro ⟨hy, hp⟩
      rw [← h.root_of_isRoot hy hp]
      exact hall y 0 hy hn
    · intro e
      rw [e]
      exact ⟨hr1, hr2⟩
  rw [this, Finset.card_singleton]

/-- Counterexample to C18: on the triangle with all weights `-1`, `computeMST` returns two
edges of total weight `-2`, while the whole edge list, which has the same connectivity,
weighs `-3`. -/
theorem triangle_not_minimum_among_all_subsets :
    SortOutcome triangle triangle ∧
    (WarehouseGraph.computeMST { N := 2, edges := triangle } triangle).map (·.2)
      = some (triangle.take 2) ∧
    ¬ (∀ F : List Edge, F.Subperm triangle → (∀ a b, Conn F a b ↔ Conn triangle a b) →
        weight (triangle.take 2) ≤ weight F) := by
  refine ⟨⟨List.Perm.refl _, by decide⟩, by decide, ?_⟩
  intro h
  have h1 := h triangle (List.Subperm.refl _) (fun _ _ => Iff.rfl)
  simp only [weight, triangle, List.take, List.map, List.sum_cons, List.sum_nil] at h1
  norm_num at h1

/-- Claim C18, amended. For every vertex count `N ≥ 0`, every edge list whose endpoints lie
in `0..N` and every outcome of `std::sort`, `computeMST` completes and returns a sub-list of
the sorted edges, so a sub-multiset of the input edges, that contains no cycle and connects
exactly the pairs of vertices that the input edges connect; it has exactly `N` edges when
the input connects all the `N + 1` vertices `0..N`; its total weight is minimum among all
cycle-free edge subsets with that connectivity, and among all edge subsets with that
connectivity when no weight is negative. -/
theorem computeMST_minimum_spanning_forest (m : Nat) (edges sorted : List Edge)
    (hrange : ∀ e ∈ edges, 0 ≤ e.u ∧ e.u ≤ (m : Int) ∧ 0 ≤ e.v ∧ e.v ≤ (m : Int))
    (hs : SortOutcome edges sorted) :
    ∃ res : List Edge,
      WarehouseGraph.computeMST { N := (m : Int), edges := edges } sorted
        = some ({ N := (m : Int), edges := sorted }, res) ∧
      res.Sublist sorted ∧ res.Subperm edges ∧ Acyclic res ∧
      (∀ a b, Conn res a b ↔ Conn edges a b) ∧
      ((∀ a b : Nat, a ≤ m → b ≤ m → Conn edges (a : Int) (b : Int)) → res.length = m) ∧
      (∀ F : List Edge, F.Subperm edges → Acyclic F → (∀ a b, Conn F a b ↔ Conn edges a b) →
        weight res ≤ weight F) ∧
      ((∀ e ∈ edges, 0 ≤ e.w) →
        ∀ F : List Edge, F.Subperm edges → (∀ a b, Conn F a b ↔ Conn edges a b) →
          weight res ≤ weight F) := by
  obtain ⟨res, d2, h1, h2, h3, h4, h5⟩ := computeMST_spec m edges sorted hrange hs
  obtain ⟨g1, g2, g3, g4, g5, g6⟩ := greedy_minimum edges sorted res hs h2
  refine ⟨res, h1, g1, g2, g3, g4, ?_, g5, g6⟩
  intro hall
  have hone : rootCount d2 = 1 := by
    apply rootCount_eq_one d2 h3 (by omega)
    intro x y hx hy
    rw [h4 x y hx hy, g4]
    exact hall x y (by omega) (by omega)
  omega

/-- Witness for C18: the vertices 0..3 and the five edges of `square`, which connect all
four vertices; the three edges of weight 1, 2 and 3 are returned. -/
theorem computeMST_minimum_spanning_forest_witness :
    (∀ e ∈ square, 0 ≤ e.u ∧ e.u ≤ ((3 : Nat) : Int) ∧ 0 ≤ e.v ∧ e.v ≤ ((3 : Nat) : Int)) ∧
    SortOutcome square squareSorted ∧
    (∃ res : List Edge,
      WarehouseGraph.computeMST { N := ((3 : Nat) : Int), edges := square } squareSorted
        = some ({ N := ((3 : Nat) : Int), edges := squareSorted }, res) ∧
      res.Sublist squareSorted ∧ res.Subperm square ∧ Acyclic res ∧
      (∀ a b, Conn res a b ↔ Conn square a b) ∧
      ((∀ a b : Nat, a ≤ 3 → b ≤ 3 → Conn square (a : Int) (b : Int)) → res.length = 3) ∧
      (∀ F : List Edge, F.Subperm square → Acyclic F → (∀ a b, Conn F a b ↔ Conn square a b) →
        weight res ≤ weight F) ∧
      ((∀ e ∈ square, 0 ≤ e.w) →
        ∀ F : List Edge, F.Subperm square → (∀ a b, Conn F a b ↔ Conn square a b) →
          weight res ≤ weight F)) ∧
    (WarehouseGraph.computeMST { N := 3, edges := square } squareSorted).map (·.2)
      = some (squareSorted.take 3) :=
  ⟨by decide, ⟨by decide, by decide⟩,
   computeMST_minimum_spanning_forest 3 square squareSorted (by decide) ⟨by decide, by decide⟩,
   by decide⟩


end KruskalCase6

namespace BstAssetLifecycleCase3

/-! ## The order on dates and keys -/

theorem date_eq_iff (a b : Date) : a = b ↔ a.y = b.y ∧ a.m = b.m ∧ a.d = b.d := by
  cases a; cases b; simp

theorem Date.lt_iff (a b : Date) : a.lt b = true ↔ DateLt a b := by
  unfold Date.lt DateLt
  split_ifs with h1 h2
  · simp only [decide_eq_true_eq]; omega
  · simp only [decide_eq_true_eq]; omega
  · simp only [decide_eq_true_eq]; omega

theorem Date.gt_iff (a b : Date) : a.gt b = true ↔ DateLt b a := by
  unfold Date.gt DateLt
  split_ifs with h1 h2
  · simp only [decide_eq_true_eq]; omega
  · simp only [decide_eq_true_eq]; omega
  · simp only [decide_eq_true_eq]; omega

theorem Date.eq_iff (a b : Date) : a.eq b = true ↔ a = b := by
  unfold Date.eq
  rw [date_eq_iff]
  simp only [Bool.and_eq_true, decide_eq_true_eq, and_assoc]

theorem dateLt_irrefl (a : Date) : ¬ DateLt a a := by
  unfold DateLt; omega

theorem dateLt_trans (a b c : Date) (h1 : DateLt a b) (h2 : DateLt b c) : DateLt a c := by
  unfold DateLt at *; omega

theorem dateLt_trichotomy (a b : Date) : DateLt a b ∨ a = b ∨ DateLt b a := by
  rw [date_eq_iff]; unfold DateLt; omega

theorem dateLt_asymm (a b : Date) (h : DateLt a b) : ¬ DateLt b a := by
  unfold DateLt at *; omega

theorem keyLt_trans (a b c : Device) (h1 : KeyLt a b) (h2 : KeyLt b c) : KeyLt a c := by
  simp only [KeyLt, DateLt, date_eq_iff] at *; omega

theorem keyLt_of_lt_of_le (a b c : Device) (h1 : KeyLt a b) (h2 : KeyLe b c) : KeyLt a c := by
  simp only [KeyLe, KeyLt, DateLt, date_eq_iff] at *; omega

theorem keyLe_trans (a b c : Device) (h1 : KeyLe a b) (h2 : KeyLe b c) : KeyLe a c := by
  simp only [KeyLe, KeyLt, DateLt, date_eq_iff] at *; omega

theorem keyLe_refl (a : Device) : KeyLe a a := Or.inr ⟨rfl, rfl⟩

theorem not_keyLt_iff (a b : Device) : ¬ KeyLt a b ↔ KeyLe b a := by
  simp only [KeyLe, KeyLt, DateLt, date_eq_iff]; omega

theorem keyLt_irrefl (a : Device) : ¬ KeyLt a a := by
  simp only [KeyLt, DateLt, date_eq_iff]; omega

theorem keyLt_expiry_le (a b : Device) (h : KeyLe a b) : ¬ DateLt b.expiry a.expiry := by
  simp only [KeyLe, KeyLt, DateLt, date_eq_iff] at *; omega

/-! ## The branch taken at a node -/

theorem cmp_left (e : Date) (id : Int) (dev : Device)
    (h : DateLt e dev.expiry ∨ (e = dev.expiry ∧ id < dev.deviceId)) :
    e.lt dev.expiry = true ∨
      (e.lt dev.expiry = false ∧ e.gt dev.expiry = false ∧ id < dev.deviceId) := by
  rcases h with h | ⟨h1, h2⟩
  · exact Or.inl ((Date.lt_iff _ _).2 h)
  · right
    refine ⟨?_, ?_, h2⟩
    · rw [Bool.eq_false_iff]; intro hc
      rw [Date.lt_iff, h1] at hc
      exact dateLt_irrefl _ hc
    · rw [Bool.eq_false_iff]; intro hc
      rw [Date.gt_iff, h1] at hc
      exact dateLt_irrefl _ hc

theorem cmp_right (e : Date) (id : Int) (dev : Device)
    (h : DateLt dev.expiry e ∨ (e = dev.expiry ∧ dev.deviceId < id)) :
    (e.lt dev.expiry = false ∧ e.gt dev.expiry = true) ∨
      (e.lt dev.expiry = false ∧ e.gt dev.expiry = false ∧ ¬ id < dev.deviceId ∧
        id > dev.deviceId) := by
  rcases h with h | ⟨h1, h2⟩
  · left
    refine ⟨?_, (Date.gt_iff _ _).2 h⟩
    rw [Bool.eq_false_iff]; intro hc
    rw [Date.lt_iff] at hc
    exact dateLt_asymm _ _ h hc
  · right
    refine ⟨?_, ?_, by omega, h2⟩
    · rw [Bool.eq_false_iff]; intro hc
      rw [Date.lt_iff, h1] at hc
      exact dateLt_irrefl _ hc
    · rw [Bool.eq_false_iff]; intro hc
      rw [Date.gt_iff, h1] at hc
      exact dateLt_irrefl _ hc

theorem cmp_eq (e : Date) (id : Int) (dev : Device) (h1 : e = dev.expiry)
    (h2 : id = dev.deviceId) :
    e.lt dev.expiry = false ∧ e.gt dev.expiry = false ∧ ¬ id < dev.deviceId ∧
      ¬ id > dev.deviceId := by
  refine ⟨?_, ?_, by omega, by omega⟩
  · rw [Bool.eq_false_iff]; intro hc
    rw [Date.lt_iff, h1] at hc
    exact dateLt_irrefl _ hc
  · rw [Bool.eq_false_iff]; intro hc
    rw [Date.gt_iff, h1] at hc
    exact dateLt_irrefl _ hc

theorem key_trichotomy (e : Date) (id : Int) (dev : Device) :
    (DateLt e dev.expiry ∨ (e = dev.expiry ∧ id < dev.deviceId)) ∨
    (e = dev.expiry ∧ id = dev.deviceId) ∨
    (DateLt dev.expiry e ∨ (e = dev.expiry ∧ dev.deviceId < id)) := by
  rcases dateLt_trichotomy e dev.expiry with h | h | h
  · exact Or.inl (Or.inl h)
  · rcases lt_trichotomy id dev.deviceId with g | g | g
    · exact Or.inl (Or.inr ⟨h, g⟩)
    · exact Or.inr (Or.inl ⟨h, g⟩)
    · exact Or.inr (Or.inr (Or.inr ⟨h, g⟩))
  · exact Or.inr (Or.inr (Or.inl h))

theorem insertRec_left (dev d : Device) (l r : Node) (h : KeyLt d dev) :
    insertRec (.mk dev l r) d = .mk dev (insertRec l d) r := by
  rcases cmp_left d.expiry d.deviceId dev h with h1 | ⟨h1, h2, h3⟩
  · simp [insertRec, h1]
  · simp [insertRec, h1, h2, h3]

theorem insertRec_right (dev d : Device) (l r : Node) (h : KeyLe dev d) :
    insertRec (.mk dev l r) d = .mk dev l (insertRec r d) := by
  rcases key_trichotomy d.expiry d.deviceId dev with g | ⟨g1, g2⟩ | g
  · exact absurd g ((not_keyLt_iff _ _).2 h)
  · obtain ⟨h1, h2, h3, _⟩ := cmp_eq _ _ dev g1 g2
    simp [insertRec, h1, h2, h3]
  · rcases cmp_right _ _ dev g with ⟨h1, h2⟩ | ⟨h1, h2, h3, _⟩
    · simp [insertRec, h1, h2]
    · simp [insertRec, h1, h2, h3]

theorem removeRec_left (dev : Device) (l r : Node) (e : Date) (id : Int)
    (h : DateLt e dev.expiry ∨ (e = dev.expiry ∧ id < dev.deviceId)) :
    removeRec (.mk dev l r) e id = .mk dev (removeRec l e id) r := by
  rcases cmp_left e id dev h with h1 | ⟨h1, h2, h3⟩
  · cases l <;> cases r <;> simp [removeRec, h1]
  · cases l <;> cases r <;> simp [removeRec, h1, h2, h3]

theorem removeRec_right (dev : Device) (l r : Node) (e : Date) (id : Int)
    (h : DateLt dev.expiry e ∨ (e = dev.expiry ∧ dev.deviceId < id)) :
    removeRec (.mk dev l r) e id = .mk dev l (removeRec r e id) := by
  rcases cmp_right e id dev h with ⟨h1, h2⟩ | ⟨h1, h2, h3, h4⟩
  · cases l <;> cases r <;> simp [removeRec, h1, h2]
  · cases l <;> cases r <;> simp [removeRec, h1, h2, h3, h4]

theorem removeRec_here (dev : Device) (l r : Node) (e : Date) (id : Int)
    (g1 : e = dev.expiry) (g2 : id = dev.deviceId) :
    removeRec (.mk dev l r) e id =
      match l, r with
      | .null, r => r
      | .mk ld ll lr, .null => .mk ld ll lr
      | .mk ld ll lr, .mk rd rl rr =>
        .mk (leftmost rd rl) (.mk ld ll lr)
          (removeRec (.mk rd rl rr) (leftmost rd rl).expiry (leftmost rd rl).deviceId) := by
  obtain ⟨h1, h2, h3, h4⟩ := cmp_eq e id dev g1 g2
  cases l <;> cases r <;> simp [removeRec, h1, h2, h3, h4]

theorem containsRec_left (dev : Device) (l r : Node) (e : Date) (id : Int)
    (h : DateLt e dev.expiry ∨ (e = dev.expiry ∧ id < dev.deviceId)) :
    containsRec (.mk dev l r) e id = containsRec l e id := by
  rcases cmp_left e id dev h with h1 | ⟨h1, h2, h3⟩
  · simp [containsRec, h1]
  · simp [containsRec, h1, h2, h3]

theorem containsRec_right (dev : Device) (l r : Node) (e : Date) (id : Int)
    (h : DateLt dev.expiry e ∨ (e = dev.expiry ∧ dev.deviceId < id)) :
    containsRec (.mk dev l r) e id = containsRec r e id := by
  rcases cmp_right e id dev h with ⟨h1, h2⟩ | ⟨h1, h2, h3, h4⟩
  · simp [containsRec, h1, h2]
  · simp [containsRec, h1, h2, h3, h4]

theorem containsRec_here (dev : Device) (l r : Node) (e : Date) (id : Int)
    (g1 : e = dev.expiry) (g2 : id = dev.deviceId) :
    containsRec (.mk dev l r) e id = true := by
  obtain ⟨h1, h2, h3, h4⟩ := cmp_eq e id dev g1 g2
  simp [containsRec, h1, h2, h3, h4]

/-! ## Insertion, removal and the ordering -/

theorem hasKey_iff (e : Date) (id : Int) (x : Device) :
    hasKey e id x = true ↔ x.expiry = e ∧ x.deviceId = id := by
  unfold hasKey; simp only [decide_eq_true_eq]

theorem mem_inorder_insertRec (d x : Device) :
    ∀ t : Node, x ∈ inorder (insertRec t d) ↔ x = d ∨ x ∈ inorder t := by
  intro t
  induction t with
  | null => simp [insertRec, inorder]
  | mk dev l r ihl ihr =>
    by_cases h : KeyLt d dev
    · rw [insertRec_left dev d l r h]
      simp only [inorder, List.mem_append, List.mem_cons, ihl]
      tauto
    · rw [insertRec_right dev d l r ((not_keyLt_iff _ _).1 h)]
      simp only [inorder, List.mem_append, List.mem_cons, ihr]
      tauto

theorem ordered_insertRec (d : Device) : ∀ t : Node, Ordered t → Ordered (insertRec t d) := by
  intro t
  induction t with
  | null =>
    intro _
    simp [insertRec, Ordered, inorder]
  | mk dev l r ihl ihr =>
    intro ho
    obtain ⟨hl, hr, ol, or⟩ := ho
    by_cases h : KeyLt d dev
    · rw [insertRec_left dev d l r h]
      refine ⟨?_, hr, ihl ol, or⟩
      intro x hx
      rcases (mem_inorder_insertRec d x l).1 hx with hx | hx
      · rw [hx]; exact h
      · exact hl x hx
    · have h2 := (not_keyLt_iff _ _).1 h
      rw [insertRec_right dev d l r h2]
      refine ⟨hl, ?_, ol, ihr or⟩
      intro x hx
      rcases (mem_inorder_insertRec d x r).1 hx with hx | hx
      · rw [hx]; exact h2
      · exact hr x hx

theorem inorder_pairwise : ∀ t : Node, Ordered t → (inorder t).Pairwise KeyLe := by
  intro t
  induction t with
  | null => intro _; exact List.Pairwise.nil
  | mk dev l r ihl ihr =>
    intro ho
    obtain ⟨hl, hr, ol, or⟩ := ho
    show (inorder l ++ dev :: inorder r).Pairwise KeyLe
    rw [List.pairwise_append, List.pairwise_cons]
    refine ⟨ihl ol, ⟨hr, ihr or⟩, ?_⟩
    intro a ha b hb
    rcases List.mem_cons.1 hb with hb | hb
    · rw [hb]; exact Or.inl (hl a ha)
    · exact Or.inl (keyLt_of_lt_of_le a dev b (hl a ha) (hr b hb))

theorem inorder_leftmost : ∀ (l : Node) (d : Device) (r : Node),
    ∃ rest, inorder (.mk d l r) = leftmost d l :: rest := by
  intro l
  induction l with
  | null => intro d r; exact ⟨inorder r, rfl⟩
  | mk ld ll lr ihl _ =>
    intro d r
    obtain ⟨rest, h⟩ := ihl ld lr
    refine ⟨rest ++ d :: inorder r, ?_⟩
    show inorder (.mk ld ll lr) ++ d :: inorder r = leftmost ld ll :: (rest ++ d :: inorder r)
    rw [h]
    rfl

theorem leftmost_le (d : Device) (l r : Node) (ho : Ordered (.mk d l r)) :
    leftmost d l ∈ inorder (.mk d l r) ∧
      ∀ x ∈ inorder (.mk d l r), KeyLe (leftmost d l) x := by
  obtain ⟨rest, h⟩ := inorder_leftmost l d r
  have hp := inorder_pairwise _ ho
  rw [h] at hp ⊢
  refine ⟨List.mem_cons_self _ _, ?_⟩
  intro x hx
  rcases List.mem_cons.1 hx with hx | hx
  · rw [hx]; exact keyLe_refl _
  · exact (List.pairwise_cons.1 hp).1 x hx

theorem no_key_of_below (e : Date) (id : Int) (dev x : Device)
    (h : DateLt e dev.expiry ∨ (e = dev.expiry ∧ id < dev.deviceId)) (hx : KeyLe dev x) :
    ¬ hasKey e id x = true := by
  rw [hasKey_iff]
  simp only [KeyLe, KeyLt, DateLt, date_eq_iff] at *
  omega

theorem no_key_of_above (e : Date) (id : Int) (dev x : Device)
    (h : DateLt dev.expiry e ∨ (e = dev.expiry ∧ dev.deviceId < id)) (hx : KeyLe x dev) :
    ¬ hasKey e id x = true := by
  rw [hasKey_iff]
  simp only [KeyLe, KeyLt, DateLt, date_eq_iff] at *
  omega

theorem no_key_of_keyLt (dev x : Device) (hx : KeyLt x dev) :
    ¬ hasKey dev.expiry dev.deviceId x = true := by
  rw [hasKey_iff]
  simp only [KeyLt, DateLt, date_eq_iff] at *
  omega

/-- Under the ordering, `removeRec` erases from the in-order sequence the first device that
has the key, and nothing else. -/
theorem inorder_removeRec : ∀ (t : Node) (e : Date) (id : Int), Ordered t →
    inorder (removeRec t e id) = (inorder t).eraseP (hasKey e id) := by
  intro t
  induction t with
  | null => intro e id _; rfl
  | mk dev l r ihl ihr =>
    intro e id ho
    obtain ⟨hl, hr, ol, or⟩ := ho
    have hmk : inorder (.mk dev l r) = inorder l ++ dev :: inorder r := rfl
    rcases key_trichotomy e id dev with g | ⟨g1, g2⟩ | g
    · rw [removeRec_left dev l r e id g, hmk]
      show inorder (removeRec l e id) ++ dev :: inorder r = _
      rw [ihl e id ol]
      by_cases hex : ∃ x ∈ inorder l, hasKey e id x = true
      · obtain ⟨x, hx, hk⟩ := hex
        rw [List.eraseP_append_left hk _ hx]
      · have hno : ∀ b ∈ inorder l, ¬ hasKey e id b = true := fun b hb hk => hex ⟨b, hb, hk⟩
        rw [List.eraseP_append_right _ hno, List.eraseP_of_forall_not hno,
          List.eraseP_of_forall_not]
        intro b hb
        rcases List.mem_cons.1 hb with hb | hb
        · rw [hb]; exact no_key_of_below e id dev dev g (keyLe_refl _)
        · exact no_key_of_below e id dev b g (hr b hb)
    · have hno : ∀ b ∈ inorder l, ¬ hasKey e id b = true := by
        intro b hb
        rw [g1, g2]
        exact no_key_of_keyLt dev b (hl b hb)
      have hdev : hasKey e id dev = true := (hasKey_iff e id dev).2 ⟨g1.symm, g2.symm⟩
      rw [hmk, List.eraseP_append_right _ hno, List.eraseP_cons_of_pos hdev,
        removeRec_here dev l r e id g1 g2]
      cases l with
      | null => cases r <;> rfl
      | mk ld ll lr =>
        cases r with
        | null => simp [inorder]
        | mk rd rl rr =>
          show inorder (.mk ld ll lr) ++ leftmost rd rl ::
              inorder (removeRec (.mk rd rl rr) (leftmost rd rl).expiry (leftmost rd rl).deviceId)
            = inorder (.mk ld ll lr) ++ inorder (.mk rd rl rr)
          rw [ihr _ _ or]
          obtain ⟨rest, hrest⟩ := inorder_leftmost rl rd rr
          rw [hrest, List.eraseP_cons_of_pos ((hasKey_iff _ _ _).2 ⟨rfl, rfl⟩)]
    · have hno : ∀ b ∈ inorder l, ¬ hasKey e id b = true :=
        fun b hb => no_key_of_above e id dev b g (Or.inl (hl b hb))
      rw [removeRec_right dev l r e id g, hmk, List.eraseP_append_right _ hno,
        List.eraseP_cons_of_neg (no_key_of_above e id dev dev g (keyLe_refl _))]
      show inorder l ++ dev :: inorder (removeRec r e id) = _
      rw [ihr e id or]

theorem ordered_removeRec : ∀ (t : Node) (e : Date) (id : Int), Ordered t →
    Ordered (removeRec t e id) := by
  intro t
  induction t with
  | null => intro e id _; trivial
  | mk dev l r ihl ihr =>
    intro e id ho
    have ho2 := ho
    obtain ⟨hl, hr, ol, or⟩ := ho
    rcases key_trichotomy e id dev with g | ⟨g1, g2⟩ | g
    · rw [removeRec_left dev l r e id g]
      refine ⟨?_, hr, ihl e id ol, or⟩
      intro x hx
      rw [inorder_removeRec l e id ol] at hx
      exact hl x (List.mem_of_mem_eraseP hx)
    · rw [removeRec_here dev l r e id g1 g2]
      cases l with
      | null => cases r <;> exact or
      | mk ld ll lr =>
        cases r with
        | null => exact ol
        | mk rd rl rr =>
          obtain ⟨hmem, hmin⟩ := leftmost_le rd rl rr or
          refine ⟨?_, ?_, ol, ihr _ _ or⟩
          · intro x hx
            exact keyLt_of_lt_of_le x dev _ (hl x hx) (hr _ hmem)
          · intro x hx
            rw [inorder_removeRec _ _ _ or] at hx
            exact hmin x (List.mem_of_mem_eraseP hx)
    · rw [removeRec_right dev l r e id g]
      refine ⟨hl, ?_, ol, ihr e id or⟩
      intro x hx
      rw [inorder_removeRec r e id or] at hx
      exact hr x (List.mem_of_mem_eraseP hx)

theorem ordered_run (ops : List Op) : Ordered (DeviceBST.run ops).root := by
  have key : ∀ (ops : List Op) (t : DeviceBST), Ordered t.root →
      Ordered (ops.foldl DeviceBST.apply t).root := by
    intro ops
    induction ops with
    | nil => intro t h; exact h
    | cons op rest ih =>
      intro t h
      apply ih
      cases op with
      | insert d => exact ordered_insertRec d t.root h
      | remove e id => exact ordered_removeRec t.root e id h
  exact key ops DeviceBST.new trivial

theorem removeRec_of_no_key (e : Date) (id : Int) : ∀ t : Node,
    (∀ x ∈ inorder t, ¬ hasKey e id x = true) → removeRec t e id = t := by
  intro t
  induction t with
  | null => intro _; rfl
  | mk dev l r ihl ihr =>
    intro h
    have hmem : ∀ x, x ∈ inorder (.mk dev l r) ↔ x ∈ inorder l ∨ x = dev ∨ x ∈ inorder r := by
      intro x
      simp only [inorder, List.mem_append, List.mem_cons]
    rcases key_trichotomy e id dev with g | ⟨g1, g2⟩ | g
    · rw [removeRec_left dev l r e id g, ihl (fun x hx => h x ((hmem x).2 (Or.inl hx)))]
    · exact absurd ((hasKey_iff e id dev).2 ⟨g1.symm, g2.symm⟩)
        (h dev ((hmem dev).2 (Or.inr (Or.inl rfl))))
    · rw [removeRec_right dev l r e id g,
        ihr (fun x hx => h x ((hmem x).2 (Or.inr (Or.inr hx))))]

theorem containsRec_iff : ∀ (t : Node) (e : Date) (id : Int), Ordered t →
    (containsRec t e id = true ↔ ∃ x ∈ inorder t, hasKey e id x = true) := by
  intro t
  induction t with
  | null => intro e id _; simp [containsRec, inorder]
  | mk dev l r ihl ihr =>
    intro e id ho
    obtain ⟨hl, hr, ol, or⟩ := ho
    have hmem : ∀ x, x ∈ inorder (.mk dev l r) ↔ x ∈ inorder l ∨ x = dev ∨ x ∈ inorder r := by
      intro x
      simp only [inorder, List.mem_append, List.mem_cons]
    rcases key_trichotomy e id dev with g | ⟨g1, g2⟩ | g
    · rw [containsRec_left dev l r e id g, ihl e id ol]
      constructor
      · rintro ⟨x, hx, hk⟩
        exact ⟨x, (hmem x).2 (Or.inl hx), hk⟩
      · rintro ⟨x, hx, hk⟩
        rcases (hmem x).1 hx with hx | hx | hx
        · exact ⟨x, hx, hk⟩
        · rw [hx] at hk
          exact absurd hk (no_key_of_below e id dev dev g (keyLe_refl _))
        · exact absurd hk (no_key_of_below e id dev x g (hr x hx))
    · rw [containsRec_here dev l r e id g1 g2]
      simp only [true_iff]
      exact ⟨dev, (hmem dev).2 (Or.inr (Or.inl rfl)), (hasKey_iff e id dev).2 ⟨g1.symm, g2.symm⟩⟩
    · rw [containsRec_right dev l r e id g, ihr e id or]
      constructor
      · rintro ⟨x, hx, hk⟩
        exact ⟨x, (hmem x).2 (Or.inr (Or.inr hx)), hk⟩
      · rintro ⟨x, hx, hk⟩
        rcases (hmem x).1 hx with hx | hx | hx
        · exact absurd hk (no_key_of_above e id dev x g (Or.inl (hl x hx)))
        · rw [hx] at hk
          exact absurd hk (no_key_of_above e id dev dev g (keyLe_refl _))
        · exact ⟨x, hx, hk⟩

theorem eraseP_split {α : Type} (p : α → Bool) : ∀ l : List α, (∃ x ∈ l, p x = true) →
    ∃ pre x post, l = pre ++ x :: post ∧ p x = true ∧ (∀ y ∈ pre, ¬ p y = true) ∧
      l.eraseP p = pre ++ post := by
  intro l
  induction l with
  | nil => rintro ⟨x, hx, _⟩; cases hx
  | cons a l ih =>
    rintro ⟨x, hx, hk⟩
    by_cases ha : p a = true
    · exact ⟨[], a, l, rfl, ha, by simp, by rw [List.eraseP_cons_of_pos ha]; rfl⟩
    · have hx2 : x ∈ l := by
        rcases List.mem_cons.1 hx with hx | hx
        · rw [hx] at hk; exact absurd hk ha
        · exact hx
      obtain ⟨pre, y, post, h1, h2, h3, h4⟩ := ih ⟨x, hx2, hk⟩
      refine ⟨a :: pre, y, post, by rw [h1]; rfl, h2, ?_, ?_⟩
      · intro z hz
        rcases List.mem_cons.1 hz with hz | hz
        · rw [hz]; exact ha
        · exact h3 z hz
      · rw [List.eraseP_cons_of_neg ha, h4]; rfl

theorem eraseP_none_left {α : Type} (p : α → Bool) : ∀ l : List α, l.countP p = 1 →
    ∀ x ∈ l.eraseP p, ¬ p x = true := by
  intro l
  induction l with
  | nil => intro h; simp at h
  | cons a l ih =>
    intro h x hx
    rw [List.countP_cons] at h
    by_cases ha : p a = true
    · rw [List.eraseP_cons_of_pos ha] at hx
      rw [if_pos ha] at h
      have h0 : l.countP p = 0 := by omega
      exact (List.countP_eq_zero.1 h0) x hx
    · rw [List.eraseP_cons_of_neg ha] at hx
      rw [if_neg ha] at h
      rcases List.mem_cons.1 hx with hx | hx
      · rw [hx]; exact ha
      · exact ih (by omega) x hx

/-! ## The two range queries -/

theorem before_fails_above (limit : Date) (dev x : Device)
    (h : ¬ DateLt dev.expiry limit) (hx : KeyLe dev x) : ¬ DateLt x.expiry limit := by
  simp only [KeyLe, KeyLt, DateLt, date_eq_iff] at *
  omega

theorem after_fails_below (start : Date) (dev x : Device)
    (h : ¬ DateLt start dev.expiry) (hx : KeyLt x dev) : ¬ DateLt start x.expiry := by
  simp only [KeyLt, DateLt, date_eq_iff] at *
  omega

theorem collectBefore_perm (limit : Date) : ∀ (t : Node) (res : List Device), Ordered t →
    (collectBefore t limit res).Perm
      (res ++ (inorder t).filter (fun x => decide (DateLt x.expiry limit))) := by
  intro t
  induction t with
  | null => intro res _; simp [collectBefore, inorder]
  | mk dev l r ihl ihr =>
    intro res ho
    obtain ⟨hl, hr, ol, or⟩ := ho
    have hmk : inorder (.mk dev l r) = inorder l ++ dev :: inorder r := rfl
    rw [hmk, List.filter_append]
    by_cases h : DateLt dev.expiry limit
    · have e : collectBefore (.mk dev l r) limit res
          = collectBefore r limit (collectBefore l limit (res ++ [dev])) := by
        simp [collectBefore, (Date.lt_iff _ _).2 h]
      rw [e, List.filter_cons_of_pos (by simpa using h)]
      refine (ihr _ or).trans ?_
      refine ((ihl (res ++ [dev]) ol).append_right _).trans ?_
      simp only [List.append_assoc, List.singleton_append]
      refine List.Perm.append_left res ?_
      exact (List.perm_middle.symm : _)
    · have hf : dev.expiry.lt limit = false := by
        rw [Bool.eq_false_iff]; intro hc; exact h ((Date.lt_iff _ _).1 hc)
      have e : collectBefore (.mk dev l r) limit res = collectBefore l limit res := by
        simp [collectBefore, hf]
      have hnil : (inorder r).filter (fun x => decide (DateLt x.expiry limit)) = [] := by
        rw [List.filter_eq_nil_iff]
        intro x hx
        simpa using before_fails_above limit dev x h (hr x hx)
      rw [e, List.filter_cons_of_neg (by simpa using h), hnil, List.append_nil]
      exact ihl res ol

theorem collectRange_eq (start endDate : Date) : ∀ (t : Node) (res : List Device), Ordered t →
    collectRange t start endDate res
      = res ++ (inorder t).filter
          (fun x => decide (DateLt start x.expiry ∧ DateLt x.expiry endDate)) := by
  intro t
  induction t with
  | null => intro res _; simp [collectRange, inorder]
  | mk dev l r ihl ihr =>
    intro res ho
    obtain ⟨hl, hr, ol, or⟩ := ho
    have hmk : inorder (.mk dev l r) = inorder l ++ dev :: inorder r := rfl
    rw [hmk, List.filter_append]
    have hL : ¬ DateLt start dev.expiry →
        (inorder l).filter (fun x => decide (DateLt start x.expiry ∧ DateLt x.expiry endDate))
          = [] := by
      intro h
      rw [List.filter_eq_nil_iff]
      intro x hx
      have := after_fails_below start dev x h (hl x hx)
      simp [this]
    have hR : ¬ DateLt dev.expiry endDate →
        (inorder r).filter (fun x => decide (DateLt start x.expiry ∧ DateLt x.expiry endDate))
          = [] := by
      intro h
      rw [List.filter_eq_nil_iff]
      intro x hx
      have := before_fails_above endDate dev x h (hr x hx)
      simp [this]
    by_cases h1 : DateLt start dev.expiry
    · have g1 : dev.expiry.gt start = true := (Date.gt_iff _ _).2 h1
      by_cases h2 : DateLt dev.expiry endDate
      · have g2 : dev.expiry.lt endDate = true := (Date.lt_iff _ _).2 h2
        have e : collectRange (.mk dev l r) start endDate res
            = collectRange r start endDate (collectRange l start endDate res ++ [dev]) := by
          simp [collectRange, g1, g2]
        rw [e, ihr _ or, ihl _ ol, List.filter_cons_of_pos (by simp [h1, h2])]
        simp only [List.append_assoc, List.singleton_append]
      · have g2 : dev.expiry.lt endDate = false := by
          rw [Bool.eq_false_iff]; intro hc; exact h2 ((Date.lt_iff _ _).1 hc)
        have e : collectRange (.mk dev l r) start endDate res
            = collectRange l start endDate res := by
          simp [collectRange, g1, g2]
        rw [e, ihl _ ol, List.filter_cons_of_neg (by simp [h2]), hR h2, List.append_nil]
    · have g1 : dev.expiry.gt start = false := by
        rw [Bool.eq_false_iff]; intro hc; exact h1 ((Date.gt_iff _ _).1 hc)
      by_cases h2 : DateLt dev.expiry endDate
      · have g2 : dev.expiry.lt endDate = true := (Date.lt_iff _ _).2 h2
        have e : collectRange (.mk dev l r) start endDate res
            = collectRange r start endDate res := by
          simp [collectRange, g1, g2]
        rw [e, ihr _ or, List.filter_cons_of_neg (by simp [h1]), hL h1, List.nil_append]
      · have g2 : dev.expiry.lt endDate = false := by
          rw [Bool.eq_false_iff]; intro hc; exact h2 ((Date.lt_iff _ _).1 hc)
        have e : collectRange (.mk dev l r) start endDate res = res := by
          simp [collectRange, g1, g2]
        rw [e, List.filter_cons_of_neg (by simp [h1]), hL h1, hR h2]
        simp

theorem inorder_insertRec_perm (d : Device) : ∀ t : Node,
    (inorder (insertRec t d)).Perm (d :: inorder t) := by
  intro t
  induction t with
  | null => simp [insertRec, inorder]
  | mk dev l r ihl ihr =>
    by_cases h : KeyLt d dev
    · rw [insertRec_left dev d l r h]
      show (inorder (insertRec l d) ++ dev :: inorder r).Perm (d :: (inorder l ++ dev :: inorder r))
      exact (ihl.append_right _)
    · rw [insertRec_right dev d l r ((not_keyLt_iff _ _).1 h)]
      show (inorder l ++ dev :: inorder (insertRec r d)).Perm (d :: (inorder l ++ dev :: inorder r))
      refine (List.Perm.append_left _ ((List.Perm.cons dev ihr).trans (List.Perm.swap d dev _))).trans ?_
      exact List.perm_middle

/-! ## Claims on `DeviceBST` -/

/-- Claim C24. The operators `<` and `>` of `Date` are the lexicographic order on year,
month, day; the empty tree satisfies the search-tree ordering on the key
`(expiry, deviceId)`; `insert` and `remove` preserve it; so after any sequence of `insert`
and `remove` calls on the empty tree, at every node the devices of the left subtree have a
strictly smaller key and the devices of the right subtree a greater or equal key. -/
theorem insert_remove_keep_ordering (ops : List Op) :
    (∀ a b : Date, (a.lt b = true ↔ DateLt a b) ∧ (a.gt b = true ↔ DateLt b a)) ∧
    Ordered DeviceBST.new.root ∧
    (∀ (t : DeviceBST) (d : Device), Ordered t.root → Ordered (t.insert d).root) ∧
    (∀ (t : DeviceBST) (e : Date) (id : Int), Ordered t.root → Ordered (t.remove e id).root) ∧
    Ordered (DeviceBST.run ops).root :=
  ⟨fun a b => ⟨Date.lt_iff a b, Date.gt_iff a b⟩, trivial,
    fun t d h => ordered_insertRec d t.root h,
    fun t e id h => ordered_removeRec t.root e id h, ordered_run ops⟩

/-- Evaluation for C24: the tree after the sample calls, and after removing the key of its
root, which has two children. -/
theorem insert_remove_keep_ordering_witness :
    ((∀ a b : Date, (a.lt b = true ↔ DateLt a b) ∧ (a.gt b = true ↔ DateLt b a)) ∧
      Ordered DeviceBST.new.root ∧
      (∀ (t : DeviceBST) (d : Device), Ordered t.root → Ordered (t.insert d).root) ∧
      (∀ (t : DeviceBST) (e : Date) (id : Int), Ordered t.root →
        Ordered (t.remove e id).root) ∧
      Ordered (DeviceBST.run (sampleOps ++ [.remove (makeDate 2025 6 1) 2])).root) ∧
    (DeviceBST.run sampleOps).root
      = .mk dev2 (.mk dev1 .null .null)
          (.mk dev4 (.mk dev3 .null (.mk dev3b .null .null)) .null) ∧
    (DeviceBST.run (sampleOps ++ [.remove (makeDate 2025 6 1) 2])).root
      = .mk dev3 (.mk dev1 .null .null) (.mk dev4 (.mk dev3b .null .null) .null) :=
  ⟨insert_remove_keep_ordering (sampleOps ++ [.remove (makeDate 2025 6 1) 2]),
    by decide, by decide⟩

/-- Claim C25. For every tree built by `insert` and `remove` calls and every key
`(expiry, deviceId)`: if no stored device has the key, `remove` returns the tree unchanged;
otherwise it deletes exactly one device with that key, the first one of the in-order
sequence, and the in-order sequence of the remaining devices is unchanged.
`containsDevice` is true exactly when a stored device has the key, so when the key is
stored once it is true before the call and false after it. -/
theorem remove_deletes_one_device (ops : List Op) (e : Date) (id : Int) :
    ((∀ x ∈ inorder (DeviceBST.run ops).root, ¬ (x.expiry = e ∧ x.deviceId = id)) →
      (DeviceBST.run ops).remove e id = DeviceBST.run ops) ∧
    ((∃ x ∈ inorder (DeviceBST.run ops).root, x.expiry = e ∧ x.deviceId = id) →
      ∃ pre x post, inorder (DeviceBST.run ops).root = pre ++ x :: post ∧
        x.expiry = e ∧ x.deviceId = id ∧
        (∀ y ∈ pre, ¬ (y.expiry = e ∧ y.deviceId = id)) ∧
        inorder ((DeviceBST.run ops).remove e id).root = pre ++ post) ∧
    ((DeviceBST.run ops).containsDevice e id = true ↔
      ∃ x ∈ inorder (DeviceBST.run ops).root, x.expiry = e ∧ x.deviceId = id) ∧
    ((inorder (DeviceBST.run ops).root).countP (hasKey e id) = 1 →
      (DeviceBST.run ops).containsDevice e id = true ∧
      ((DeviceBST.run ops).remove e id).containsDevice e id = false) := by
  have ho := ordered_run ops
  have hc : (DeviceBST.run ops).containsDevice e id = true ↔
      ∃ x ∈ inorder (DeviceBST.run ops).root, x.expiry = e ∧ x.deviceId = id := by
    unfold DeviceBST.containsDevice
    rw [containsRec_iff _ e id ho]
    simp only [hasKey_iff]
  refine ⟨?_, ?_, hc, ?_⟩
  · intro h
    have : removeRec (DeviceBST.run ops).root e id = (DeviceBST.run ops).root :=
      removeRec_of_no_key e id _ (fun x hx hk => h x hx ((hasKey_iff e id x).1 hk))
    unfold DeviceBST.remove
    rw [this]
  · rintro ⟨x, hx, hk⟩
    obtain ⟨pre, y, post, h1, h2, h3, h4⟩ :=
      eraseP_split (hasKey e id) (inorder (DeviceBST.run ops).root)
        ⟨x, hx, (hasKey_iff e id x).2 hk⟩
    refine ⟨pre, y, post, h1, ((hasKey_iff e id y).1 h2).1, ((hasKey_iff e id y).1 h2).2,
      fun z hz hkz => h3 z hz ((hasKey_iff e id z).2 hkz), ?_⟩
    unfold DeviceBST.remove
    rw [inorder_removeRec _ e id ho, h4]
  · intro h1
    constructor
    · rw [hc]
      have hpos : 0 < (inorder (DeviceBST.run ops).root).countP (hasKey e id) := by omega
      obtain ⟨x, hx, hk⟩ := List.countP_pos_iff.1 hpos
      exact ⟨x, hx, (hasKey_iff e id x).1 hk⟩
    · rw [Bool.eq_false_iff]
      intro hcon
      unfold DeviceBST.containsDevice DeviceBST.remove at hcon
      rw [containsRec_iff _ e id (ordered_removeRec _ e id ho)] at hcon
      obtain ⟨x, hx, hk⟩ := hcon
      rw [inorder_removeRec _ e id ho] at hx
      exact eraseP_none_left (hasKey e id) _ h1 x hx hk

/-- Evaluation for C25 on the sample tree: removing the key of device 3, which is stored
twice, deletes the first of the two; removing the key of device 2, stored once at the
root, makes `containsDevice` false; removing a key that is not stored changes nothing. -/
theorem remove_deletes_one_device_witness :
    inorder (DeviceBST.run sampleOps).root = [dev1, dev2, dev3, dev3b, dev4] ∧
    inorder ((DeviceBST.run sampleOps).remove (makeDate 2025 6 1) 3).root
      = [dev1, dev2, dev3b, dev4] ∧
    inorder ((DeviceBST.run sampleOps).remove (makeDate 2025 6 1) 2).root
      = [dev1, dev3, dev3b, dev4] ∧
    (DeviceBST.run sampleOps).containsDevice (makeDate 2025 6 1) 2 = true ∧
    ((DeviceBST.run sampleOps).remove (makeDate 2025 6 1) 2).containsDevice
      (makeDate 2025 6 1) 2 = false ∧
    (DeviceBST.run sampleOps).remove (makeDate 2025 6 1) 9 = DeviceBST.run sampleOps ∧
    ((DeviceBST.run sampleOps).containsDevice (makeDate 2025 6 1) 3 = true ↔
      ∃ x ∈ inorder (DeviceBST.run sampleOps).root,
        x.expiry = makeDate 2025 6 1 ∧ x.deviceId = 3) :=
  ⟨by decide, by decide, by decide, by decide, by decide, by decide,
    (remove_deletes_one_device sampleOps (makeDate 2025 6 1) 3).2.2.1⟩

/-- Claim C26. For every tree built by `insert` and `remove` calls and all dates `start`,
`end`, `allExpiringInRange(start, end)` returns the in-order sequence of the stored devices
restricted to those with `start < expiry < end`, both bounds exclusive: every qualifying
device, as often as it is stored, and no other; and the in-order sequence, so also the
result, is ascending in the key `(expiry, deviceId)`. -/
theorem allExpiringInRange_exact (ops : List Op) (start endDate : Date) :
    (DeviceBST.run ops).allExpiringInRange start endDate
      = (inorder (DeviceBST.run ops).root).filter
          (fun x => decide (DateLt start x.expiry ∧ DateLt x.expiry endDate)) ∧
    (inorder (DeviceBST.run ops).root).Pairwise KeyLe ∧
    ((DeviceBST.run ops).allExpiringInRange start endDate).Pairwise KeyLe := by
  have ho := ordered_run ops
  have h1 : (DeviceBST.run ops).allExpiringInRange start endDate
      = (inorder (DeviceBST.run ops).root).filter
          (fun x => decide (DateLt start x.expiry ∧ DateLt x.expiry endDate)) := by
    unfold DeviceBST.allExpiringInRange
    rw [collectRange_eq start endDate _ [] ho, List.nil_append]
  refine ⟨h1, inorder_pairwise _ ho, ?_⟩
  rw [h1]
  exact (inorder_pairwise _ ho).filter _

/-- Evaluation for C26 on the sample tree: the bounds `2025-03-10` and `2026-01-15` are the
expiry dates of devices 1 and 4, which are left out. -/
theorem allExpiringInRange_exact_witness :
    ((DeviceBST.run sampleOps).allExpiringInRange (makeDate 2025 3 10) (makeDate 2026 1 15)
        = (inorder (DeviceBST.run sampleOps).root).filter
            (fun x => decide (DateLt (makeDate 2025 3 10) x.expiry ∧
              DateLt x.expiry (makeDate 2026 1 15))) ∧
      (inorder (DeviceBST.run sampleOps).root).Pairwise KeyLe ∧
      ((DeviceBST.run sampleOps).allExpiringInRange (makeDate 2025 3 10)
        (makeDate 2026 1 15)).Pairwise KeyLe) ∧
    (DeviceBST.run sampleOps).allExpiringInRange (makeDate 2025 3 10) (makeDate 2026 1 15)
      = [dev2, dev3, dev3b] ∧
    (DeviceBST.run sampleOps).allExpiringInRange (makeDate 2025 1 1) (makeDate 2025 12 31)
      = [dev1, dev2, dev3, dev3b] :=
  ⟨allExpiringInRange_exact sampleOps (makeDate 2025 3 10) (makeDate 2026 1 15),
    by decide, by decide⟩

/-- Claim C27. For every tree built by `insert` and `remove` calls and every date `limit`,
`allExpiringBefore(limit)` returns, as a multiset, exactly the stored devices whose expiry
is strictly earlier than `limit`: the result is a permutation of the in-order sequence
restricted to these devices. -/
theorem allExpiringBefore_exact (ops : List Op) (limit : Date) :
    ((DeviceBST.run ops).allExpiringBefore limit).Perm
      ((inorder (DeviceBST.run ops).root).filter (fun x => decide (DateLt x.expiry limit))) := by
  have h := collectBefore_perm limit (DeviceBST.run ops).root [] (ordered_run ops)
  rw [List.nil_append] at h
  exact h

/-- Evaluation for C27 on the sample tree: the result lists a node before its subtrees, and
the right subtree of device 4, which does not expire before the limit, is skipped. -/
theorem allExpiringBefore_exact_witness :
    ((DeviceBST.run sampleOps).allExpiringBefore (makeDate 2025 12 31)).Perm
      ((inorder (DeviceBST.run sampleOps).root).filter
        (fun x => decide (DateLt x.expiry (makeDate 2025 12 31)))) ∧
    (DeviceBST.run sampleOps).allExpiringBefore (makeDate 2025 12 31)
      = [dev2, dev1, dev3, dev3b] ∧
    (DeviceBST.run sampleOps).allExpiringBefore (makeDate 2025 6 1) = [dev1] :=
  ⟨allExpiringBefore_exact sampleOps (makeDate 2025 12 31), by decide, by decide⟩

end BstAssetLifecycleCase3
